import Mathlib

/-!
# Bicycle Mango: the novel-tuple engine

A shallow embedding of `src/bicycle_mango.h` (class `mango`) and of the parts of
`src/sun_lambda.h` it uses.

Conventions of the embedding.

* `size_t` identifiers (`PropTypeId`, `PropIdRaw`, `SunLambda::Id`) are natural numbers.
* A `std::unordered_map` that the code iterates over, or whose key set it tests with
  `count`, is an association list with unique keys; `operator[]` on an absent key appends
  the key with a default value (`mtouch`).  A map that is only ever read and written
  through `operator[]` is a total function returning the default value on absent keys.
  The iteration order of a `std::unordered_map` is unspecified; the embedding iterates in
  insertion order, and the evaluations stated below do not depend on that choice.
* A `std::set` is a duplicate-free list kept in the order of its comparison (`setInsert`).
  For `std::set<Stage>`, whose comparison is not a strict weak order, the list is the content
  of the container on the stage sets that the comparison orders one way only (see
  `insertStage`); the scenarios evaluated below attach one stage per prop at most.
* The static variables of `mango` are the fields of `State`; the functions of `mango`
  are state transformers.  A function returns `none` where the C++ has no defined result:
  calling an empty `std::function`, `back()` / `pop_back()` on an empty vector, indexing a
  vector out of range.
* User callbacks (`compatible`, `reuseOnStages`, the removal search) are pure functions.
  The jolt callbacks behind `SunLambda::Emerge` and `SunLambda::Breakup` are recorded in
  the logs `emergeCalls` and `breakupCalls`; calls of the `freeFunctions` in `freed`.
  The SunLambdas of the emerge and breakup sets are taken to be in the `SunLambdaRegistry`,
  so that their jolt callback exists.
* Console output is left out.  The reads `propTypeNames[t]` made for printing concern types
  that `GetPropTypeId` has entered before (the types of registered typesets and of created
  props), so they add no key.
* The vector `schedules` is kept apart from `State`: `Plan` is a function on the list of
  schedules.  The type `Specificity<4>` of `specificity.h` and its `operator<` are parameters
  of the scheduler definitions.
-/

namespace Mango

/-! ## Identifiers and small containers -/

abbrev PropTypeId := Nat
abbrev PropIdRaw := Nat
abbrev SunId := Nat
abbrev Group := Nat
abbrev Instance := Nat

/-- The struct `Stage` of `sun_lambda.h`; both fields are `uint16_t`. -/
structure Stage where
  group : Group
  inst : Instance
deriving DecidableEq, Repr

/-- The `operator<` of `Stage`, as written: `a.group < b.group || a.instance < b.instance`. -/
def Stage.lt (a b : Stage) : Bool :=
  decide (a.group < b.group) || decide (a.inst < b.inst)

abbrev GroupSet := List Stage

/-- The struct `GlobalPropId`. -/
structure GlobalPropId where
  typeId : PropTypeId
  id : PropIdRaw
deriving DecidableEq, Repr

abbrev Typeset := List PropTypeId
abbrev NovelTuple := List GlobalPropId

/-- Lexicographic `operator<` of `std::vector<size_t>`, the order of `std::set<Typeset>`. -/
def typesetLt : Typeset → Typeset → Bool
  | [], [] => false
  | [], _ :: _ => true
  | _ :: _, [] => false
  | a :: as, b :: bs => if a < b then true else if b < a then false else typesetLt as bs

/-- Strict order of `size_t`. -/
def natLt (a b : Nat) : Bool := decide (a < b)

/-- Insertion `std::set::insert` into a set kept as an ordered list: nothing happens when an
equivalent element is present. -/
def setInsert {α : Type} (lt : α → α → Bool) (x : α) : List α → List α
  | [] => [x]
  | y :: ys =>
    if lt x y then x :: y :: ys
    else if lt y x then y :: setInsert lt x ys
    else y :: ys

/-- Point update of a total map. -/
def upd {κ α : Type} [DecidableEq κ] (f : κ → α) (k : κ) (v : α) : κ → α :=
  fun x => if x = k then v else f x

/-- Lookup `find` in an association list. -/
def mfind {κ α : Type} [DecidableEq κ] (k : κ) : List (κ × α) → Option α
  | [] => none
  | (k', v) :: m => if k' = k then some v else mfind k m

/-- Membership test `count(k) > 0`. -/
def mhas {κ α : Type} [DecidableEq κ] (k : κ) (m : List (κ × α)) : Bool :=
  (mfind k m).isSome

/-- Value read through `operator[]`: the default value when the key is absent. -/
def mgetD {κ α : Type} [DecidableEq κ] (k : κ) (d : α) (m : List (κ × α)) : α :=
  (mfind k m).getD d

/-- Key creation by `operator[]`: an absent key is added with the default value. -/
def mtouch {κ α : Type} [DecidableEq κ] (k : κ) (d : α) (m : List (κ × α)) : List (κ × α) :=
  if mhas k m then m else m ++ [(k, d)]

/-- Assignment `m[k] = v`. -/
def mset {κ α : Type} [DecidableEq κ] (k : κ) (v : α) : List (κ × α) → List (κ × α)
  | [] => [(k, v)]
  | (k', v') :: m => if k' = k then (k, v) :: m else (k', v') :: mset k v m

/-- Removal `erase(k)`. -/
def merase {κ α : Type} [DecidableEq κ] (k : κ) : List (κ × α) → List (κ × α)
  | [] => []
  | (k', v') :: m => if k' = k then m else (k', v') :: merase k m

/-- Keys of an association list. -/
def mkeys {κ α : Type} (m : List (κ × α)) : List κ := m.map Prod.fst

/-- Last element `back()` of a vector. -/
def back {α : Type} : List α → Option α
  | [] => none
  | [x] => some x
  | _ :: y :: ys => back (y :: ys)

/-- Removal of the last element, `pop_back()`. -/
def popBack {α : Type} : List α → Option (List α)
  | [] => none
  | [_] => some []
  | x :: y :: ys => (popBack (y :: ys)).map (fun r => x :: r)

/-- Removal of the element at an index, `erase(begin() + i)`. -/
def eraseAt {α : Type} : List α → Nat → Option (List α)
  | [], _ => none
  | _ :: xs, 0 => some xs
  | x :: xs, i + 1 => (eraseAt xs i).map (fun r => x :: r)

/-- Index of the first occurrence of a type in a typeset, `0` when there is none
(`typesetRemovalIndex` in `RemoveProps`). -/
def firstIndexOr0 (t : PropTypeId) : Typeset → Nat → Nat
  | [], _ => 0
  | x :: xs, i => if x = t then i else firstIndexOr0 t xs (i + 1)

/-! ## The static state of `mango` -/

abbrev CompatibleConstraint := PropTypeId → GroupSet → Bool
abbrev ReuseFunction := GroupSet → PropTypeId → GroupSet → Bool

/-- The struct `NovelTupleCreator`: an optional compatibility constraint (an empty
`std::function` is `none`) and the map `reuseOnStages`. -/
structure NovelTupleCreator where
  compatible : Option CompatibleConstraint
  reuseOnStages : PropTypeId → Option ReuseFunction

/-- Modelled from the spec: the `IdPool` of `utils/sparse_array.h`, which is not in the
sources at hand.  Instances of a group come from an advancing counter with a free list. -/
structure IdPool where
  nextId : Nat
  freeIds : List Nat
deriving DecidableEq, Repr

/-- Modelled from the spec: `IdPool::free`, returning an instance to the free list. -/
def IdPool.free (p : IdPool) (i : Instance) : IdPool :=
  { p with freeIds := i :: p.freeIds }

/-- The struct `DelayedPropCreator`. -/
structure DelayedPropCreator where
  gpid : GlobalPropId
  stages : GroupSet

/-- The static data members of `mango`, with the call logs of the callbacks. -/
structure State where
  propTypeNames : List PropTypeId
  mappedPropTupleTypesets : PropTypeId → List Typeset
  globalPropTupleTypesets : List Typeset
  sunLambdaTypesets : SunId → Typeset
  typesetSunLambdas : Typeset → List SunId
  novelTupleCreators : SunId → NovelTupleCreator
  emerges : List SunId
  breakups : List SunId
  ptpsq : PropTypeId → List (PropIdRaw × GroupSet)
  instanceBuffer : Group → IdPool
  stagingPropTuples : SunId → List (PropTypeId × List PropIdRaw)
  partialStatics : SunId → PropTypeId → List PropIdRaw
  novelTuples : SunId → List NovelTuple
  propsToAdd : List DelayedPropCreator
  propsToRemove : List (PropTypeId × List PropIdRaw)
  tuplesToBreakup : List (SunId × List Nat)
  emergeCalls : List (SunId × List PropIdRaw)
  breakupCalls : List (SunId × List PropIdRaw)
  freed : List GlobalPropId

/-- The state at program start: every container empty. -/
def State.empty : State where
  propTypeNames := []
  mappedPropTupleTypesets := fun _ => []
  globalPropTupleTypesets := []
  sunLambdaTypesets := fun _ => []
  typesetSunLambdas := fun _ => []
  novelTupleCreators := fun _ => ⟨none, fun _ => none⟩
  emerges := []
  breakups := []
  ptpsq := fun _ => []
  instanceBuffer := fun _ => ⟨0, []⟩
  stagingPropTuples := fun _ => []
  partialStatics := fun _ _ => []
  novelTuples := fun _ => []
  propsToAdd := []
  propsToRemove := []
  tuplesToBreakup := []
  emergeCalls := []
  breakupCalls := []
  freed := []

/-- The staging queue `stagingPropTuples[sun][ptid]` as a reader sees it. -/
def State.staged (s : State) (sun : SunId) (ptid : PropTypeId) : List PropIdRaw :=
  mgetD ptid [] (s.stagingPropTuples sun)

/-- The component `(ptid, rid)` has an entry in the stage index `ptpsq`. -/
def State.tracked (s : State) (ptid : PropTypeId) (rid : PropIdRaw) : Bool :=
  mhas rid (s.ptpsq ptid)

/-- The stage set `ptpsq[ptid][rid]` as a reader sees it. -/
def State.stagesOf (s : State) (ptid : PropTypeId) (rid : PropIdRaw) : GroupSet :=
  mgetD rid [] (s.ptpsq ptid)

/-- The component is in the removal set `propsToRemove`. -/
def State.pendingRemoval (s : State) (g : GlobalPropId) : Bool :=
  decide (g.id ∈ mgetD g.typeId [] s.propsToRemove)

/-! ## Registration -/

/-- The effect of `GetPropTypeId<T>()` on the static state: the type becomes known
(`propTypeNames`, `freeFunctions`). -/
def GetPropTypeId (s : State) (t : PropTypeId) : State :=
  { s with propTypeNames := if t ∈ s.propTypeNames then s.propTypeNames
                            else s.propTypeNames ++ [t] }

/-- The loop of `ConsiderTypeset` over the types of the typeset. -/
def ConsiderTypeset.index (typeset : Typeset) : List PropTypeId → State → State
  | [], s => s
  | ptid :: rest, s =>
    ConsiderTypeset.index typeset rest
      { s with
        globalPropTupleTypesets := setInsert typesetLt typeset s.globalPropTupleTypesets
        mappedPropTupleTypesets :=
          upd s.mappedPropTupleTypesets ptid
            (setInsert typesetLt typeset (s.mappedPropTupleTypesets ptid)) }

/-- The function `ConsiderTypeset<PTypes...>(id)`. -/
def ConsiderTypeset (s : State) (id : SunId) (typeset : Typeset) : State :=
  let s1 := typeset.foldl GetPropTypeId s
  let s2 := { s1 with
    sunLambdaTypesets := upd s1.sunLambdaTypesets id typeset
    typesetSunLambdas := upd s1.typesetSunLambdas typeset (s1.typesetSunLambdas typeset ++ [id]) }
  ConsiderTypeset.index typeset typeset s2

/-- The function `Emerge(id)`. -/
def Emerge (s : State) (id : SunId) : State :=
  { s with emerges := setInsert natLt id s.emerges }

/-- The function `Breakup(id)`. -/
def Breakup (s : State) (id : SunId) : State :=
  { s with breakups := setInsert natLt id s.breakups }

/-- The function `Partial<PropType>(sunLambdaId, reuse)`. -/
def Partial (s : State) (t : PropTypeId) (sunLambdaId : SunId) (reuse : ReuseFunction) : State :=
  let s1 := GetPropTypeId s t
  let c := s1.novelTupleCreators sunLambdaId
  let c1 : NovelTupleCreator := ⟨c.compatible, upd c.reuseOnStages t (some reuse)⟩
  { s1 with novelTupleCreators := upd s1.novelTupleCreators sunLambdaId c1 }

/-- The function `Singleton<PropType>(sunLambdaId)`: a reuse function that is always true. -/
def Singleton (s : State) (t : PropTypeId) (sunLambdaId : SunId) : State :=
  Partial s t sunLambdaId (fun _ _ _ => true)

/-- The function `Require<PropType>(sunLambdaId, group)`.  The constraint compares the type it is
asked about with `GetPropTypeId<PropTypeId>()`, the type id of the integer type `PropTypeId`,
which is the parameter `idOfPropTypeId`.  The template parameter `PropType` does not occur in
the body, so it is no parameter here; the entry of the integer type in `propTypeNames`, which a
call of the constraint makes, is left out. -/
def Require (s : State) (idOfPropTypeId : PropTypeId) (sunLambdaId : SunId) (group : Group) :
    State :=
  let c := s.novelTupleCreators sunLambdaId
  let compatible : CompatibleConstraint := fun ptid stages =>
    if idOfPropTypeId = ptid then stages.any (fun stage => stage.group == group) else true
  let c1 : NovelTupleCreator := ⟨some compatible, c.reuseOnStages⟩
  { s with novelTupleCreators := upd s.novelTupleCreators sunLambdaId c1 }

/-! ## Tuple formation: `ConsiderProp` -/

/-- The lambda `IsPropCompatibleWithSunLambda` of `ConsiderProp`: the component must be in the
stage index, and an absent compatibility constraint accepts it. -/
def IsPropCompatibleWithSunLambda (s : State) (sun : SunId) (ptid : PropTypeId)
    (rid : PropIdRaw) : Bool :=
  match mfind rid (s.ptpsq ptid) with
  | some stages =>
    match (s.novelTupleCreators sun).compatible with
    | none => true
    | some compatible => compatible ptid stages
  | none => false

/-- The lambda `FindPartialStatic(ptid)` of `ConsiderProp`, run over the list
`partialStatics[sun][ptid]`.  The reuse function is called with the stage set of the added
prop, the type of the added prop and `ptpsq[propTypeId][ps]`; reading the latter through
`operator[]` creates the entry.  A missing reuse function is an empty `std::function`. -/
def FindPartialStatic (sun : SunId) (stages : GroupSet) (propTypeId ptid : PropTypeId) :
    List PropIdRaw → State → Option (State × Option PropIdRaw)
  | [], s => some (s, none)
  | ps :: rest, s =>
    match (s.novelTupleCreators sun).reuseOnStages ptid with
    | none => none
    | some reuse =>
      let s1 := { s with ptpsq := upd s.ptpsq propTypeId (mtouch ps [] (s.ptpsq propTypeId)) }
      if reuse stages propTypeId (mgetD ps [] (s1.ptpsq propTypeId)) then some (s1, some ps)
      else FindPartialStatic sun stages propTypeId ptid rest s1

/-- The first loop over the typeset in `ConsiderProp`: every type other than the added one needs
a non-empty staging queue or a partial static.  The result carries `partialStaticNeighbors` and
the flag `novelTupleRuledOut`. -/
def completenessLoop (sun : SunId) (stages : GroupSet) (propTypeId : PropTypeId) :
    List PropTypeId → State → List (PropTypeId × PropIdRaw) →
      Option (State × List (PropTypeId × PropIdRaw) × Bool)
  | [], s, psn => some (s, psn, false)
  | ptid :: rest, s, psn =>
    if ptid = propTypeId then completenessLoop sun stages propTypeId rest s psn
    else
      let pn := mtouch ptid [] (s.stagingPropTuples sun)
      let s1 := { s with stagingPropTuples := upd s.stagingPropTuples sun pn }
      if (mgetD ptid [] (s1.stagingPropTuples sun)).isEmpty then
        match FindPartialStatic sun stages propTypeId ptid (s1.partialStatics sun ptid) s1 with
        | none => none
        | some (s2, none) => some (s2, psn, true)
        | some (s2, some ps) => completenessLoop sun stages propTypeId rest s2 (mset ptid ps psn)
      else completenessLoop sun stages propTypeId rest s1 psn

/-- The inner loop of the neighbour search: the first queued neighbour, in queue order, that is
compatible with the SunLambda. -/
def firstCompatible (s : State) (sun : SunId) (ptid : PropTypeId) :
    List PropIdRaw → Option PropIdRaw
  | [] => none
  | neighborId :: rest =>
    if IsPropCompatibleWithSunLambda s sun ptid neighborId then some neighborId
    else firstCompatible s sun ptid rest

/-- The loop over `potentialNeighbors` in `ConsiderProp`, filling `compatibleNeighbors`.  The
second component is `novelTupleRuledOut`. -/
def neighborLoop (s : State) (sun : SunId) (propTypeId : PropTypeId)
    (psn : List (PropTypeId × PropIdRaw)) :
    List (PropTypeId × List PropIdRaw) → List (PropTypeId × List PropIdRaw) →
      List (PropTypeId × List PropIdRaw) × Bool
  | [], cn => (cn, false)
  | (t, queue) :: rest, cn =>
    if t = propTypeId ∨ mhas t psn = true then neighborLoop s sun propTypeId psn rest cn
    else
      let cn1 := match firstCompatible s sun t queue with
        | some neighborId => mset t (mgetD t [] cn ++ [neighborId]) cn
        | none => cn
      let cn2 := mtouch t [] cn1
      if (mgetD t [] cn2).isEmpty then (cn2, true)
      else neighborLoop s sun propTypeId psn rest cn2

/-- The assembly loop of `ConsiderProp` over the typeset.  It threads the staging map of the
SunLambda (`potentialNeighbors`), the tuple built so far, the running index `i` and
`addedPropTypeIndex`. -/
def assemble (consider : GlobalPropId) (psn : List (PropTypeId × PropIdRaw))
    (cn : List (PropTypeId × List PropIdRaw)) :
    List PropTypeId → List (PropTypeId × List PropIdRaw) → NovelTuple → Nat → Nat →
      Option (List (PropTypeId × List PropIdRaw) × NovelTuple × Nat)
  | [], pn, tuple, _, added => some (pn, tuple, added)
  | ptid :: rest, pn, tuple, i, added =>
    if ptid = consider.typeId then
      assemble consider psn cn rest pn (tuple ++ [⟨ptid, consider.id⟩]) (i + 1) i
    else
      match mfind ptid psn with
      | some ps => assemble consider psn cn rest pn (tuple ++ [⟨ptid, ps⟩]) (i + 1) added
      | none =>
        match back (mgetD ptid [] cn), popBack (mgetD ptid [] pn) with
        | some n, some q =>
          assemble consider psn cn rest (mset ptid q pn) (tuple ++ [⟨ptid, n⟩]) (i + 1) added
        | _, _ => none

/-- Assignment `v[i] = x` to a vector, undefined out of range. -/
def setAt {α : Type} : List α → Nat → α → Option (List α)
  | [], _, _ => none
  | _ :: xs, 0, a => some (a :: xs)
  | x :: xs, i + 1, a => (setAt xs i a).map (fun r => x :: r)

/-- The loop over `emerges` after a tuple is pushed: the first SunLambda of the emerge set, in
increasing order of id, whose typeset equals the current typeset. -/
def emergeTarget (s : State) (typeset : Typeset) : List SunId → Option SunId
  | [] => none
  | e :: rest => if s.sunLambdaTypesets e = typeset then some e else emergeTarget s typeset rest

/-- The last part of the search, entered when the tuple is not ruled out: the tuple is
assembled, the added prop is written at `addedPropTypeIndex`, the tuple is pushed on the tuple
store of the SunLambda and the emerge loop runs. -/
def formTuple (consider : GlobalPropId) (typeset : Typeset) (sun : SunId) (s2 : State)
    (psn : List (PropTypeId × PropIdRaw)) (cn : List (PropTypeId × List PropIdRaw)) :
    Option State :=
  match assemble consider psn cn typeset (s2.stagingPropTuples sun) [] 0 0 with
  | none => none
  | some (pn, tuple, added) =>
    match setAt tuple added consider with
    | none => none
    | some novelTuple =>
      let s3 := { s2 with
        stagingPropTuples := upd s2.stagingPropTuples sun pn
        novelTuples := upd s2.novelTuples sun (s2.novelTuples sun ++ [novelTuple]) }
      match emergeTarget s3 typeset s3.emerges with
      | some e =>
        let sunData := novelTuple.map GlobalPropId.id
        some { s3 with emergeCalls := s3.emergeCalls ++ [(e, sunData)] }
      | none => some s3

/-- The `else` branch of the search, entered when the tuple is ruled out: the added prop is
staged when it fulfils the compatibility constraint and is not a partial static. -/
def stageAdded (consider : GlobalPropId) (sun : SunId) (staged : Bool) (s2 : State) : State :=
  let queued := mset consider.typeId
    (mgetD consider.typeId [] (s2.stagingPropTuples sun) ++ [consider.id])
    (s2.stagingPropTuples sun)
  if staged then { s2 with stagingPropTuples := upd s2.stagingPropTuples sun queued }
  else s2

/-- The part of the search that follows the completeness loop: the neighbour loop, then the
formation of the tuple or the staging of the added prop. -/
def finishSearch (consider : GlobalPropId) (typeset : Typeset) (sun : SunId) (staged : Bool)
    (s2 : State) (psn : List (PropTypeId × PropIdRaw)) (ruledOut : Bool) : Option State :=
  let searched := if ruledOut then ([], true)
    else neighborLoop s2 sun consider.typeId psn (s2.stagingPropTuples sun) []
  if searched.2 then some (stageAdded consider sun staged s2)
  else formTuple consider typeset sun s2 psn searched.1

/-- The partial-static registration of the added prop: a prop that fulfils the compatibility
constraint and whose type has a reuse function is pushed on `partialStatics[sun][propTypeId]`. -/
def addPartialStatic (consider : GlobalPropId) (sun : SunId) (isPartialStatic : Bool)
    (s : State) : State :=
  let pushed := upd (s.partialStatics sun) consider.typeId
    (s.partialStatics sun consider.typeId ++ [consider.id])
  if isPartialStatic then { s with partialStatics := upd s.partialStatics sun pushed } else s

/-- The body of the two outer loops of `ConsiderProp`: the search for a novel tuple of one
SunLambda bound to one typeset. -/
def considerSunLambda (consider : GlobalPropId) (typeset : Typeset) (sun : SunId)
    (s : State) : Option State :=
  let stages := mgetD consider.id [] (s.ptpsq consider.typeId)
  let fulfills := IsPropCompatibleWithSunLambda s sun consider.typeId consider.id
  let isPartialStatic :=
    fulfills && ((s.novelTupleCreators sun).reuseOnStages consider.typeId).isSome
  let s1 := addPartialStatic consider sun isPartialStatic s
  let checked := if fulfills then completenessLoop sun stages consider.typeId typeset s1 []
    else some (s1, [], true)
  match checked with
  | none => none
  | some (s2, psn, ruledOut) =>
    finishSearch consider typeset sun (fulfills && !isPartialStatic) s2 psn ruledOut

/-- The loop of `ConsiderProp` over `typesetSunLambdas[typeset]`. -/
def considerSunLambdas (consider : GlobalPropId) (typeset : Typeset) :
    List SunId → State → Option State
  | [], s => some s
  | sun :: rest, s =>
    match considerSunLambda consider typeset sun s with
    | none => none
    | some s1 => considerSunLambdas consider typeset rest s1

/-- The loop of `ConsiderProp` over the typesets that contain the type of the added prop. -/
def considerTypesets (consider : GlobalPropId) : List Typeset → State → Option State
  | [], s => some s
  | typeset :: rest, s =>
    match considerSunLambdas consider typeset (s.typesetSunLambdas typeset) s with
    | none => none
    | some s1 => considerTypesets consider rest s1

/-- The function `ConsiderProp(consider)`.  Binding `stages` to `ptpsq[propTypeId][id]` creates
the entry of the added prop in the stage index. -/
def ConsiderProp (s : State) (consider : GlobalPropId) : Option State :=
  let bound := mtouch consider.id [] (s.ptpsq consider.typeId)
  let s0 := { s with ptpsq := upd s.ptpsq consider.typeId bound }
  considerTypesets consider (s0.mappedPropTupleTypesets consider.typeId) s0

/-- Insertion `std::set<Stage>::insert`, as the ordered insertion with the comparison of
`Stage`.  That comparison is not the strict weak order that `std::set` requires: it orders
`(1, 2)` and `(2, 1)` both ways.  The ordered insertion is the insertion of the container on the
stage sets that the comparison orders one way only (`StagesAscending`, see
`insertStage_ascending` and `AddPropStages_stagesOf`).  On other stage sets what the container
holds depends on the shape of its search tree, which a list does not record, and the list
computed here need not be the content of the container. -/
def insertStage (stage : Stage) (stages : GroupSet) : GroupSet :=
  setInsert Stage.lt stage stages

/-- A stage set on which the comparison of `Stage` is a strict total order, listed in ascending
order: along the list neither the group nor the instance decreases and no stage repeats. -/
def StagesAscending (stages : GroupSet) : Prop :=
  stages.Pairwise (fun a b => a.group ≤ b.group ∧ a.inst ≤ b.inst ∧ a ≠ b)

/-- The comparison of `Stage` orders the two stages one way at most. -/
def Stage.Aligned (a b : Stage) : Prop :=
  ¬ (Stage.lt a b = true ∧ Stage.lt b a = true)

/-- The loop of `AddPropStages`: the counter of the group is set to `instance + 1` (a
`uint16_t`) and the stage is inserted in the stage set of the prop. -/
def AddPropStages (gpid : GlobalPropId) : GroupSet → State → State
  | [], s => s
  | stage :: rest, s =>
    let pool : IdPool := ⟨(stage.inst + 1) % 65536, (s.instanceBuffer stage.group).freeIds⟩
    let stageSet := insertStage stage (mgetD gpid.id [] (s.ptpsq gpid.typeId))
    AddPropStages gpid rest
      { s with
        instanceBuffer := upd s.instanceBuffer stage.group pool
        ptpsq := upd s.ptpsq gpid.typeId (mset gpid.id stageSet (s.ptpsq gpid.typeId)) }

/-- The function `InitProp<PropType>(stages)`; the raw id is the one handed out by the handle
pool `GetProps<PropType>().next()`, which is outside this file. -/
def InitProp (s : State) (gpid : GlobalPropId) (stages : GroupSet) : Option State :=
  ConsiderProp (AddPropStages gpid stages (GetPropTypeId s gpid.typeId)) gpid

/-! ## Removal and breakup: `RemoveProps`, `RemovePropsDelayed` -/

/-- Element `v[i]` of a vector, undefined out of range. -/
def nth {α : Type} : List α → Nat → Option α
  | [], _ => none
  | x :: _, 0 => some x
  | _ :: xs, i + 1 => nth xs i

/-- The inner loop of the first part of `RemoveProps`, over the props of one type in the stage
index: a prop whose stage set satisfies the search is inserted in `propsToRemove[propTypeId]`. -/
def markProps (Remove : GroupSet → Bool) (propTypeId : PropTypeId) :
    List (PropIdRaw × GroupSet) → List (PropTypeId × List PropIdRaw) →
      List (PropTypeId × List PropIdRaw)
  | [], toRemove => toRemove
  | (rid, stages) :: rest, toRemove =>
    if Remove stages then
      markProps Remove propTypeId rest
        (mset propTypeId (setInsert natLt rid (mgetD propTypeId [] toRemove)) toRemove)
    else markProps Remove propTypeId rest toRemove

/-- The first part of `RemoveProps`: the loop over the known prop types `propTypeNames`. -/
def markTypes (Remove : GroupSet → Bool) (ptpsq : PropTypeId → List (PropIdRaw × GroupSet)) :
    List PropTypeId → List (PropTypeId × List PropIdRaw) → List (PropTypeId × List PropIdRaw)
  | [], toRemove => toRemove
  | t :: rest, toRemove => markTypes Remove ptpsq rest (markProps Remove t (ptpsq t) toRemove)

/-- The innermost loop of the second part of `RemoveProps`, over the tuples of one SunLambda
with their running `index`: the tuple is marked when the raw id at `typesetRemovalIndex` is in
the removal set of the type. -/
def markTuples (removed : List PropIdRaw) (typesetRemovalIndex : Nat) (sun : SunId) :
    List NovelTuple → Nat → List (SunId × List Nat) → Option (List (SunId × List Nat))
  | [], _, marks => some marks
  | novelTuple :: rest, index, marks =>
    match nth novelTuple typesetRemovalIndex with
    | none => none
    | some g =>
      markTuples removed typesetRemovalIndex sun rest (index + 1)
        (if g.id ∈ removed then mset sun (setInsert natLt index (mgetD sun [] marks)) marks
         else marks)

/-- The loop of `RemoveProps` over the SunLambdas of a typeset. -/
def markSunLambdas (s : State) (removed : List PropIdRaw) (typesetRemovalIndex : Nat) :
    List SunId → List (SunId × List Nat) → Option (List (SunId × List Nat))
  | [], marks => some marks
  | sun :: rest, marks =>
    match markTuples removed typesetRemovalIndex sun (s.novelTuples sun) 0 marks with
    | none => none
    | some marks1 => markSunLambdas s removed typesetRemovalIndex rest marks1

/-- The loop of `RemoveProps` over the typesets that contain a type with pending removals. -/
def markTypesets (s : State) (t : PropTypeId) (removed : List PropIdRaw) :
    List Typeset → List (SunId × List Nat) → Option (List (SunId × List Nat))
  | [], marks => some marks
  | typeset :: rest, marks =>
    match markSunLambdas s removed (firstIndexOr0 t typeset 0) (s.typesetSunLambdas typeset)
        marks with
    | none => none
    | some marks1 => markTypesets s t removed rest marks1

/-- The second part of `RemoveProps`: the loop over the entries of `propsToRemove`. -/
def markBreakups (s : State) :
    List (PropTypeId × List PropIdRaw) → List (SunId × List Nat) →
      Option (List (SunId × List Nat))
  | [], marks => some marks
  | (t, removed) :: rest, marks =>
    match markTypesets s t removed (s.mappedPropTupleTypesets t) marks with
    | none => none
    | some marks1 => markBreakups s rest marks1

/-- The function `RemoveProps(Remove)`. -/
def RemoveProps (s : State) (Remove : GroupSet → Bool) : Option State :=
  let s1 := { s with propsToRemove := markTypes Remove s.ptpsq s.propTypeNames s.propsToRemove }
  match markBreakups s1 s1.propsToRemove s1.tuplesToBreakup with
  | none => none
  | some marks => some { s1 with tuplesToBreakup := marks }

/-- The loop of `GetTypesetIndex`: the index of the first occurrence of the type, the length of
the typeset when there is none. -/
def seekTypesetIndex (ptid : PropTypeId) : List PropTypeId → Nat → Nat
  | [], i => i
  | seek_ptid :: rest, i => if seek_ptid = ptid then i else seekTypesetIndex ptid rest (i + 1)

/-- The function `GetTypesetIndex(sunid, ptid)`. -/
def GetTypesetIndex (s : State) (sunid : SunId) (ptid : PropTypeId) : Nat :=
  seekTypesetIndex ptid (s.sunLambdaTypesets sunid) 0

/-- The body of the loop of `RemovePropsDelayed` over the members of a broken tuple: a member
pending removal is erased from the partial statics of the SunLambda; another member is restaged
unless its type has a reuse function. -/
def breakMember (sun : SunId) (s : State) (gpid : GlobalPropId) : State :=
  if s.pendingRemoval gpid then
    let pss := (s.partialStatics sun gpid.typeId).erase gpid.id
    { s with partialStatics := upd s.partialStatics sun (upd (s.partialStatics sun) gpid.typeId pss) }
  else if ((s.novelTupleCreators sun).reuseOnStages gpid.typeId).isSome then s
  else
    let queue := mgetD gpid.typeId [] (s.stagingPropTuples sun) ++ [gpid.id]
    let restaged := mset gpid.typeId queue (s.stagingPropTuples sun)
    { s with stagingPropTuples := upd s.stagingPropTuples sun restaged }

/-- The loop of `RemovePropsDelayed` over the marked indices of one SunLambda, from the greatest
index down.  For a SunLambda of the breakup set the loop ends at the `break` that follows the
call of `Breakup`, before the tuple is erased. -/
def breakTuples (sun : SunId) : List Nat → State → Option State
  | [], s => some s
  | index :: rest, s =>
    match nth (s.novelTuples sun) index with
    | none => none
    | some tuple =>
      let s1 := tuple.foldl (breakMember sun) s
      if sun ∈ s1.breakups then
        some { s1 with breakupCalls := s1.breakupCalls ++ [(sun, tuple.map GlobalPropId.id)] }
      else
        match eraseAt (s1.novelTuples sun) index with
        | none => none
        | some tuples =>
          breakTuples sun rest { s1 with novelTuples := upd s1.novelTuples sun tuples }

/-- The first loop of `RemovePropsDelayed`, over the entries of `tuplesToBreakup`. -/
def breakAll : List (SunId × List Nat) → State → Option State
  | [], s => some s
  | (sun, indices) :: rest, s =>
    match breakTuples sun indices.reverse s with
    | none => none
    | some s1 => breakAll rest s1

/-- The stages of a removed prop are returned to the pools of their groups. -/
def freeStages : GroupSet → (Group → IdPool) → (Group → IdPool)
  | [], buffer => buffer
  | stage :: rest, buffer =>
    freeStages rest (upd buffer stage.group ((buffer stage.group).free stage.inst))

/-- The inner loop of the second part of `RemovePropsDelayed`: each prop pending removal is
freed, its stages are released and its entry in the stage index is erased.  The removal set
holds known types only (`RemoveProps` fills it from `propTypeNames`), and `GetPropTypeId` gives
every known type its free function. -/
def freeProps (t : PropTypeId) : List PropIdRaw → State → State
  | [], s => s
  | propId :: rest, s =>
    freeProps t rest
      { s with
        freed := s.freed ++ [⟨t, propId⟩]
        instanceBuffer := freeStages (mgetD propId [] (s.ptpsq t)) s.instanceBuffer
        ptpsq := upd s.ptpsq t (merase propId (s.ptpsq t)) }

/-- The second loop of `RemovePropsDelayed`, over the entries of `propsToRemove`. -/
def freeAll : List (PropTypeId × List PropIdRaw) → State → State
  | [], s => s
  | (t, ids) :: rest, s => freeAll rest (freeProps t ids s)

/-- The function `RemovePropsDelayed()`. -/
def RemovePropsDelayed (s : State) : Option State :=
  match breakAll s.tuplesToBreakup s with
  | none => none
  | some s1 =>
    some { freeAll s1.propsToRemove s1 with propsToRemove := [], tuplesToBreakup := [] }

/-! ## Deferred creation: `AddProp`, `CreatePropsDelayed` -/

/-- The function `AddProp<PropType>(stages)`: the prop is allocated by the handle pool (which
hands out the raw id and is outside this file), its type becomes known, and the prop is pushed
with its stages on `propsToAdd`. -/
def AddProp (s : State) (gpid : GlobalPropId) (stages : GroupSet) : State :=
  let s1 := GetPropTypeId s gpid.typeId
  { s1 with propsToAdd := s1.propsToAdd ++ [⟨gpid, stages⟩] }

/-- The loop of `CreatePropsDelayed` over the queued creators: the stages are attached, then the
prop is considered. -/
def createProps : List DelayedPropCreator → State → Option State
  | [], s => some s
  | creator :: rest, s =>
    match ConsiderProp (AddPropStages creator.gpid creator.stages s) creator.gpid with
    | none => none
    | some s1 => createProps rest s1

/-- The function `CreatePropsDelayed()`. -/
def CreatePropsDelayed (s : State) : Option State :=
  match createProps s.propsToAdd s with
  | none => none
  | some s1 => some { s1 with propsToAdd := [] }

/-- The creation flush in the words of the specification: one step per queued prop, in the
order of the queue, each step attaching the stages of the prop and then considering it. -/
def attachThenConsider (s : State) (creator : DelayedPropCreator) : Option State :=
  ConsiderProp (AddPropStages creator.gpid creator.stages s) creator.gpid

/-! ## The scheduler: `Plan` -/

/-- The struct `SunSchedule`.  The type of `specificity` is `Specificity<4>`, declared in
`specificity.h`, which is not at hand: it is the parameter `κ`, and its `operator<` is the
parameter `lt` of the functions below. -/
structure SunSchedule (κ : Type) where
  id : SunId
  specificity : κ

/-- The library function `std::upper_bound` with the comparison given in `Plan`: the position of
the first schedule whose specificity is greater than the given one, the end of the list when
there is none.  The library finds it by bisection, which gives this position on every list in
which the schedules that are not greater come before the greater ones, as in an ascending
list. -/
def upperBound {κ : Type} (lt : κ → κ → Bool) (specificity : κ) : List (SunSchedule κ) → Nat
  | [] => 0
  | b :: rest =>
    if lt specificity b.specificity then 0 else upperBound lt specificity rest + 1

/-- Insertion `insert(begin() + i, a)` into a vector. -/
def insertAt {α : Type} : List α → Nat → α → List α
  | l, 0, a => a :: l
  | [], _ + 1, a => [a]
  | x :: xs, i + 1, a => x :: insertAt xs i a

/-- The function `Plan(id, specificity)`, on the list `schedules`. -/
def Plan {κ : Type} (lt : κ → κ → Bool) (schedules : List (SunSchedule κ)) (id : SunId)
    (specificity : κ) : List (SunSchedule κ) :=
  insertAt schedules (upperBound lt specificity schedules) ⟨id, specificity⟩

/-- A sequence of `Plan` calls (the overload `Plan(std::vector<PlanData>)` is such a
sequence). -/
def planEach {κ : Type} (lt : κ → κ → Bool) :
    List (SunSchedule κ) → List (SunId × κ) → List (SunSchedule κ)
  | schedules, [] => schedules
  | schedules, (id, specificity) :: rest => planEach lt (Plan lt schedules id specificity) rest

/-- The schedule list is in ascending order: no schedule has a specificity smaller than that
of a schedule before it. -/
def Ascending {κ : Type} (lt : κ → κ → Bool) (schedules : List (SunSchedule κ)) : Prop :=
  schedules.Pairwise (fun a b => lt b.specificity a.specificity = false)

/-! ## State invariants used as hypotheses

The functions above accept any value of `State`.  The predicates below describe what the
containers and the registration code guarantee; theorems assume only the ones they need. -/

/-- Every typeset filed under a type contains that type (`ConsiderTypeset` files a typeset under
its own member types only). -/
def MappedIndexed (s : State) : Prop :=
  ∀ t ts, ts ∈ s.mappedPropTupleTypesets t → t ∈ ts

/-- The sets `mappedPropTupleTypesets[t]` have no repeated typeset (they are `std::set`s). -/
def MappedNodup (s : State) : Prop :=
  ∀ t, (s.mappedPropTupleTypesets t).Nodup

/-- Registered typesets are sequences of pairwise distinct types. -/
def TypesetsDistinct (s : State) : Prop :=
  ∀ t ts, ts ∈ s.mappedPropTupleTypesets t → ts.Nodup

/-- A SunLambda that holds partial statics of a type has a reuse function for that type, so
`FindPartialStatic` never calls an empty `std::function`. -/
def ReuseTotal (s : State) : Prop :=
  ∀ sun t, s.partialStatics sun t ≠ [] → ((s.novelTupleCreators sun).reuseOnStages t).isSome = true

/-- Every tuple stored for a SunLambda bound to a typeset has one member of each type of the
typeset, in typeset order. -/
def TuplesTyped (s : State) : Prop :=
  ∀ ts sun tuple, sun ∈ s.typesetSunLambdas ts → tuple ∈ s.novelTuples sun →
    tuple.map GlobalPropId.typeId = ts

/-- The SunLambda `O` was registered exactly once, with typeset `ts`. -/
structure RegisteredOnce (s : State) (O : SunId) (ts : Typeset) : Prop where
  indexed : ∀ t ∈ ts, ts ∈ s.mappedPropTupleTypesets t
  once : (s.typesetSunLambdas ts).count O = 1
  unique : ∀ ts', ts' ≠ ts → O ∉ s.typesetSunLambdas ts'

/-- The staging map of a SunLambda is a map: no key occurs twice, and its keys are types of the
typeset of the SunLambda. -/
structure StagingKeyed (s : State) (O : SunId) (ts : Typeset) : Prop where
  nodup : (mkeys (s.stagingPropTuples O)).Nodup
  within : ∀ t ∈ mkeys (s.stagingPropTuples O), t ∈ ts

/-- Nothing is pending: the state between two removal flushes. -/
def NothingPending (s : State) : Prop :=
  s.propsToRemove = [] ∧ s.tuplesToBreakup = []

/-- No member of the tuple is in the removal set. -/
def State.untouched (s : State) (tuple : NovelTuple) : Bool :=
  tuple.all (fun g => !s.pendingRemoval g)

/-- Consideration of a list of props one after another. -/
def considerEach : List GlobalPropId → State → Option State
  | [], s => some s
  | g :: rest, s =>
    match ConsiderProp s g with
    | none => none
    | some s1 => considerEach rest s1

/-- A removal flush: `RemoveProps` with a search, then `RemovePropsDelayed`. -/
def flush (s : State) (Remove : GroupSet → Bool) : Option State :=
  match RemoveProps s Remove with
  | none => none
  | some s1 => RemovePropsDelayed s1

/-! ## Concrete scenarios -/

/-- SunLambda `Pair` (id 7) over the typeset `[A, B] = [0, 1]`, in the emerge and breakup sets. -/
def pairStart : State := Breakup (Emerge (ConsiderTypeset State.empty 7 [0, 1]) 7) 7

/-- A removal search that matches the props staged at `(group 1, instance 0)`. -/
def removeA1 : GroupSet → Bool := fun stages => decide ((⟨1, 0⟩ : Stage) ∈ stages)

/-- The Pair scenario after the creation of `a1 = (A, 0)`. -/
def pairAfterA1 : Option State := InitProp pairStart ⟨0, 0⟩ [⟨1, 0⟩]

/-- The Pair scenario after the creation of `b1 = (B, 0)`. -/
def pairAfterB1 : Option State := pairAfterA1.bind (fun s => InitProp s ⟨1, 0⟩ [⟨2, 0⟩])

/-- The Pair scenario after the removal of `a1` and the flush. -/
def pairAfterFlush : Option State := pairAfterB1.bind (fun s => flush s removeA1)

/-- The Pair scenario after the creation of `a2 = (A, raw)`. -/
def pairAfterA2 (raw : PropIdRaw) : Option State :=
  pairAfterFlush.bind (fun s => InitProp s ⟨0, raw⟩ [⟨1, 1⟩])

/-- The state of the Pair scenario in which the tuple `(a1, b1)` is live. -/
def pairJoined : State := pairAfterB1.getD State.empty

/-- The marks of `tuplesToBreakup` are sound for a state: the map has no repeated key, every
index set is strictly increasing, and every marked index is the position of a stored tuple with
a member pending removal. -/
def MarksGood (s : State) (marks : List (SunId × List Nat)) : Prop :=
  (mkeys marks).Nodup ∧
  ∀ sun indices, mfind sun marks = some indices →
    indices.Pairwise (fun a b => a < b) ∧
    ∀ i ∈ indices, ∃ tuple, nth (s.novelTuples sun) i = some tuple ∧ s.untouched tuple = false

/-- What the breakup loop of `RemovePropsDelayed` keeps between two of its states: the pending
sets and the registrations are the same, tuples are only erased and every tuple without a
pending member is kept, staging queues only grow by props that are not pending removal, and
partial-static lists only shrink. -/
structure FlushKeeps (s s' : State) : Prop where
  removal : s'.propsToRemove = s.propsToRemove
  breakups : s'.breakups = s.breakups
  creators : s'.novelTupleCreators = s.novelTupleCreators
  marks : s'.tuplesToBreakup = s.tuplesToBreakup
  sublist : ∀ sun, (s'.novelTuples sun).Sublist (s.novelTuples sun)
  tuples : ∀ sun, (s'.novelTuples sun).filter s.untouched = (s.novelTuples sun).filter s.untouched
  staged : ∀ sun t, ∃ extra, s'.staged sun t = s.staged sun t ++ extra ∧
    ∀ x ∈ extra, s.pendingRemoval ⟨t, x⟩ = false
  statics : ∀ sun t, (s'.partialStatics sun t).Sublist (s.partialStatics sun t)

/-- SunLambda `Pair` (id 7) over `[A, B] = [0, 1]`, in neither the emerge nor the breakup set. -/
def plainStart : State := ConsiderTypeset State.empty 7 [0, 1]

/-- Creation of `a1 = (A, 0)`, `b1 = (B, 0)`, `a2 = (A, 1)`, `b2 = (B, 1)`, in this order, each
with one stage of its own. -/
def createTwoPairs (s : State) : Option State :=
  (((InitProp s ⟨0, 0⟩ [⟨1, 0⟩]).bind (fun s => InitProp s ⟨1, 0⟩ [⟨2, 0⟩])).bind
    (fun s => InitProp s ⟨0, 1⟩ [⟨1, 1⟩])).bind (fun s => InitProp s ⟨1, 1⟩ [⟨2, 1⟩])

/-- Two live tuples `(a1, b1)`, `(a2, b2)` of a SunLambda outside the breakup set. -/
def plainTwoTuples : State := (createTwoPairs plainStart).getD State.empty

/-- Two live tuples `(a1, b1)`, `(a2, b2)` of a SunLambda of the breakup set. -/
def pairTwoTuples : State := (createTwoPairs pairStart).getD State.empty

/-- A removal search that matches every prop. -/
def removeAll : GroupSet → Bool := fun _ => true

/-- Creation of `a1`, `a2`, `b1`, `b2` in this order, with no stage. -/
def createAABB (s : State) : Option State :=
  (((InitProp s ⟨0, 0⟩ []).bind (fun s => InitProp s ⟨0, 1⟩ [])).bind
    (fun s => InitProp s ⟨1, 0⟩ [])).bind (fun s => InitProp s ⟨1, 1⟩ [])

/-- SunLambdas 1 and 2 share the typeset `[0]`; only SunLambda 2 is in the emerge set. -/
def sharedStart : State :=
  Emerge (ConsiderTypeset (ConsiderTypeset State.empty 1 [0]) 2 [0]) 2

/-- SunLambda `Count` (id 9) over `[Tick, Counter] = [2, 3]` with `Counter` a singleton. -/
def countStart : State := Singleton (ConsiderTypeset State.empty 9 [2, 3]) 3 9

/-- The Count scenario after the creation of `counter1 = (Counter, 0)`. -/
def countReady : State := (InitProp countStart ⟨3, 0⟩ [⟨1, 0⟩]).getD State.empty

/-- The Pair scenario with `a1` staged and no tuple. -/
def pairStaged : State := pairAfterA1.getD State.empty

/-- The props `a1`, `b1`, `a2`, `b2`. -/
def fourProps : List GlobalPropId := [⟨0, 0⟩, ⟨1, 0⟩, ⟨0, 1⟩, ⟨1, 1⟩]

/-- What every step of `ConsiderProp` keeps: the registrations are the same, entries of the stage
index stay (with the same stage set), and a partial-static list becomes non-empty only for a
type with a reuse function. -/
structure Grows (s s' : State) : Prop where
  mapped : s'.mappedPropTupleTypesets = s.mappedPropTupleTypesets
  suns : s'.typesetSunLambdas = s.typesetSunLambdas
  typesets : s'.sunLambdaTypesets = s.sunLambdaTypesets
  creators : s'.novelTupleCreators = s.novelTupleCreators
  emerges : s'.emerges = s.emerges
  stages : ∀ t r v, mfind r (s.ptpsq t) = some v → mfind r (s'.ptpsq t) = some v
  reuse : ∀ sun t, s'.partialStatics sun t ≠ [] → s.partialStatics sun t ≠ [] ∨
    ((s.novelTupleCreators sun).reuseOnStages t).isSome = true

/-- The search for a tuple of the SunLambda `sun` leaves the staging map, the partial statics and
the tuple store of every other SunLambda as they were. -/
structure Apart (sun : SunId) (s s' : State) : Prop where
  staging : ∀ O, O ≠ sun → s'.stagingPropTuples O = s.stagingPropTuples O
  statics : ∀ O, O ≠ sun → s'.partialStatics O = s.partialStatics O
  tuples : ∀ O, O ≠ sun → s'.novelTuples O = s.novelTuples O

/-- The pairs (typeset, SunLambda) that the two outer loops of `ConsiderProp` visit, in order. -/
def visits (s : State) (typesets : List Typeset) : List (Typeset × SunId) :=
  typesets.flatMap (fun ts => (s.typesetSunLambdas ts).map (fun sun => (ts, sun)))

/-- The two outer loops of `ConsiderProp` as one loop over the visited pairs. -/
def considerVisits (consider : GlobalPropId) : List (Typeset × SunId) → State → Option State
  | [], s => some s
  | (typeset, sun) :: rest, s =>
    match considerSunLambda consider typeset sun s with
    | none => none
    | some s1 => considerVisits consider rest s1

/-- The pending sets are sound: the removal set is a map (no repeated key) and the marks
already in `tuplesToBreakup` are sound.  This is so when nothing is pending, and it stays so
when `RemoveProps` is called several times before the flush. -/
def PendingSound (s : State) : Prop :=
  (mkeys s.propsToRemove).Nodup ∧ MarksGood s s.tuplesToBreakup

/-- The Pair scenario with `a1 = (A, 0)` and `b1 = (B, 0)` queued for creation by `AddProp`. -/
def pairQueued : State := AddProp (AddProp pairStart ⟨0, 0⟩ [⟨1, 0⟩]) ⟨1, 0⟩ [⟨2, 0⟩]

/-- A removal search that matches the props with a stage in group 1 (`a1` and `a2`). -/
def removeGroupOne : GroupSet → Bool := fun stages => stages.any (fun stage => stage.group == 1)

/-- The Pair scenario with `a1 = (A, 0)` and `a2 = (A, 1)` staged, in this order, and no tuple. -/
def pairTwoStaged : State :=
  ((InitProp pairStart ⟨0, 0⟩ [⟨1, 0⟩]).bind (fun s => InitProp s ⟨0, 1⟩ [⟨1, 1⟩])).getD State.empty

/-- SunLambdas 1 and 2 share the typeset `[0]`, where type 0 is the integer type `PropTypeId`
itself; SunLambda 1 requires a stage in group 5 and is the only one in the emerge set. -/
def requireStart : State :=
  Emerge (Require (ConsiderTypeset (ConsiderTypeset State.empty 1 [0]) 2 [0]) 0 1 5) 1

/-- What the search for a prop of type `t` does to the stage index: the maps of the other types
are as before, and every stage set reads as before (entries are only created, empty). -/
structure Touched (t : PropTypeId) (s s' : State) : Prop where
  elsewhere : ∀ T, T ≠ t → s'.ptpsq T = s.ptpsq T
  stagesOf : ∀ T r, s'.stagesOf T r = s.stagesOf T r

/-- The member that the assembly loop of `ConsiderProp` writes for a type of the typeset: the
considered prop, the partial-static neighbour, or the last compatible neighbour. -/
def assembled (consider : GlobalPropId) (psn : List (PropTypeId × PropIdRaw))
    (cn : List (PropTypeId × List PropIdRaw)) (ptid : PropTypeId) : GlobalPropId :=
  if ptid = consider.typeId then ⟨ptid, consider.id⟩
  else
    match mfind ptid psn with
    | some ps => ⟨ptid, ps⟩
    | none => ⟨ptid, (back (mgetD ptid [] cn)).getD 0⟩

/-- Two props of type 0: the first is attached to the stage `(group 1, instance 5)`, then the
second to the stage `(group 1, instance 2)`. -/
def twoAttached : State :=
  AddPropStages ⟨0, 1⟩ [⟨1, 2⟩] (AddPropStages ⟨0, 0⟩ [⟨1, 5⟩] State.empty)

/-- A reuse function that accepts a candidate when the type it is given is `T`. -/
def reuseOfType (T : PropTypeId) : ReuseFunction := fun _ ty _ => ty == T

/-- A reuse function that accepts a candidate when the stage set it is given for the candidate
has a stage in group `g`. -/
def reuseOfGroup (g : Group) : ReuseFunction :=
  fun _ _ candidate => candidate.any (fun stage => stage.group == g)

/-- SunLambda `Count` (id 9) over `[Tick, Counter] = [2, 3]` with the reuse function `reuse` for
`Counter`, after the creation of `counter1 = (Counter, 0)` and `counter2 = (Counter, 1)`, staged
at `(group 1, instance 0)` and `(group 1, instance 1)`, and with `tick1 = (Tick, 0)` attached to
the stage `(group 2, instance 0)` and not yet considered. -/
def countTwoCounters (reuse : ReuseFunction) : State :=
  AddPropStages ⟨2, 0⟩ [⟨2, 0⟩]
    (GetPropTypeId
      (((InitProp (Partial (ConsiderTypeset State.empty 9 [2, 3]) 3 9 reuse) ⟨3, 0⟩ [⟨1, 0⟩]).bind
        (fun s => InitProp s ⟨3, 1⟩ [⟨1, 1⟩])).getD State.empty) 2)

/-- SunLambda `Count` (id 9) over `[Tick, Counter] = [2, 3]`: `counter1 = (Counter, 0)` is
created and staged, then `Counter` is made a singleton of `Count`, then
`counter2 = (Counter, 1)` is created and becomes a partial static. -/
def lateSingleton : State :=
  ((InitProp (ConsiderTypeset State.empty 9 [2, 3]) ⟨3, 0⟩ [⟨1, 0⟩]).bind
    (fun s => InitProp (Singleton s 3 9) ⟨3, 1⟩ [⟨1, 1⟩])).getD State.empty

/-- The order on stages in the words of the specification: by group, then by instance. -/
def Stage.lexLt (a b : Stage) : Bool :=
  decide (a.group < b.group) || (decide (a.group = b.group) && decide (a.inst < b.inst))

/-- What `ConsiderProp` keeps of the tuple stores and staging queues: every tuple store grows at
its end, and a SunLambda whose tuple store did not grow keeps every entry of its staging
queues, which grow at their end at most. -/
def QueuesKept (s s' : State) : Prop :=
  ∀ O, ∃ new, s'.novelTuples O = s.novelTuples O ++ new ∧
    (new = [] → ∀ k, ∃ extra, s'.staged O k = s.staged O k ++ extra)

/-- The stage index is a map: no raw id occurs twice among the entries of a type. -/
def StageIndexKeyed (s : State) : Prop :=
  ∀ t, (mkeys (s.ptpsq t)).Nodup

/-- The props `a1 = (A, 0)` and `b1 = (B, 0)`, attached to the stages `(group 1, instance 0)`
and `(group 2, instance 0)`, with no SunLambda, after `RemoveProps` with a search that matches
`a1`: the prop `a1` is pending removal. -/
def pendingA1 : State :=
  (RemoveProps
    (AddPropStages ⟨1, 0⟩ [⟨2, 0⟩]
      (AddPropStages ⟨0, 0⟩ [⟨1, 0⟩] (GetPropTypeId (GetPropTypeId State.empty 0) 1)))
    removeA1).getD State.empty

/-- The Count scenario with the live tuple `(tick1, counter1)`: `counter1 = (Counter, 0)`, staged
at `(group 1, instance 0)`, is a partial static of `Count`, and `tick1 = (Tick, 0)` is staged at
`(group 2, instance 0)`. -/
def countJoined : State := (InitProp countReady ⟨2, 0⟩ [⟨2, 0⟩]).getD State.empty

/-- The Count scenario after the removal of `counter1`, which is a partial static of `Count` and
in no tuple, and the flush; then `tick1 = (Tick, 0)` is created at `(group 2, instance 0)`. -/
def countAfterFree : Option State :=
  (flush countReady removeA1).bind (fun s => InitProp s ⟨2, 0⟩ [⟨2, 0⟩])

/-- The Pair scenario after the removal of the staged `a1 = (A, 0)` and the flush; then a new
prop of type `A` is created under the raw id 0, which the flush has freed, and `b1 = (B, 0)` and
`b2 = (B, 1)` are created. -/
def pairAfterReuse : Option State :=
  (((flush pairStaged removeA1).bind (fun s => InitProp s ⟨0, 0⟩ [⟨1, 1⟩])).bind
    (fun s => InitProp s ⟨1, 0⟩ [⟨2, 0⟩])).bind (fun s => InitProp s ⟨1, 1⟩ [⟨2, 1⟩])

/-! # Theorems -/

/-! ## Association lists and sets -/

theorem upd_same {κ α : Type} [DecidableEq κ] (f : κ → α) (k : κ) (v : α) :
    upd f k v k = v := by
  simp [upd]

theorem upd_other {κ α : Type} [DecidableEq κ] (f : κ → α) (k k' : κ) (v : α) (h : k' ≠ k) :
    upd f k v k' = f k' := by
  simp [upd, h]

theorem mfind_mset_same {κ α : Type} [DecidableEq κ] (k : κ) (v : α) (m : List (κ × α)) :
    mfind k (mset k v m) = some v := by
  induction m with
  | nil => simp [mset, mfind]
  | cons e m ih =>
    obtain ⟨k', v'⟩ := e
    by_cases h : k' = k
    · simp [mset, mfind, h]
    · simp [mset, mfind, h, ih]

theorem mfind_mset_other {κ α : Type} [DecidableEq κ] (k k' : κ) (v : α) (m : List (κ × α))
    (h : k' ≠ k) : mfind k' (mset k v m) = mfind k' m := by
  induction m with
  | nil => simp [mset, mfind, Ne.symm h]
  | cons e m ih =>
    obtain ⟨k'', v''⟩ := e
    by_cases h1 : k'' = k
    · subst h1
      simp [mset, mfind, Ne.symm h]
    · by_cases h2 : k'' = k'
      · subst h2
        simp [mset, mfind, h1]
      · simp [mset, mfind, h1, h2, ih]

theorem mgetD_mset_same {κ α : Type} [DecidableEq κ] (k : κ) (v d : α) (m : List (κ × α)) :
    mgetD k d (mset k v m) = v := by
  simp [mgetD, mfind_mset_same]

theorem mgetD_mset_other {κ α : Type} [DecidableEq κ] (k k' : κ) (v d : α) (m : List (κ × α))
    (h : k' ≠ k) : mgetD k' d (mset k v m) = mgetD k' d m := by
  simp [mgetD, mfind_mset_other k k' v m h]

theorem mfind_append {κ α : Type} [DecidableEq κ] (k : κ) (m m' : List (κ × α)) :
    mfind k (m ++ m') = (mfind k m).orElse (fun _ => mfind k m') := by
  induction m with
  | nil => simp [mfind]
  | cons e m ih =>
    obtain ⟨k', v'⟩ := e
    by_cases h : k' = k
    · simp [mfind, h]
    · simp [mfind, h, ih]

theorem mgetD_mtouch {κ α : Type} [DecidableEq κ] (k k' : κ) (d : α) (m : List (κ × α)) :
    mgetD k' d (mtouch k d m) = mgetD k' d m := by
  unfold mtouch
  by_cases h : mhas k m = true
  · simp [h]
  · simp only [h]
    simp only [mgetD]
    rw [if_neg (by simp), mfind_append]
    cases hf : mfind k' m with
    | some v => simp
    | none =>
      by_cases hk : k = k'
      · simp [mfind, hk]
      · simp [mfind, hk]

theorem mhas_mtouch_self {κ α : Type} [DecidableEq κ] (k : κ) (d : α) (m : List (κ × α)) :
    mhas k (mtouch k d m) = true := by
  unfold mtouch
  by_cases h : mhas k m = true
  · simp [h]
  · simp only [h]
    simp only [mhas] at *
    rw [if_neg (by simp), mfind_append]
    cases hf : mfind k m with
    | some v => simp [hf] at h
    | none => simp [mfind]

theorem mhas_mtouch_of_mhas {κ α : Type} [DecidableEq κ] (k k' : κ) (d : α) (m : List (κ × α))
    (h : mhas k' m = true) : mhas k' (mtouch k d m) = true := by
  unfold mtouch
  by_cases hk : mhas k m = true
  · simp [hk, h]
  · simp only [hk]
    simp only [mhas] at *
    rw [if_neg (by simp), mfind_append]
    cases hf : mfind k' m with
    | some v => simp
    | none => simp [hf] at h

theorem mfind_mtouch_of_some {κ α : Type} [DecidableEq κ] (k k' : κ) (d v : α)
    (m : List (κ × α)) (h : mfind k' m = some v) : mfind k' (mtouch k d m) = some v := by
  unfold mtouch
  by_cases hk : mhas k m = true
  · simp [hk, h]
  · simp only [hk]
    rw [if_neg (by simp), mfind_append, h]
    rfl

theorem mtouch_of_mhas {κ α : Type} [DecidableEq κ] (k : κ) (d : α) (m : List (κ × α))
    (h : mhas k m = true) : mtouch k d m = m := by
  simp [mtouch, h]

theorem mhas_iff_mem_mkeys {κ α : Type} [DecidableEq κ] (k : κ) (m : List (κ × α)) :
    mhas k m = true ↔ k ∈ mkeys m := by
  induction m with
  | nil => simp [mhas, mfind, mkeys]
  | cons e m ih =>
    obtain ⟨k', v'⟩ := e
    by_cases h : k' = k
    · simp [mhas, mfind, mkeys, h]
    · simp only [mhas, mkeys] at ih
      simp [mhas, mfind, mkeys, h, ih, Ne.symm h]

theorem mfind_of_mem_nodup {κ α : Type} [DecidableEq κ] (k : κ) (v : α) (m : List (κ × α))
    (hn : (mkeys m).Nodup) (h : (k, v) ∈ m) : mfind k m = some v := by
  induction m with
  | nil => simp at h
  | cons e m ih =>
    obtain ⟨k', v'⟩ := e
    simp only [mkeys, List.map_cons, List.nodup_cons] at hn
    simp only [List.mem_cons, Prod.mk.injEq] at h
    rcases h with ⟨h1, h2⟩ | h
    · simp [mfind, h1, h2]
    · have hk : k' ≠ k := by
        intro hk
        apply hn.1
        subst hk
        exact List.mem_map_of_mem Prod.fst h
      simp [mfind, hk, ih hn.2 h]

theorem mem_of_mfind {κ α : Type} [DecidableEq κ] (k : κ) (v : α) (m : List (κ × α))
    (h : mfind k m = some v) : (k, v) ∈ m := by
  induction m with
  | nil => simp [mfind] at h
  | cons e m ih =>
    obtain ⟨k', v'⟩ := e
    by_cases hk : k' = k
    · simp [mfind, hk] at h
      simp [hk, h]
    · simp [mfind, hk] at h
      simp [ih h]

theorem mkeys_mset {κ α : Type} [DecidableEq κ] (k : κ) (v : α) (m : List (κ × α)) :
    mkeys (mset k v m) = if k ∈ mkeys m then mkeys m else mkeys m ++ [k] := by
  induction m with
  | nil => simp [mset, mkeys]
  | cons e m ih =>
    obtain ⟨k', v'⟩ := e
    by_cases h : k' = k
    · simp [mset, mkeys, h]
    · simp only [mkeys] at ih
      by_cases hm : k ∈ List.map Prod.fst m
      · simp [mset, mkeys, h, ih, hm]
      · simp [mset, mkeys, h, ih, hm, Ne.symm h]

theorem mkeys_mset_nodup {κ α : Type} [DecidableEq κ] (k : κ) (v : α) (m : List (κ × α))
    (hn : (mkeys m).Nodup) : (mkeys (mset k v m)).Nodup := by
  rw [mkeys_mset]
  by_cases h : k ∈ mkeys m
  · simp [h, hn]
  · simp only [h, if_false]
    rw [List.nodup_append]
    refine ⟨hn, by simp, ?_⟩
    intro a ha hb
    simp at hb
    subst hb
    exact h ha

theorem mem_setInsert_natLt (x a : Nat) (l : List Nat) :
    x ∈ setInsert natLt a l ↔ x = a ∨ x ∈ l := by
  induction l with
  | nil => simp [setInsert]
  | cons y ys ih =>
    unfold setInsert
    by_cases h1 : a < y
    · simp [natLt, h1]
    · by_cases h2 : y < a
      · simp only [natLt, h1, h2, decide_False, decide_True, if_true, if_false, List.mem_cons,
          Bool.false_eq_true]
        simp only [natLt] at ih
        rw [ih]
        tauto
      · have : a = y := by omega
        subst this
        simp [natLt]

/-! ## Vectors -/

theorem nth_of_lt {α : Type} (l : List α) (i : Nat) (h : i < l.length) :
    ∃ x, nth l i = some x := by
  induction l generalizing i with
  | nil => simp at h
  | cons x xs ih =>
    cases i with
    | zero => exact ⟨x, rfl⟩
    | succ i =>
      simp only [List.length_cons, Nat.add_lt_add_iff_right] at h
      exact ih i h

theorem nth_lt_length {α : Type} (l : List α) (i : Nat) (x : α) (h : nth l i = some x) :
    i < l.length := by
  induction l generalizing i with
  | nil => simp [nth] at h
  | cons y ys ih =>
    cases i with
    | zero => simp
    | succ i =>
      simp only [nth] at h
      have := ih i h
      simp only [List.length_cons]
      omega

theorem nth_mem {α : Type} (l : List α) (i : Nat) (x : α) (h : nth l i = some x) : x ∈ l := by
  induction l generalizing i with
  | nil => simp [nth] at h
  | cons y ys ih =>
    cases i with
    | zero =>
      simp only [nth, Option.some.injEq] at h
      simp [h]
    | succ i =>
      simp only [nth] at h
      exact List.mem_cons_of_mem _ (ih i h)

theorem exists_nth_of_mem {α : Type} (l : List α) (x : α) (h : x ∈ l) :
    ∃ i, nth l i = some x := by
  induction l with
  | nil => simp at h
  | cons y ys ih =>
    simp only [List.mem_cons] at h
    rcases h with h | h
    · exact ⟨0, by simp [nth, h]⟩
    · obtain ⟨i, hi⟩ := ih h
      exact ⟨i + 1, by simpa [nth] using hi⟩

theorem nth_map {α β : Type} (f : α → β) (l : List α) (i : Nat) :
    nth (l.map f) i = (nth l i).map f := by
  induction l generalizing i with
  | nil => simp [nth]
  | cons y ys ih =>
    cases i with
    | zero => simp [nth]
    | succ i => simpa [nth] using ih i

theorem firstIndexOr0_spec (t : PropTypeId) (ts : Typeset) (k : Nat) (h : t ∈ ts) :
    ∃ i, firstIndexOr0 t ts k = k + i ∧ nth ts i = some t := by
  induction ts generalizing k with
  | nil => simp at h
  | cons x xs ih =>
    by_cases hx : x = t
    · exact ⟨0, by simp [firstIndexOr0, hx], by simp [nth, hx]⟩
    · have ht : t ∈ xs := by
        simp only [List.mem_cons] at h
        rcases h with h | h
        · exact absurd h.symm hx
        · exact h
      obtain ⟨i, h1, h2⟩ := ih (k + 1) ht
      refine ⟨i + 1, ?_, by simpa [nth] using h2⟩
      simp only [firstIndexOr0, hx, if_false, h1]
      omega

/-- In a tuple typed by a typeset, the member at the removal index of a type of the typeset
exists and has that type. -/
theorem nth_removalIndex (t : PropTypeId) (ts : Typeset) (tuple : NovelTuple)
    (hty : tuple.map GlobalPropId.typeId = ts) (ht : t ∈ ts) :
    ∃ g, nth tuple (firstIndexOr0 t ts 0) = some g ∧ g.typeId = t := by
  obtain ⟨i, h1, h2⟩ := firstIndexOr0_spec t ts 0 ht
  rw [h1, Nat.zero_add]
  rw [← hty, nth_map] at h2
  cases hg : nth tuple i with
  | none => simp [hg] at h2
  | some g =>
    simp only [hg, Option.map_some', Option.some.injEq] at h2
    exact ⟨g, rfl, h2⟩

/-! ## `RemoveProps`: the removal set -/

theorem markProps_mem (Remove : GroupSet → Bool) (t' : PropTypeId)
    (l : List (PropIdRaw × GroupSet)) (m : List (PropTypeId × List PropIdRaw))
    (t : PropTypeId) (id : PropIdRaw) :
    id ∈ mgetD t [] (markProps Remove t' l m) ↔
      id ∈ mgetD t [] m ∨ (t = t' ∧ ∃ stages, (id, stages) ∈ l ∧ Remove stages = true) := by
  induction l generalizing m with
  | nil => simp [markProps]
  | cons e l ih =>
    obtain ⟨rid, stages⟩ := e
    by_cases hR : Remove stages = true
    · simp only [markProps, hR, if_true]
      rw [ih]
      by_cases ht : t = t'
      · subst ht
        rw [mgetD_mset_same, mem_setInsert_natLt]
        constructor
        · rintro ((h | h) | ⟨-, st, h1, h2⟩)
          · exact Or.inr ⟨rfl, stages, by simp [h], hR⟩
          · exact Or.inl h
          · exact Or.inr ⟨rfl, st, by simp [h1], h2⟩
        · rintro (h | ⟨-, st, h1, h2⟩)
          · exact Or.inl (Or.inr h)
          · simp only [List.mem_cons, Prod.mk.injEq] at h1
            rcases h1 with ⟨h1, -⟩ | h1
            · exact Or.inl (Or.inl h1)
            · exact Or.inr ⟨rfl, st, h1, h2⟩
      · rw [mgetD_mset_other _ _ _ _ _ ht]
        simp [ht]
    · simp only [markProps, hR]
      rw [if_neg (by simp), ih]
      constructor
      · rintro (h | ⟨h0, st, h1, h2⟩)
        · exact Or.inl h
        · exact Or.inr ⟨h0, st, by simp [h1], h2⟩
      · rintro (h | ⟨h0, st, h1, h2⟩)
        · exact Or.inl h
        · simp only [List.mem_cons, Prod.mk.injEq] at h1
          rcases h1 with ⟨-, h1⟩ | h1
          · subst h1
            exact absurd h2 hR
          · exact Or.inr ⟨h0, st, h1, h2⟩

theorem markTypes_mem (Remove : GroupSet → Bool) (pq : PropTypeId → List (PropIdRaw × GroupSet))
    (types : List PropTypeId) (m : List (PropTypeId × List PropIdRaw))
    (t : PropTypeId) (id : PropIdRaw) :
    id ∈ mgetD t [] (markTypes Remove pq types m) ↔
      id ∈ mgetD t [] m ∨ (t ∈ types ∧ ∃ stages, (id, stages) ∈ pq t ∧ Remove stages = true) := by
  induction types generalizing m with
  | nil => simp [markTypes]
  | cons t' types ih =>
    simp only [markTypes]
    rw [ih, markProps_mem]
    constructor
    · rintro ((h | ⟨h0, h1⟩) | ⟨h0, h1⟩)
      · exact Or.inl h
      · subst h0
        exact Or.inr ⟨by simp, h1⟩
      · exact Or.inr ⟨by simp [h0], h1⟩
    · rintro (h | ⟨h0, h1⟩)
      · exact Or.inl (Or.inl h)
      · simp only [List.mem_cons] at h0
        rcases h0 with h0 | h0
        · exact Or.inl (Or.inr ⟨h0, h0 ▸ h1⟩)
        · exact Or.inr ⟨h0, h1⟩

theorem markProps_keys_nodup (Remove : GroupSet → Bool) (t : PropTypeId)
    (l : List (PropIdRaw × GroupSet)) (m : List (PropTypeId × List PropIdRaw))
    (h : (mkeys m).Nodup) : (mkeys (markProps Remove t l m)).Nodup := by
  induction l generalizing m with
  | nil => simpa [markProps] using h
  | cons e l ih =>
    obtain ⟨rid, stages⟩ := e
    by_cases hR : Remove stages = true
    · simp only [markProps, hR, if_true]
      exact ih _ (mkeys_mset_nodup _ _ _ h)
    · simp only [markProps, hR]
      rw [if_neg (by simp)]
      exact ih _ h

theorem markTypes_keys_nodup (Remove : GroupSet → Bool)
    (pq : PropTypeId → List (PropIdRaw × GroupSet)) (types : List PropTypeId)
    (m : List (PropTypeId × List PropIdRaw)) (h : (mkeys m).Nodup) :
    (mkeys (markTypes Remove pq types m)).Nodup := by
  induction types generalizing m with
  | nil => simpa [markTypes] using h
  | cons t types ih =>
    simp only [markTypes]
    exact ih _ (markProps_keys_nodup _ _ _ _ h)

/-! ## `RemoveProps`: the marking of tuples -/

theorem markTuples_inv (P : List (SunId × List Nat) → Prop) (Q : Nat → Prop)
    (removed : List PropIdRaw) (idx : Nat) (sun : SunId)
    (hstep : ∀ marks i, P marks → Q i →
      P (mset sun (setInsert natLt i (mgetD sun [] marks)) marks))
    (l : List NovelTuple) (index : Nat) (marks : List (SunId × List Nat)) (hP : P marks)
    (hl : ∀ j tuple, nth l j = some tuple →
      ∃ g, nth tuple idx = some g ∧ (g.id ∈ removed → Q (index + j))) :
    ∃ marks', markTuples removed idx sun l index marks = some marks' ∧ P marks' := by
  induction l generalizing index marks with
  | nil => exact ⟨marks, rfl, hP⟩
  | cons tuple l ih =>
    obtain ⟨g, hg, hq⟩ := hl 0 tuple rfl
    simp only [markTuples, hg]
    apply ih
    · by_cases hmem : g.id ∈ removed
      · simp only [hmem, if_true]
        exact hstep _ _ hP (by simpa using hq hmem)
      · simpa [hmem] using hP
    · intro j tuple' hj
      obtain ⟨g', hg', hq'⟩ := hl (j + 1) tuple' (by simpa [nth] using hj)
      refine ⟨g', hg', fun h => ?_⟩
      have := hq' h
      rwa [show index + (j + 1) = index + 1 + j by omega] at this

theorem markSunLambdas_inv (P : List (SunId × List Nat) → Prop) (Q : SunId → Nat → Prop)
    (s : State) (removed : List PropIdRaw) (idx : Nat)
    (hstep : ∀ sun marks i, P marks → Q sun i →
      P (mset sun (setInsert natLt i (mgetD sun [] marks)) marks))
    (suns : List SunId) (marks : List (SunId × List Nat)) (hP : P marks)
    (hl : ∀ sun ∈ suns, ∀ j tuple, nth (s.novelTuples sun) j = some tuple →
      ∃ g, nth tuple idx = some g ∧ (g.id ∈ removed → Q sun j)) :
    ∃ marks', markSunLambdas s removed idx suns marks = some marks' ∧ P marks' := by
  induction suns generalizing marks with
  | nil => exact ⟨marks, rfl, hP⟩
  | cons sun suns ih =>
    obtain ⟨m1, h1, hP1⟩ := markTuples_inv P (Q sun) removed idx sun (hstep sun)
      (s.novelTuples sun) 0 marks hP (by
        intro j tuple hj
        obtain ⟨g, hg, hq⟩ := hl sun (by simp) j tuple hj
        exact ⟨g, hg, by simpa using hq⟩)
    simp only [markSunLambdas, h1]
    exact ih m1 hP1 (fun sun' hs => hl sun' (by simp [hs]))

theorem markTypesets_inv (P : List (SunId × List Nat) → Prop) (Q : SunId → Nat → Prop)
    (s : State) (t : PropTypeId) (removed : List PropIdRaw)
    (hstep : ∀ sun marks i, P marks → Q sun i →
      P (mset sun (setInsert natLt i (mgetD sun [] marks)) marks))
    (tss : List Typeset) (marks : List (SunId × List Nat)) (hP : P marks)
    (hl : ∀ ts ∈ tss, ∀ sun ∈ s.typesetSunLambdas ts, ∀ j tuple,
      nth (s.novelTuples sun) j = some tuple →
      ∃ g, nth tuple (firstIndexOr0 t ts 0) = some g ∧ (g.id ∈ removed → Q sun j)) :
    ∃ marks', markTypesets s t removed tss marks = some marks' ∧ P marks' := by
  induction tss generalizing marks with
  | nil => exact ⟨marks, rfl, hP⟩
  | cons ts tss ih =>
    obtain ⟨m1, h1, hP1⟩ := markSunLambdas_inv P Q s removed (firstIndexOr0 t ts 0) hstep
      (s.typesetSunLambdas ts) marks hP (hl ts (by simp))
    simp only [markTypesets, h1]
    exact ih m1 hP1 (fun ts' hs => hl ts' (by simp [hs]))

theorem markBreakups_inv (P : List (SunId × List Nat) → Prop) (Q : SunId → Nat → Prop)
    (s : State)
    (hstep : ∀ sun marks i, P marks → Q sun i →
      P (mset sun (setInsert natLt i (mgetD sun [] marks)) marks))
    (toRemove : List (PropTypeId × List PropIdRaw)) (marks : List (SunId × List Nat))
    (hP : P marks)
    (hl : ∀ t removed, (t, removed) ∈ toRemove → ∀ ts ∈ s.mappedPropTupleTypesets t,
      ∀ sun ∈ s.typesetSunLambdas ts, ∀ j tuple, nth (s.novelTuples sun) j = some tuple →
      ∃ g, nth tuple (firstIndexOr0 t ts 0) = some g ∧ (g.id ∈ removed → Q sun j)) :
    ∃ marks', markBreakups s toRemove marks = some marks' ∧ P marks' := by
  induction toRemove generalizing marks with
  | nil => exact ⟨marks, rfl, hP⟩
  | cons e toRemove ih =>
    obtain ⟨t, removed⟩ := e
    obtain ⟨m1, h1, hP1⟩ := markTypesets_inv P Q s t removed hstep
      (s.mappedPropTupleTypesets t) marks hP (hl t removed (by simp))
    simp only [markBreakups, h1]
    exact ih m1 hP1 (fun t' r' hs => hl t' r' (by simp [hs]))

/-- The marking part of `RemoveProps` is defined on states whose tuples are typed by typesets
that contain the types they are filed under. -/
theorem markBreakups_defined (s : State) (hidx : MappedIndexed s) (hty : TuplesTyped s)
    (toRemove : List (PropTypeId × List PropIdRaw)) (marks : List (SunId × List Nat)) :
    ∃ marks', markBreakups s toRemove marks = some marks' := by
  obtain ⟨m, h, -⟩ := markBreakups_inv (fun _ => True) (fun _ _ => True) s
    (fun _ _ _ _ _ => trivial) toRemove marks trivial (by
      intro t removed _ ts hts sun hsun j tuple hj
      obtain ⟨g, hg, -⟩ := nth_removalIndex t ts tuple
        (hty ts sun tuple hsun (nth_mem _ _ _ hj)) (hidx t ts hts)
      exact ⟨g, hg, fun _ => trivial⟩)
  exact ⟨m, h⟩

/-- C10: `RemoveProps(pred)` is a pure marking step.  The call is defined, the removal set
afterwards holds exactly its previous members and the entries of the stage index, over the
known types, whose stage set satisfies `pred`; the stage index, the staging queues, the
partial-static lists and the tuple stores are unchanged. -/
theorem C10_removeProps_marks_only (s : State) (Remove : GroupSet → Bool)
    (hidx : MappedIndexed s) (hty : TuplesTyped s) :
    ∃ s', RemoveProps s Remove = some s' ∧
      (∀ g : GlobalPropId, s'.pendingRemoval g = true ↔
        (s.pendingRemoval g = true ∨
          (g.typeId ∈ s.propTypeNames ∧
            ∃ stages, (g.id, stages) ∈ s.ptpsq g.typeId ∧ Remove stages = true))) ∧
      s'.ptpsq = s.ptpsq ∧ s'.stagingPropTuples = s.stagingPropTuples ∧
      s'.partialStatics = s.partialStatics ∧ s'.novelTuples = s.novelTuples := by
  obtain ⟨marks, hm⟩ := markBreakups_defined
    { s with propsToRemove := markTypes Remove s.ptpsq s.propTypeNames s.propsToRemove }
    hidx hty (markTypes Remove s.ptpsq s.propTypeNames s.propsToRemove) s.tuplesToBreakup
  refine ⟨{ s with
      propsToRemove := markTypes Remove s.ptpsq s.propTypeNames s.propsToRemove
      tuplesToBreakup := marks }, by simp only [RemoveProps, hm], ?_, rfl, rfl, rfl, rfl⟩
  intro g
  simp only [State.pendingRemoval, decide_eq_true_eq]
  exact markTypes_mem Remove s.ptpsq s.propTypeNames s.propsToRemove g.typeId g.id

theorem pairJoined_novelTuples :
    pairJoined.novelTuples = fun sun => if sun = 7 then [[⟨0, 0⟩, ⟨1, 0⟩]] else [] := rfl

theorem pairJoined_typesetSunLambdas :
    pairJoined.typesetSunLambdas = fun ts => if ts = [0, 1] then [7] else [] := rfl

theorem pairJoined_mapped :
    pairJoined.mappedPropTupleTypesets =
      fun t => if t = 1 then [[0, 1]] else if t = 0 then [[0, 1]] else [] := rfl

theorem pairJoined_mappedIndexed : MappedIndexed pairJoined := by
  intro t ts h
  rw [pairJoined_mapped] at h
  by_cases h1 : t = 1
  · simp [h1] at h
    simp [h, h1]
  · by_cases h0 : t = 0
    · simp [h0] at h
      simp [h, h0]
    · simp [h1, h0] at h

theorem pairJoined_tuplesTyped : TuplesTyped pairJoined := by
  intro ts sun tuple hs ht
  rw [pairJoined_typesetSunLambdas] at hs
  rw [pairJoined_novelTuples] at ht
  by_cases h1 : ts = [0, 1]
  · simp [h1] at hs
    simp [hs] at ht
    simp [ht, h1]
  · simp [h1] at hs

/-- Witness of C10 on the Pair scenario with the live tuple `(a1, b1)`. -/
theorem C10_removeProps_marks_only_witness :
    MappedIndexed pairJoined ∧ TuplesTyped pairJoined ∧
    ∃ s', RemoveProps pairJoined removeA1 = some s' ∧
      (∀ g : GlobalPropId, s'.pendingRemoval g = true ↔
        (pairJoined.pendingRemoval g = true ∨
          (g.typeId ∈ pairJoined.propTypeNames ∧
            ∃ stages, (g.id, stages) ∈ pairJoined.ptpsq g.typeId ∧ removeA1 stages = true))) ∧
      s'.ptpsq = pairJoined.ptpsq ∧ s'.stagingPropTuples = pairJoined.stagingPropTuples ∧
      s'.partialStatics = pairJoined.partialStatics ∧ s'.novelTuples = pairJoined.novelTuples :=
  ⟨pairJoined_mappedIndexed, pairJoined_tuplesTyped,
    C10_removeProps_marks_only pairJoined removeA1 pairJoined_mappedIndexed
      pairJoined_tuplesTyped⟩

/-! ## `RemovePropsDelayed`: the breakup loop -/

theorem eraseAt_of_lt {α : Type} (l : List α) (i : Nat) (h : i < l.length) :
    ∃ l', eraseAt l i = some l' := by
  induction l generalizing i with
  | nil => simp at h
  | cons x xs ih =>
    cases i with
    | zero => exact ⟨xs, rfl⟩
    | succ i =>
      simp only [List.length_cons, Nat.add_lt_add_iff_right] at h
      obtain ⟨l', hl⟩ := ih i h
      exact ⟨x :: l', by simp [eraseAt, hl]⟩

theorem nth_eraseAt_lt {α : Type} (l l' : List α) (i j : Nat) (h : eraseAt l i = some l')
    (hj : j < i) : nth l' j = nth l j := by
  induction l generalizing i j l' with
  | nil => simp [eraseAt] at h
  | cons x xs ih =>
    cases i with
    | zero => omega
    | succ i =>
      simp only [eraseAt, Option.map_eq_some'] at h
      obtain ⟨r, hr, rfl⟩ := h
      cases j with
      | zero => rfl
      | succ j => exact ih r i j hr (by omega)

theorem eraseAt_sublist {α : Type} (l l' : List α) (i : Nat) (h : eraseAt l i = some l') :
    l'.Sublist l := by
  induction l generalizing i l' with
  | nil => simp [eraseAt] at h
  | cons x xs ih =>
    cases i with
    | zero =>
      simp only [eraseAt, Option.some.injEq] at h
      subst h
      exact List.sublist_cons_self x xs
    | succ i =>
      simp only [eraseAt, Option.map_eq_some'] at h
      obtain ⟨r, hr, rfl⟩ := h
      exact (ih r i hr).cons₂ x

theorem filter_eraseAt {α : Type} (p : α → Bool) (l l' : List α) (i : Nat) (x : α)
    (h : eraseAt l i = some l') (hx : nth l i = some x) (hp : p x = false) :
    l'.filter p = l.filter p := by
  induction l generalizing i l' with
  | nil => simp [eraseAt] at h
  | cons y ys ih =>
    cases i with
    | zero =>
      simp only [eraseAt, Option.some.injEq] at h
      simp only [nth, Option.some.injEq] at hx
      subst h hx
      simp [List.filter, hp]
    | succ i =>
      simp only [eraseAt, Option.map_eq_some'] at h
      obtain ⟨r, hr, rfl⟩ := h
      simp only [nth] at hx
      simp only [List.filter_cons, ih r i hr hx]

theorem setInsert_natLt_pairwise (a : Nat) (l : List Nat)
    (h : l.Pairwise (fun a b => a < b)) :
    (setInsert natLt a l).Pairwise (fun a b => a < b) := by
  induction l with
  | nil => simp [setInsert]
  | cons y ys ih =>
    rw [List.pairwise_cons] at h
    unfold setInsert
    by_cases h1 : a < y
    · simp only [natLt, h1, decide_True, if_true]
      refine List.Pairwise.cons ?_ (List.Pairwise.cons h.1 h.2)
      intro b hb
      simp only [List.mem_cons] at hb
      rcases hb with hb | hb
      · omega
      · have := h.1 b hb
        omega
    · by_cases h2 : y < a
      · simp only [natLt, h1, h2, decide_False, decide_True, if_true, if_false,
          Bool.false_eq_true]
        refine List.Pairwise.cons ?_ (ih h.2)
        intro b hb
        rw [mem_setInsert_natLt] at hb
        rcases hb with hb | hb
        · omega
        · exact h.1 b hb
      · simp only [natLt, h1, h2, decide_False, if_false, Bool.false_eq_true]
        exact List.Pairwise.cons h.1 h.2

theorem untouched_congr (s s' : State) (h : s'.propsToRemove = s.propsToRemove) :
    s'.untouched = s.untouched := by
  funext tuple
  simp [State.untouched, State.pendingRemoval, h]

theorem pendingRemoval_congr (s s' : State) (h : s'.propsToRemove = s.propsToRemove)
    (g : GlobalPropId) : s'.pendingRemoval g = s.pendingRemoval g := by
  simp [State.pendingRemoval, h]

theorem FlushKeeps.reflKeeps (s : State) : FlushKeeps s s :=
  ⟨rfl, rfl, rfl, rfl, fun _ => List.Sublist.refl _, fun _ => rfl,
    fun _ _ => ⟨[], by simp, by simp⟩, fun _ _ => List.Sublist.refl _⟩

theorem FlushKeeps.transKeeps {s s1 s2 : State} (h1 : FlushKeeps s s1) (h2 : FlushKeeps s1 s2) :
    FlushKeeps s s2 := by
  have hu := untouched_congr s s1 h1.removal
  refine ⟨h2.removal.trans h1.removal, h2.breakups.trans h1.breakups,
    h2.creators.trans h1.creators, h2.marks.trans h1.marks,
    fun sun => (h2.sublist sun).trans (h1.sublist sun), ?_, ?_,
    fun sun t => (h2.statics sun t).trans (h1.statics sun t)⟩
  · intro sun
    rw [← h1.tuples sun, ← hu]
    exact h2.tuples sun
  · intro sun t
    obtain ⟨e1, he1, hp1⟩ := h1.staged sun t
    obtain ⟨e2, he2, hp2⟩ := h2.staged sun t
    refine ⟨e1 ++ e2, by rw [he2, he1, List.append_assoc], ?_⟩
    intro x hx
    rw [List.mem_append] at hx
    rcases hx with hx | hx
    · exact hp1 x hx
    · rw [← pendingRemoval_congr s s1 h1.removal]
      exact hp2 x hx

theorem staged_upd_mset (s : State) (sun sun' : SunId) (t t' : PropTypeId)
    (q : List PropIdRaw) :
    mgetD t' [] (upd s.stagingPropTuples sun (mset t q (s.stagingPropTuples sun)) sun') =
      if sun' = sun ∧ t' = t then q else s.staged sun' t' := by
  by_cases hs : sun' = sun
  · subst hs
    by_cases ht : t' = t
    · subst ht
      simp [upd, mgetD_mset_same]
    · simp [upd, mgetD_mset_other _ _ _ _ _ ht, ht, State.staged]
  · simp [upd, hs, State.staged]

theorem breakMember_keeps (sun : SunId) (s : State) (g : GlobalPropId) :
    FlushKeeps s (breakMember sun s g) ∧ (breakMember sun s g).novelTuples = s.novelTuples := by
  unfold breakMember
  by_cases hp : s.pendingRemoval g = true
  · rw [if_pos hp]
    refine ⟨⟨rfl, rfl, rfl, rfl, fun _ => List.Sublist.refl _, fun _ => rfl,
      fun _ _ => ⟨[], by simp [State.staged], by simp⟩, ?_⟩, rfl⟩
    intro sun' t
    by_cases hs : sun' = sun
    · subst hs
      by_cases ht : t = g.typeId
      · subst ht
        simp only [upd_same]
        exact List.erase_sublist _ _
      · simp only [upd_same, upd_other _ _ _ _ ht]
        exact List.Sublist.refl _
    · simp only [upd_other _ _ _ _ hs]
      exact List.Sublist.refl _
  · rw [if_neg hp]
    by_cases hr : ((s.novelTupleCreators sun).reuseOnStages g.typeId).isSome = true
    · rw [if_pos hr]
      exact ⟨FlushKeeps.reflKeeps s, rfl⟩
    · rw [if_neg hr]
      refine ⟨⟨rfl, rfl, rfl, rfl, fun _ => List.Sublist.refl _, fun _ => rfl, ?_,
        fun _ _ => List.Sublist.refl _⟩, rfl⟩
      intro sun' t
      simp only [State.staged]
      rw [staged_upd_mset]
      by_cases hc : sun' = sun ∧ t = g.typeId
      · obtain ⟨h1, h2⟩ := hc
        subst h1 h2
        refine ⟨[g.id], by simp [State.staged], ?_⟩
        intro x hx
        simp only [List.mem_singleton] at hx
        subst hx
        simpa using hp
      · exact ⟨[], by simp [hc, State.staged], by simp⟩

theorem breakMembers_keeps (sun : SunId) (tuple : NovelTuple) (s : State) :
    FlushKeeps s (tuple.foldl (breakMember sun) s) ∧
      (tuple.foldl (breakMember sun) s).novelTuples = s.novelTuples := by
  induction tuple generalizing s with
  | nil => exact ⟨FlushKeeps.reflKeeps s, rfl⟩
  | cons g tuple ih =>
    simp only [List.foldl_cons]
    obtain ⟨h1, h2⟩ := breakMember_keeps sun s g
    obtain ⟨h3, h4⟩ := ih (breakMember sun s g)
    exact ⟨h1.transKeeps h3, h4.trans h2⟩

theorem breakTuples_spec (sun : SunId) (ds : List Nat) (s : State)
    (hdesc : ds.Pairwise (fun a b => b < a))
    (hin : ∀ i ∈ ds, ∃ tuple, nth (s.novelTuples sun) i = some tuple ∧
      s.untouched tuple = false) :
    ∃ s', breakTuples sun ds s = some s' ∧ FlushKeeps s s' ∧
      ∀ sun', sun' ≠ sun → s'.novelTuples sun' = s.novelTuples sun' := by
  induction ds generalizing s with
  | nil => exact ⟨s, rfl, FlushKeeps.reflKeeps s, fun _ _ => rfl⟩
  | cons index rest ih =>
    obtain ⟨tuple, htuple, htouched⟩ := hin index (by simp)
    obtain ⟨hk, hnt⟩ := breakMembers_keeps sun tuple s
    rw [List.pairwise_cons] at hdesc
    simp only [breakTuples, htuple]
    by_cases hb : sun ∈ (tuple.foldl (breakMember sun) s).breakups
    · rw [if_pos hb]
      refine ⟨_, rfl, ?_, ?_⟩
      · exact ⟨hk.removal, hk.breakups, hk.creators, hk.marks, hk.sublist, hk.tuples,
          hk.staged, hk.statics⟩
      · intro sun' _
        show (tuple.foldl (breakMember sun) s).novelTuples sun' = _
        rw [hnt]
    · rw [if_neg hb]
      have hlt : index < ((tuple.foldl (breakMember sun) s).novelTuples sun).length := by
        rw [hnt]
        exact nth_lt_length _ _ _ htuple
      obtain ⟨tuples, herase⟩ := eraseAt_of_lt _ _ hlt
      simp only [herase]
      rw [hnt] at herase
      have hk2 : FlushKeeps s
          { tuple.foldl (breakMember sun) s with
            novelTuples := upd (tuple.foldl (breakMember sun) s).novelTuples sun tuples } := by
        refine ⟨hk.removal, hk.breakups, hk.creators, hk.marks, ?_, ?_, hk.staged, hk.statics⟩
        · intro sun'
          show (upd (tuple.foldl (breakMember sun) s).novelTuples sun tuples sun').Sublist _
          rw [hnt]
          by_cases hs : sun' = sun
          · subst hs
            rw [upd_same]
            exact eraseAt_sublist _ _ _ herase
          · rw [upd_other _ _ _ _ hs]
        · intro sun'
          show (upd (tuple.foldl (breakMember sun) s).novelTuples sun tuples sun').filter _ = _
          rw [hnt]
          by_cases hs : sun' = sun
          · subst hs
            rw [upd_same]
            exact filter_eraseAt _ _ _ _ _ herase htuple htouched
          · rw [upd_other _ _ _ _ hs]
      obtain ⟨s', hs', hk3, hother⟩ := ih
        { tuple.foldl (breakMember sun) s with
          novelTuples := upd (tuple.foldl (breakMember sun) s).novelTuples sun tuples }
        hdesc.2 (by
          intro j hj
          obtain ⟨tj, htj, huj⟩ := hin j (by simp [hj])
          refine ⟨tj, ?_, ?_⟩
          · show nth (upd (tuple.foldl (breakMember sun) s).novelTuples sun tuples sun) j = _
            rw [upd_same, nth_eraseAt_lt _ _ _ _ herase (hdesc.1 j hj)]
            exact htj
          · rw [untouched_congr s _ hk2.removal]
            exact huj)
      refine ⟨s', hs', hk2.transKeeps hk3, ?_⟩
      intro sun' hne
      rw [hother sun' hne]
      show upd (tuple.foldl (breakMember sun) s).novelTuples sun tuples sun' = _
      rw [upd_other _ _ _ _ hne, hnt]

theorem breakAll_spec (marks : List (SunId × List Nat)) (s : State)
    (hn : (mkeys marks).Nodup)
    (hg : ∀ sun indices, (sun, indices) ∈ marks →
      indices.Pairwise (fun a b => a < b) ∧
      ∀ i ∈ indices, ∃ tuple, nth (s.novelTuples sun) i = some tuple ∧
        s.untouched tuple = false) :
    ∃ s', breakAll marks s = some s' ∧ FlushKeeps s s' := by
  induction marks generalizing s with
  | nil => exact ⟨s, rfl, FlushKeeps.reflKeeps s⟩
  | cons e marks ih =>
    obtain ⟨sun, indices⟩ := e
    simp only [mkeys, List.map_cons, List.nodup_cons] at hn
    obtain ⟨hsorted, hsound⟩ := hg sun indices (by simp)
    obtain ⟨s1, h1, hk1, hother⟩ := breakTuples_spec sun indices.reverse s
      (by
        rw [List.pairwise_reverse]
        exact hsorted)
      (by
        intro i hi
        exact hsound i (by simpa using hi))
    simp only [breakAll, h1]
    obtain ⟨s2, h2, hk2⟩ := ih s1 hn.2 (by
      intro sun' indices' hmem
      have hne : sun' ≠ sun := by
        intro h
        subst h
        exact hn.1 (List.mem_map_of_mem Prod.fst hmem)
      obtain ⟨hs', hi'⟩ := hg sun' indices' (by simp [hmem])
      refine ⟨hs', ?_⟩
      intro i hi
      obtain ⟨tuple, ht, hu⟩ := hi' i hi
      refine ⟨tuple, ?_, ?_⟩
      · rw [hother sun' hne]
        exact ht
      · rw [untouched_congr s s1 hk1.removal]
        exact hu)
    exact ⟨s2, h2, hk1.transKeeps hk2⟩

theorem marksGood_step (s : State) (sun : SunId) (marks : List (SunId × List Nat)) (i : Nat)
    (hm : MarksGood s marks)
    (hq : ∃ tuple, nth (s.novelTuples sun) i = some tuple ∧ s.untouched tuple = false) :
    MarksGood s (mset sun (setInsert natLt i (mgetD sun [] marks)) marks) := by
  obtain ⟨hn, hg⟩ := hm
  refine ⟨mkeys_mset_nodup _ _ _ hn, ?_⟩
  intro sun' indices hfind
  by_cases hs : sun' = sun
  · subst hs
    rw [mfind_mset_same] at hfind
    simp only [Option.some.injEq] at hfind
    subst hfind
    have hold : (mgetD sun' [] marks).Pairwise (fun a b => a < b) ∧
        ∀ j ∈ mgetD sun' [] marks, ∃ tuple, nth (s.novelTuples sun') j = some tuple ∧
          s.untouched tuple = false := by
      cases hf : mfind sun' marks with
      | none => simp [mgetD, hf]
      | some l =>
        simp only [mgetD, hf, Option.getD_some]
        exact hg sun' l hf
    refine ⟨setInsert_natLt_pairwise _ _ hold.1, ?_⟩
    intro j hj
    rw [mem_setInsert_natLt] at hj
    rcases hj with hj | hj
    · subst hj
      exact hq
    · exact hold.2 j hj
  · rw [mfind_mset_other _ _ _ _ hs] at hfind
    exact hg sun' indices hfind

theorem untouched_false_of_mem (s : State) (tuple : NovelTuple) (g : GlobalPropId)
    (hg : g ∈ tuple) (hp : s.pendingRemoval g = true) : s.untouched tuple = false := by
  simp only [State.untouched, List.all_eq_false]
  exact ⟨g, hg, by simp [hp]⟩

theorem freeProps_frame (t : PropTypeId) (ids : List PropIdRaw) (s : State) :
    (freeProps t ids s).novelTuples = s.novelTuples ∧
    (freeProps t ids s).stagingPropTuples = s.stagingPropTuples ∧
    (freeProps t ids s).partialStatics = s.partialStatics ∧
    (freeProps t ids s).breakupCalls = s.breakupCalls := by
  induction ids generalizing s with
  | nil => exact ⟨rfl, rfl, rfl, rfl⟩
  | cons i ids ih =>
    simp only [freeProps]
    obtain ⟨h1, h2, h3, h4⟩ := ih
      { s with
        freed := s.freed ++ [⟨t, i⟩]
        instanceBuffer := freeStages (mgetD i [] (s.ptpsq t)) s.instanceBuffer
        ptpsq := upd s.ptpsq t (merase i (s.ptpsq t)) }
    exact ⟨h1, h2, h3, h4⟩

theorem freeAll_frame (l : List (PropTypeId × List PropIdRaw)) (s : State) :
    (freeAll l s).novelTuples = s.novelTuples ∧
    (freeAll l s).stagingPropTuples = s.stagingPropTuples ∧
    (freeAll l s).partialStatics = s.partialStatics ∧
    (freeAll l s).breakupCalls = s.breakupCalls := by
  induction l generalizing s with
  | nil => exact ⟨rfl, rfl, rfl, rfl⟩
  | cons e l ih =>
    obtain ⟨t, ids⟩ := e
    simp only [freeAll]
    obtain ⟨h1, h2, h3, h4⟩ := ih (freeProps t ids s)
    obtain ⟨g1, g2, g3, g4⟩ := freeProps_frame t ids s
    exact ⟨h1.trans g1, h2.trans g2, h3.trans g3, h4.trans g4⟩

theorem pendingSound_of_nothingPending (s : State) (h : NothingPending s) : PendingSound s := by
  obtain ⟨hp, hm⟩ := h
  refine ⟨by simp [hp, mkeys], ?_⟩
  rw [hm]
  exact ⟨by simp [mkeys], by simp [mfind]⟩

theorem marksGood_mono (s s1 : State) (marks : List (SunId × List Nat))
    (hnt : s1.novelTuples = s.novelTuples)
    (hp : ∀ g, s.pendingRemoval g = true → s1.pendingRemoval g = true)
    (h : MarksGood s marks) : MarksGood s1 marks := by
  obtain ⟨hn, hg⟩ := h
  refine ⟨hn, ?_⟩
  intro sun indices hf
  obtain ⟨h1, h2⟩ := hg sun indices hf
  refine ⟨h1, ?_⟩
  intro i hi
  obtain ⟨tuple, ht, hu⟩ := h2 i hi
  refine ⟨tuple, by rw [hnt]; exact ht, ?_⟩
  simp only [State.untouched, List.all_eq_false] at hu
  obtain ⟨g, hgm, hgp⟩ := hu
  exact untouched_false_of_mem s1 tuple g hgm (hp g (by simpa using hgp))

/-- A removal flush from a state whose pending sets are sound is defined, erases only tuples
with a member pending removal, appends only props that are not pending removal to staging
queues, and only shrinks partial-static lists. -/
theorem flush_spec (s : State) (Remove : GroupSet → Bool)
    (hidx : MappedIndexed s) (hty : TuplesTyped s) (hsound : PendingSound s) :
    ∃ s1 s2, RemoveProps s Remove = some s1 ∧ RemovePropsDelayed s1 = some s2 ∧
      flush s Remove = some s2 ∧
      (∀ sun, (s2.novelTuples sun).Sublist (s.novelTuples sun)) ∧
      (∀ sun, (s2.novelTuples sun).filter s1.untouched =
        (s.novelTuples sun).filter s1.untouched) ∧
      (∀ sun t, ∃ extra, s2.staged sun t = s.staged sun t ++ extra ∧
        ∀ x ∈ extra, s1.pendingRemoval ⟨t, x⟩ = false) ∧
      (∀ sun t, (s2.partialStatics sun t).Sublist (s.partialStatics sun t)) := by
  obtain ⟨hp0, hm0⟩ := hsound
  have hkeys : (mkeys (markTypes Remove s.ptpsq s.propTypeNames s.propsToRemove)).Nodup :=
    markTypes_keys_nodup _ _ _ _ hp0
  obtain ⟨marks, hmarks, hgood⟩ := markBreakups_inv
    (MarksGood { s with
      propsToRemove := markTypes Remove s.ptpsq s.propTypeNames s.propsToRemove })
    (fun sun i => ∃ tuple, nth (s.novelTuples sun) i = some tuple ∧
      State.untouched { s with
        propsToRemove := markTypes Remove s.ptpsq s.propTypeNames s.propsToRemove } tuple = false)
    { s with propsToRemove := markTypes Remove s.ptpsq s.propTypeNames s.propsToRemove }
    (fun sun marks i hm hq => marksGood_step _ sun marks i hm hq)
    (markTypes Remove s.ptpsq s.propTypeNames s.propsToRemove) s.tuplesToBreakup
    (marksGood_mono s _ _ rfl (by
      intro g hg
      simp only [State.pendingRemoval, decide_eq_true_eq] at hg ⊢
      exact (markTypes_mem Remove s.ptpsq s.propTypeNames s.propsToRemove g.typeId g.id).2
        (Or.inl hg)) hm0)
    (by
      intro t removed hmem ts hts sun hsun j tuple hj
      obtain ⟨g, hg, hgt⟩ := nth_removalIndex t ts tuple
        (hty ts sun tuple hsun (nth_mem _ _ _ hj)) (hidx t ts hts)
      refine ⟨g, hg, fun hin => ⟨tuple, hj, ?_⟩⟩
      apply untouched_false_of_mem _ tuple g (nth_mem _ _ _ hg)
      simp only [State.pendingRemoval, decide_eq_true_eq, hgt, mgetD,
        mfind_of_mem_nodup t removed _ hkeys hmem, Option.getD_some]
      exact hin)
  obtain ⟨sB, hB, hk⟩ := breakAll_spec marks
    { s with
      propsToRemove := markTypes Remove s.ptpsq s.propTypeNames s.propsToRemove
      tuplesToBreakup := marks }
    hgood.1 (by
      intro sun indices hmem
      exact hgood.2 sun indices (mfind_of_mem_nodup sun indices marks hgood.1 hmem))
  obtain ⟨f1, f2, f3, -⟩ := freeAll_frame sB.propsToRemove sB
  have hR : RemoveProps s Remove = some { s with
      propsToRemove := markTypes Remove s.ptpsq s.propTypeNames s.propsToRemove
      tuplesToBreakup := marks } := by
    simp only [RemoveProps, hmarks]
  have hD : RemovePropsDelayed { s with
      propsToRemove := markTypes Remove s.ptpsq s.propTypeNames s.propsToRemove
      tuplesToBreakup := marks } =
      some { freeAll sB.propsToRemove sB with propsToRemove := [], tuplesToBreakup := [] } := by
    simp only [RemovePropsDelayed, hB]
  refine ⟨_, _, hR, hD, by simp only [flush, hR, hD], ?_, ?_, ?_, ?_⟩
  · intro sun
    show ((freeAll sB.propsToRemove sB).novelTuples sun).Sublist _
    rw [f1]
    exact hk.sublist sun
  · intro sun
    show ((freeAll sB.propsToRemove sB).novelTuples sun).filter _ = _
    rw [f1]
    exact hk.tuples sun
  · intro sun t
    show ∃ extra, mgetD t [] ((freeAll sB.propsToRemove sB).stagingPropTuples sun) = _ ∧ _
    rw [f2]
    exact hk.staged sun t
  · intro sun t
    show ((freeAll sB.propsToRemove sB).partialStatics sun t).Sublist _
    rw [f3]
    exact hk.statics sun t

/-! ## The claims on removal flushes -/

/-- C8: unrelated tuples are untouched by a flush.  From a state whose tuples are typed by
their typesets and whose pending sets are sound (as when nothing is pending),
`RemoveProps` followed by `RemovePropsDelayed` is defined and, for every SunLambda, the tuples
none of whose members is pending removal are still in the tuple store afterwards, unchanged and
in their previous relative order. -/
theorem C8_unrelated_tuples_kept (s : State) (Remove : GroupSet → Bool)
    (hidx : MappedIndexed s) (hty : TuplesTyped s) (hsound : PendingSound s) :
    ∃ s1 s2, RemoveProps s Remove = some s1 ∧ RemovePropsDelayed s1 = some s2 ∧
      ∀ sun, ((s.novelTuples sun).filter s1.untouched).Sublist (s2.novelTuples sun) := by
  obtain ⟨s1, s2, h1, h2, -, -, hf, -, -⟩ := flush_spec s Remove hidx hty hsound
  refine ⟨s1, s2, h1, h2, fun sun => ?_⟩
  rw [← hf sun]
  exact List.filter_sublist _

theorem plainTwoTuples_novelTuples :
    plainTwoTuples.novelTuples =
      fun sun => if sun = 7 then [[⟨0, 0⟩, ⟨1, 0⟩], [⟨0, 1⟩, ⟨1, 1⟩]] else [] := by
  funext sun
  by_cases h : sun = 7
  · subst h
    rfl
  · rw [if_neg h]
    show upd (upd (fun _ => []) 7 _) 7 _ sun = []
    rw [upd_other _ _ _ _ h, upd_other _ _ _ _ h]

theorem plainTwoTuples_typesetSunLambdas :
    plainTwoTuples.typesetSunLambdas = fun ts => if ts = [0, 1] then [7] else [] := rfl

theorem plainTwoTuples_mapped :
    plainTwoTuples.mappedPropTupleTypesets =
      fun t => if t = 1 then [[0, 1]] else if t = 0 then [[0, 1]] else [] := rfl

theorem plainTwoTuples_mappedIndexed : MappedIndexed plainTwoTuples := by
  intro t ts h
  rw [plainTwoTuples_mapped] at h
  by_cases h1 : t = 1
  · simp [h1] at h
    simp [h, h1]
  · by_cases h0 : t = 0
    · simp [h0] at h
      simp [h, h0]
    · simp [h1, h0] at h

theorem plainTwoTuples_tuplesTyped : TuplesTyped plainTwoTuples := by
  intro ts sun tuple hs ht
  rw [plainTwoTuples_typesetSunLambdas] at hs
  rw [plainTwoTuples_novelTuples] at ht
  by_cases h1 : ts = [0, 1]
  · simp [h1] at hs
    simp [hs] at ht
    rcases ht with ht | ht <;> simp [ht, h1]
  · simp [h1] at hs

/-- Witness of C8: two live tuples, the search matches `a1`; the tuple `(a2, b2)` survives. -/
theorem C8_unrelated_tuples_kept_witness :
    MappedIndexed plainTwoTuples ∧ TuplesTyped plainTwoTuples ∧ PendingSound plainTwoTuples ∧
    ∃ s1 s2, RemoveProps plainTwoTuples removeA1 = some s1 ∧ RemovePropsDelayed s1 = some s2 ∧
      ∀ sun, ((plainTwoTuples.novelTuples sun).filter s1.untouched).Sublist
        (s2.novelTuples sun) :=
  ⟨plainTwoTuples_mappedIndexed, plainTwoTuples_tuplesTyped,
    pendingSound_of_nothingPending plainTwoTuples ⟨rfl, rfl⟩,
    C8_unrelated_tuples_kept plainTwoTuples removeA1 plainTwoTuples_mappedIndexed
      plainTwoTuples_tuplesTyped (pendingSound_of_nothingPending plainTwoTuples ⟨rfl, rfl⟩)⟩

/-- C6 on the code: a prop that is staged without being in a tuple, and a partial static that
is in no tuple, are freed by the flush (they leave the stage index) and are still in the staging
queue, respectively the partial-static list, afterwards.  The freed partial static `counter1` is
then joined with the next `Tick` in a tuple of `Count`; and when the raw id of the freed `a1` is
handed out again, the stale entry and the entry of the new prop stand for the same prop, which
ends up in two tuples of `Pair`. -/
theorem C6_freed_prop_stays_staged :
    (flush pairStaged removeA1).map (fun s => (s.freed, s.tracked 0 0, s.staged 7 0)) =
      some ([⟨0, 0⟩], false, [0]) ∧
    (flush countReady removeA1).map (fun s => (s.freed, s.tracked 3 0, s.partialStatics 9 3)) =
      some ([⟨3, 0⟩], false, [0]) ∧
    countAfterFree.map (fun s => (s.tracked 3 0, s.novelTuples 9)) =
      some (false, [[⟨2, 0⟩, ⟨3, 0⟩]]) ∧
    pairAfterReuse.map (fun s => (s.freed, s.novelTuples 7, s.staged 7 0)) =
      some ([⟨0, 0⟩], [[⟨0, 0⟩, ⟨1, 0⟩], [⟨0, 0⟩, ⟨1, 1⟩]], []) :=
  ⟨rfl, rfl, rfl, rfl⟩

/-- C5 on the code: with the SunLambda in the breakup set, the flush that frees all four props
of the tuples `(a1, b1)`, `(a2, b2)` leaves both tuples in the tuple store; with the same
SunLambda outside the breakup set the store is emptied. -/
theorem C5_freed_members_stay_in_store :
    (flush pairTwoTuples removeAll).map
        (fun s => (fourProps.all (fun g => decide (g ∈ s.freed)), s.novelTuples 7)) =
      some (true, [[⟨0, 0⟩, ⟨1, 0⟩], [⟨0, 1⟩, ⟨1, 1⟩]]) ∧
    (flush plainTwoTuples removeAll).map
        (fun s => (fourProps.all (fun g => decide (g ∈ s.freed)), s.novelTuples 7)) =
      some (true, []) :=
  ⟨rfl, rfl⟩

/-- C7 on the code: the SunLambda is in the breakup set and both of its tuples are marked for
breakup, yet `RemovePropsDelayed` invokes the breakup notification once, for the tuple of
greatest index. -/
theorem C7_one_notification_for_two_marked :
    (RemoveProps pairTwoTuples removeAll).map (fun s => s.tuplesToBreakup) =
      some [(7, [0, 1])] ∧
    (flush pairTwoTuples removeAll).map (fun s => s.breakupCalls) = some [(7, [1, 1])] :=
  ⟨rfl, rfl⟩

/-- C4 on the code: the Pair scenario.  Creation of `a1` stages it; creation of `b1` forms
`(a1, b1)` and emerge is invoked with `[a1, b1]`; the removal of `a1` invokes breakup with
`[a1, b1]` and restages `b1`, but the tuple `(a1, b1)` stays in the store, and after the
creation of `a2` the store holds two tuples (whether the raw index of `a1` is reused or not). -/
theorem C4_pair_scenario_keeps_broken_tuple :
    pairAfterA1.map (fun s => (s.novelTuples 7, s.staged 7 0)) = some ([], [0]) ∧
    pairAfterB1.map (fun s => (s.novelTuples 7, s.staged 7 0, s.emergeCalls)) =
      some ([[⟨0, 0⟩, ⟨1, 0⟩]], [], [(7, [0, 0])]) ∧
    pairAfterFlush.map (fun s => (s.breakupCalls, s.novelTuples 7, s.staged 7 1, s.freed)) =
      some ([(7, [0, 0])], [[⟨0, 0⟩, ⟨1, 0⟩]], [0], [⟨0, 0⟩]) ∧
    (pairAfterA2 1).map (fun s => s.novelTuples 7) =
      some [[⟨0, 0⟩, ⟨1, 0⟩], [⟨0, 1⟩, ⟨1, 0⟩]] ∧
    (pairAfterA2 0).map (fun s => s.novelTuples 7) =
      some [[⟨0, 0⟩, ⟨1, 0⟩], [⟨0, 0⟩, ⟨1, 0⟩]] :=
  ⟨rfl, rfl, rfl, rfl, rfl⟩

/-! ## The claims on tuple formation: evaluations -/

/-- C2 on the code: with `Pair` over `[A, B]` and no reuse function, the creations `a1`, `a2`,
`b1`, `b2` leave `a1` in two tuples of `Pair`; the prop taken out of the staging queue each time
is the last one, not the one put in the tuple. -/
theorem C2_member_of_two_tuples :
    (createAABB plainStart).map (fun s => (s.novelTuples 7, s.staged 7 0)) =
      some ([[⟨0, 0⟩, ⟨1, 0⟩], [⟨0, 0⟩, ⟨1, 1⟩]], []) ∧
    ((InitProp plainStart ⟨0, 0⟩ []).bind (fun s => InitProp s ⟨0, 1⟩ [])).map
        (fun s => s.staged 7 0) = some [0, 1] ∧
    (((InitProp plainStart ⟨0, 0⟩ []).bind (fun s => InitProp s ⟨0, 1⟩ [])).bind
        (fun s => InitProp s ⟨1, 0⟩ [])).map (fun s => (s.novelTuples 7, s.staged 7 0)) =
      some ([[⟨0, 0⟩, ⟨1, 0⟩]], [0]) :=
  ⟨rfl, rfl, rfl⟩

/-- C9 on the code: SunLambdas 1 and 2 share the typeset `[0]`.  With only SunLambda 2 in the
emerge set, the tuple formed for SunLambda 1 invokes the notification of SunLambda 2; with both
in the emerge set, both tuples invoke the notification of SunLambda 1 and none that of
SunLambda 2. -/
theorem C9_emerge_goes_to_typeset_sharer :
    (InitProp sharedStart ⟨0, 0⟩ []).map
        (fun s => (s.emerges, s.novelTuples 1, s.novelTuples 2, s.emergeCalls)) =
      some ([2], [[⟨0, 0⟩]], [[⟨0, 0⟩]], [(2, [0]), (2, [0])]) ∧
    (InitProp (Emerge sharedStart 1) ⟨0, 0⟩ []).map
        (fun s => (s.emerges, s.novelTuples 1, s.novelTuples 2, s.emergeCalls)) =
      some ([1, 2], [[⟨0, 0⟩]], [[⟨0, 0⟩]], [(1, [0]), (1, [0])]) :=
  ⟨rfl, rfl⟩

/-! ## `ConsiderProp`: the search for one SunLambda -/

theorem back_of_ne_nil {α : Type} (l : List α) (h : l ≠ []) : ∃ x, back l = some x := by
  induction l with
  | nil => exact absurd rfl h
  | cons x xs ih =>
    cases xs with
    | nil => exact ⟨x, rfl⟩
    | cons y ys => exact ih (by simp)

theorem popBack_of_ne_nil {α : Type} (l : List α) (h : l ≠ []) : ∃ q, popBack l = some q := by
  induction l with
  | nil => exact absurd rfl h
  | cons x xs ih =>
    cases xs with
    | nil => exact ⟨[], rfl⟩
    | cons y ys =>
      obtain ⟨q, hq⟩ := ih (by simp)
      exact ⟨x :: q, by simp [popBack, hq]⟩

theorem setAt_of_lt {α : Type} (l : List α) (i : Nat) (a : α) (h : i < l.length) :
    ∃ l', setAt l i a = some l' := by
  induction l generalizing i with
  | nil => simp at h
  | cons x xs ih =>
    cases i with
    | zero => exact ⟨a :: xs, rfl⟩
    | succ i =>
      simp only [List.length_cons, Nat.add_lt_add_iff_right] at h
      obtain ⟨l', hl⟩ := ih i h
      exact ⟨x :: l', by simp [setAt, hl]⟩

theorem upd_self {κ α : Type} [DecidableEq κ] (f : κ → α) (k : κ) : upd f k (f k) = f := by
  funext x
  by_cases h : x = k
  · simp [upd, h]
  · simp [upd, h]

theorem Grows.reflGrows (s : State) : Grows s s :=
  ⟨rfl, rfl, rfl, rfl, rfl, fun _ _ _ h => h, fun _ _ h => Or.inl h⟩

theorem Grows.transGrows {s s1 s2 : State} (h1 : Grows s s1) (h2 : Grows s1 s2) : Grows s s2 := by
  refine ⟨h2.mapped.trans h1.mapped, h2.suns.trans h1.suns, h2.typesets.trans h1.typesets,
    h2.creators.trans h1.creators, h2.emerges.trans h1.emerges,
    fun t r v h => h2.stages t r v (h1.stages t r v h), ?_⟩
  intro sun t h
  rcases h2.reuse sun t h with h' | h'
  · exact h1.reuse sun t h'
  · rw [h1.creators] at h'
    exact Or.inr h'

theorem Grows.reuseTotal {s s' : State} (h : Grows s s') (hr : ReuseTotal s) : ReuseTotal s' := by
  intro sun t hne
  rw [h.creators]
  rcases h.reuse sun t hne with h' | h'
  · exact hr sun t h'
  · exact h'

theorem Apart.reflApart (sun : SunId) (s : State) : Apart sun s s :=
  ⟨fun _ _ => rfl, fun _ _ => rfl, fun _ _ => rfl⟩

theorem Apart.transApart {sun : SunId} {s s1 s2 : State} (h1 : Apart sun s s1)
    (h2 : Apart sun s1 s2) : Apart sun s s2 :=
  ⟨fun O h => (h2.staging O h).trans (h1.staging O h),
    fun O h => (h2.statics O h).trans (h1.statics O h),
    fun O h => (h2.tuples O h).trans (h1.tuples O h)⟩

/-- The stage index after a touch keeps the entries it had. -/
theorem stages_touch (pq : PropTypeId → List (PropIdRaw × GroupSet)) (p : PropTypeId)
    (ps : PropIdRaw) (t : PropTypeId) (r : PropIdRaw) (v : GroupSet)
    (h : mfind r (pq t) = some v) : mfind r (upd pq p (mtouch ps [] (pq p)) t) = some v := by
  by_cases ht : t = p
  · subst ht
    rw [upd_same]
    exact mfind_mtouch_of_some _ _ _ _ _ h
  · rw [upd_other _ _ _ _ ht]
    exact h

/-- `FindPartialStatic` is defined when the SunLambda has a reuse function for the type or no
partial static of the type; it changes the stage index only, by adding entries. -/
theorem FindPartialStatic_spec (sun : SunId) (stages : GroupSet) (propTypeId ptid : PropTypeId)
    (l : List PropIdRaw) (s : State)
    (hreuse : l ≠ [] → ((s.novelTupleCreators sun).reuseOnStages ptid).isSome = true) :
    ∃ pq found, FindPartialStatic sun stages propTypeId ptid l s =
        some ({ s with ptpsq := pq }, found) ∧
      (∀ t r v, mfind r (s.ptpsq t) = some v → mfind r (pq t) = some v) ∧
      (∀ ps, found = some ps → ps ∈ l) := by
  induction l generalizing s with
  | nil => exact ⟨s.ptpsq, none, rfl, fun _ _ _ h => h, by simp⟩
  | cons ps rest ih =>
    have hsome := hreuse (by simp)
    cases hr : (s.novelTupleCreators sun).reuseOnStages ptid with
    | none => simp [hr] at hsome
    | some reuse =>
      simp only [FindPartialStatic, hr]
      by_cases hacc : reuse stages propTypeId
          (mgetD ps [] (upd s.ptpsq propTypeId (mtouch ps [] (s.ptpsq propTypeId)) propTypeId))
          = true
      · rw [if_pos hacc]
        exact ⟨_, some ps, rfl, fun t r v h => stages_touch _ _ _ _ _ _ h, by simp⟩
      · rw [if_neg hacc]
        obtain ⟨pq, found, h1, h2, h3⟩ := ih
          { s with ptpsq := upd s.ptpsq propTypeId (mtouch ps [] (s.ptpsq propTypeId)) }
          (fun _ => by simpa using hsome)
        refine ⟨pq, found, h1, ?_, ?_⟩
        · intro t r v h
          exact h2 t r v (stages_touch _ _ _ _ _ _ h)
        · intro x hx
          exact List.mem_cons_of_mem _ (h3 x hx)

theorem mkeys_mtouch {κ α : Type} [DecidableEq κ] (k : κ) (d : α) (m : List (κ × α)) :
    mkeys (mtouch k d m) = if k ∈ mkeys m then mkeys m else mkeys m ++ [k] := by
  unfold mtouch
  by_cases h : mhas k m = true
  · rw [if_pos h, if_pos ((mhas_iff_mem_mkeys k m).1 h)]
  · rw [if_neg h, if_neg (fun hm => h ((mhas_iff_mem_mkeys k m).2 hm))]
    simp [mkeys]

theorem mkeys_mtouch_nodup {κ α : Type} [DecidableEq κ] (k : κ) (d : α) (m : List (κ × α))
    (hn : (mkeys m).Nodup) : (mkeys (mtouch k d m)).Nodup := by
  rw [mkeys_mtouch]
  by_cases h : k ∈ mkeys m
  · simp [h, hn]
  · simp only [h, if_false]
    rw [List.nodup_append]
    refine ⟨hn, by simp, ?_⟩
    intro a ha hb
    simp at hb
    subst hb
    exact h ha

theorem mem_mkeys_mtouch {κ α : Type} [DecidableEq κ] (k k' : κ) (d : α) (m : List (κ × α))
    (h : k' ∈ mkeys (mtouch k d m)) : k' ∈ mkeys m ∨ k' = k := by
  rw [mkeys_mtouch] at h
  by_cases hk : k ∈ mkeys m
  · rw [if_pos hk] at h
    exact Or.inl h
  · rw [if_neg hk] at h
    simpa using h

theorem mhas_of_mfind {κ α : Type} [DecidableEq κ] (k : κ) (v : α) (m : List (κ × α))
    (h : mfind k m = some v) : mhas k m = true := by
  simp [mhas, h]

theorem mfind_of_mhas {κ α : Type} [DecidableEq κ] (k : κ) (m : List (κ × α))
    (h : mhas k m = true) : ∃ v, mfind k m = some v := by
  cases hf : mfind k m with
  | none => simp [mhas, hf] at h
  | some v => exact ⟨v, rfl⟩

/-- The completeness loop is defined when partial statics have reuse functions.  It only touches
the staging map of the SunLambda and the stage index, and when it does not rule the tuple out,
every type of the typeset other than the added one has a partial-static neighbour or a non-empty
staging queue. -/
theorem completenessLoop_spec (sun : SunId) (stages : GroupSet) (propTypeId : PropTypeId)
    (ts : List PropTypeId) (s : State) (psn : List (PropTypeId × PropIdRaw))
    (hreuse : ∀ p, s.partialStatics sun p ≠ [] →
      ((s.novelTupleCreators sun).reuseOnStages p).isSome = true) :
    ∃ pq st psn' ro, completenessLoop sun stages propTypeId ts s psn =
        some ({ s with ptpsq := pq, stagingPropTuples := st }, psn', ro) ∧
      (∀ t r v, mfind r (s.ptpsq t) = some v → mfind r (pq t) = some v) ∧
      (∀ O, O ≠ sun → st O = s.stagingPropTuples O) ∧
      (∀ k v, mfind k (s.stagingPropTuples sun) = some v → mfind k (st sun) = some v) ∧
      (∀ k, mgetD k [] (st sun) = mgetD k [] (s.stagingPropTuples sun)) ∧
      (∀ k, k ∈ mkeys (st sun) → k ∈ mkeys (s.stagingPropTuples sun) ∨ k ∈ ts) ∧
      ((mkeys (s.stagingPropTuples sun)).Nodup → (mkeys (st sun)).Nodup) ∧
      (∀ p, mhas p psn = true → mhas p psn' = true) ∧
      (ro = false → ∀ p ∈ ts, p ≠ propTypeId →
        mhas p psn' = true ∨ (mhas p (st sun) = true ∧ mgetD p [] (st sun) ≠ [])) := by
  induction ts generalizing s psn with
  | nil =>
    exact ⟨s.ptpsq, s.stagingPropTuples, psn, false, rfl, fun _ _ _ h => h, fun _ _ => rfl,
      fun _ _ h => h, fun _ => rfl, fun _ h => Or.inl h, fun h => h, fun _ h => h,
      fun _ p hp => by simp at hp⟩
  | cons ptid rest ih =>
    by_cases hp : ptid = propTypeId
    · obtain ⟨pq, st, psn', ro, h0, h1, h2, h3, h4, h5, h6, h7, h8⟩ := ih s psn hreuse
      refine ⟨pq, st, psn', ro, ?_, h1, h2, h3, h4, ?_, h6, h7, ?_⟩
      · simp only [completenessLoop, hp, if_true]
        exact h0
      · intro k hk
        rcases h5 k hk with h | h
        · exact Or.inl h
        · exact Or.inr (List.mem_cons_of_mem _ h)
      · intro hro p hmem hne
        simp only [List.mem_cons] at hmem
        rcases hmem with hmem | hmem
        · exact absurd (hmem.trans hp) hne
        · exact h8 hro p hmem hne
    · simp only [completenessLoop, hp, if_false, upd_same]
      by_cases hempty : (mgetD ptid [] (mtouch ptid [] (s.stagingPropTuples sun))).isEmpty = true
      · rw [if_pos hempty]
        obtain ⟨pq1, found, hf, hmono, -⟩ := FindPartialStatic_spec sun stages propTypeId ptid
          (s.partialStatics sun ptid)
          { s with
            stagingPropTuples :=
              upd s.stagingPropTuples sun (mtouch ptid [] (s.stagingPropTuples sun)) }
          (hreuse ptid)
        cases found with
        | none =>
          refine ⟨pq1, upd s.stagingPropTuples sun (mtouch ptid [] (s.stagingPropTuples sun)),
            psn, true, ?_, hmono, ?_, ?_, ?_, ?_, ?_, fun _ h => h, by simp⟩
          · simp only [hf]
          · intro O hO
            rw [upd_other _ _ _ _ hO]
          · intro k v hk
            rw [upd_same]
            exact mfind_mtouch_of_some _ _ _ _ _ hk
          · intro k
            rw [upd_same, mgetD_mtouch]
          · intro k hk
            rw [upd_same] at hk
            rcases mem_mkeys_mtouch _ _ _ _ hk with h | h
            · exact Or.inl h
            · exact Or.inr (by simp [h])
          · intro hn
            rw [upd_same]
            exact mkeys_mtouch_nodup _ _ _ hn
        | some ps =>
          simp only [hf]
          obtain ⟨pq, st, psn', ro, h0, h1, h2, h3, h4, h5, h6, h7, h8⟩ := ih
            { s with
              ptpsq := pq1
              stagingPropTuples :=
                upd s.stagingPropTuples sun (mtouch ptid [] (s.stagingPropTuples sun)) }
            (mset ptid ps psn) hreuse
          refine ⟨pq, st, psn', ro, h0, fun t r v h => h1 t r v (hmono t r v h), ?_, ?_, ?_, ?_,
            ?_, ?_, ?_⟩
          · intro O hO
            rw [h2 O hO]
            show upd s.stagingPropTuples sun _ O = _
            rw [upd_other _ _ _ _ hO]
          · intro k v hk
            apply h3
            show mfind k (upd s.stagingPropTuples sun _ sun) = _
            rw [upd_same]
            exact mfind_mtouch_of_some _ _ _ _ _ hk
          · intro k
            rw [h4 k]
            show mgetD k [] (upd s.stagingPropTuples sun _ sun) = _
            rw [upd_same, mgetD_mtouch]
          · intro k hk
            rcases h5 k hk with h | h
            · have h' : k ∈ mkeys (mtouch ptid [] (s.stagingPropTuples sun)) := by
                have e : (upd s.stagingPropTuples sun
                    (mtouch ptid [] (s.stagingPropTuples sun))) sun =
                    mtouch ptid [] (s.stagingPropTuples sun) := upd_same _ _ _
                rw [← e]
                exact h
              rcases mem_mkeys_mtouch _ _ _ _ h' with h'' | h''
              · exact Or.inl h''
              · exact Or.inr (by simp [h''])
            · exact Or.inr (List.mem_cons_of_mem _ h)
          · intro hn
            apply h6
            show (mkeys (upd s.stagingPropTuples sun _ sun)).Nodup
            rw [upd_same]
            exact mkeys_mtouch_nodup _ _ _ hn
          · intro p hpm
            apply h7
            by_cases hpp : p = ptid
            · subst hpp
              simp [mhas, mfind_mset_same]
            · simpa [mhas, mfind_mset_other _ _ _ _ hpp] using hpm
          · intro hro p hmem hne
            simp only [List.mem_cons] at hmem
            rcases hmem with hmem | hmem
            · subst hmem
              exact Or.inl (h7 p (by simp [mhas, mfind_mset_same]))
            · exact h8 hro p hmem hne
      · rw [if_neg hempty]
        obtain ⟨pq, st, psn', ro, h0, h1, h2, h3, h4, h5, h6, h7, h8⟩ := ih
          { s with
            stagingPropTuples :=
              upd s.stagingPropTuples sun (mtouch ptid [] (s.stagingPropTuples sun)) }
          psn hreuse
        refine ⟨pq, st, psn', ro, h0, h1, ?_, ?_, ?_, ?_, ?_, h7, ?_⟩
        · intro O hO
          rw [h2 O hO]
          show upd s.stagingPropTuples sun _ O = _
          rw [upd_other _ _ _ _ hO]
        · intro k v hk
          apply h3
          show mfind k (upd s.stagingPropTuples sun _ sun) = _
          rw [upd_same]
          exact mfind_mtouch_of_some _ _ _ _ _ hk
        · intro k
          rw [h4 k]
          show mgetD k [] (upd s.stagingPropTuples sun _ sun) = _
          rw [upd_same, mgetD_mtouch]
        · intro k hk
          rcases h5 k hk with h | h
          · have h' : k ∈ mkeys (mtouch ptid [] (s.stagingPropTuples sun)) := by
              have e : (upd s.stagingPropTuples sun
                  (mtouch ptid [] (s.stagingPropTuples sun))) sun =
                  mtouch ptid [] (s.stagingPropTuples sun) := upd_same _ _ _
              rw [← e]
              exact h
            rcases mem_mkeys_mtouch _ _ _ _ h' with h'' | h''
            · exact Or.inl h''
            · exact Or.inr (by simp [h''])
          · exact Or.inr (List.mem_cons_of_mem _ h)
        · intro hn
          apply h6
          show (mkeys (upd s.stagingPropTuples sun _ sun)).Nodup
          rw [upd_same]
          exact mkeys_mtouch_nodup _ _ _ hn
        · intro hro p hmem hne
          simp only [List.mem_cons] at hmem
          rcases hmem with hmem | hmem
          · subst hmem
            right
            have hkey : mhas p (mtouch p [] (s.stagingPropTuples sun)) = true :=
              mhas_mtouch_self _ _ _
            obtain ⟨v, hv⟩ := mfind_of_mhas _ _ hkey
            have hv' : mfind p (st sun) = some v := by
              apply h3
              show mfind p (upd s.stagingPropTuples sun _ sun) = _
              rw [upd_same]
              exact hv
            refine ⟨mhas_of_mfind _ _ _ hv', ?_⟩
            rw [h4 p]
            show mgetD p [] (upd s.stagingPropTuples sun _ sun) ≠ []
            rw [upd_same]
            intro hnil
            apply hempty
            rw [hnil]
            rfl
          · exact h8 hro p hmem hne

theorem mgetD_push_ne_nil {κ : Type} [DecidableEq κ] (k k' : κ) (n : Nat)
    (cn : List (κ × List Nat)) (h : mgetD k' [] cn ≠ []) :
    mgetD k' [] (mset k (mgetD k [] cn ++ [n]) cn) ≠ [] := by
  by_cases hk : k' = k
  · subst hk
    rw [mgetD_mset_same]
    simp
  · rw [mgetD_mset_other _ _ _ _ _ hk]
    exact h

/-- When the neighbour loop does not rule the tuple out, `compatibleNeighbors` has a neighbour
for every key of the staging map that is neither the added type nor a partial-static
neighbour. -/
theorem neighborLoop_sound (s : State) (sun : SunId) (propTypeId : PropTypeId)
    (psn : List (PropTypeId × PropIdRaw)) (entries cn cn' : List (PropTypeId × List PropIdRaw))
    (h : neighborLoop s sun propTypeId psn entries cn = (cn', false)) :
    (∀ k, mgetD k [] cn ≠ [] → mgetD k [] cn' ≠ []) ∧
    (∀ k q, (k, q) ∈ entries → k ≠ propTypeId → mhas k psn = false → mgetD k [] cn' ≠ []) := by
  induction entries generalizing cn with
  | nil =>
    simp only [neighborLoop, Prod.mk.injEq, and_true] at h
    subst h
    exact ⟨fun _ h => h, by simp⟩
  | cons e entries ih =>
    obtain ⟨t, queue⟩ := e
    by_cases hskip : t = propTypeId ∨ mhas t psn = true
    · simp only [neighborLoop, hskip, if_true] at h
      obtain ⟨h1, h2⟩ := ih cn h
      refine ⟨h1, ?_⟩
      intro k q hmem hne hps
      simp only [List.mem_cons, Prod.mk.injEq] at hmem
      rcases hmem with ⟨hk, -⟩ | hmem
      · subst hk
        rcases hskip with hs | hs
        · exact absurd hs hne
        · rw [hps] at hs
          exact absurd hs (by simp)
      · exact h2 k q hmem hne hps
    · simp only [neighborLoop, hskip, if_false] at h
      cases hfc : firstCompatible s sun t queue with
      | none =>
        simp only [hfc] at h
        by_cases hem : (mgetD t [] (mtouch t [] cn)).isEmpty = true
        · rw [if_pos hem] at h
          simp at h
        · rw [if_neg hem] at h
          obtain ⟨h1, h2⟩ := ih _ h
          refine ⟨fun k hk => h1 k (by rwa [mgetD_mtouch]), ?_⟩
          intro k q hmem hne hps
          simp only [List.mem_cons, Prod.mk.injEq] at hmem
          rcases hmem with ⟨hk, -⟩ | hmem
          · subst hk
            apply h1
            intro hnil
            apply hem
            rw [hnil]
            rfl
          · exact h2 k q hmem hne hps
      | some n =>
        simp only [hfc] at h
        by_cases hem : (mgetD t [] (mtouch t [] (mset t (mgetD t [] cn ++ [n]) cn))).isEmpty = true
        · rw [if_pos hem] at h
          simp at h
        · rw [if_neg hem] at h
          obtain ⟨h1, h2⟩ := ih _ h
          refine ⟨fun k hk => h1 k ?_, ?_⟩
          · rw [mgetD_mtouch]
            exact mgetD_push_ne_nil _ _ _ _ hk
          · intro k q hmem hne hps
            simp only [List.mem_cons, Prod.mk.injEq] at hmem
            rcases hmem with ⟨hk, -⟩ | hmem
            · subst hk
              apply h1
              intro hnil
              apply hem
              rw [hnil]
              rfl
            · exact h2 k q hmem hne hps

/-- The neighbour loop does not rule the tuple out when every key of the staging map is the
added type, has a partial-static neighbour, or has a compatible entry in its queue. -/
theorem neighborLoop_ok (s : State) (sun : SunId) (propTypeId : PropTypeId)
    (psn : List (PropTypeId × PropIdRaw)) (entries cn : List (PropTypeId × List PropIdRaw))
    (h : ∀ k q, (k, q) ∈ entries →
      k = propTypeId ∨ mhas k psn = true ∨ ∃ n, firstCompatible s sun k q = some n) :
    (neighborLoop s sun propTypeId psn entries cn).2 = false := by
  induction entries generalizing cn with
  | nil => rfl
  | cons e entries ih =>
    obtain ⟨t, queue⟩ := e
    have hrest : ∀ k q, (k, q) ∈ entries →
        k = propTypeId ∨ mhas k psn = true ∨ ∃ n, firstCompatible s sun k q = some n :=
      fun k q hm => h k q (List.mem_cons_of_mem _ hm)
    by_cases hskip : t = propTypeId ∨ mhas t psn = true
    · simp only [neighborLoop, hskip, if_true]
      exact ih cn hrest
    · simp only [neighborLoop, hskip, if_false]
      rcases h t queue (by simp) with h1 | h1 | ⟨n, hn⟩
      · exact absurd (Or.inl h1) hskip
      · exact absurd (Or.inr h1) hskip
      · simp only [hn]
        have hne : (mgetD t [] (mtouch t [] (mset t (mgetD t [] cn ++ [n]) cn))).isEmpty
            = false := by
          rw [mgetD_mtouch, mgetD_mset_same]
          simp
        rw [hne]
        simp only [Bool.false_eq_true, if_false]
        exact ih _ hrest

/-- The assembly loop is defined on a list of pairwise distinct types each of which is the added
type, has a partial-static neighbour, or has a compatible neighbour and a non-empty staging
queue.  The tuple grows by one member per type. -/
theorem assemble_defined (consider : GlobalPropId) (psn : List (PropTypeId × PropIdRaw))
    (cn : List (PropTypeId × List PropIdRaw)) (rest : List PropTypeId)
    (pn : List (PropTypeId × List PropIdRaw)) (tuple : NovelTuple) (i added : Nat)
    (hnd : rest.Nodup)
    (h : ∀ p ∈ rest, p ≠ consider.typeId → mfind p psn = none →
      mgetD p [] cn ≠ [] ∧ mgetD p [] pn ≠ []) :
    ∃ pn' tuple' added', assemble consider psn cn rest pn tuple i added =
        some (pn', tuple', added') ∧
      tuple'.length = tuple.length + rest.length ∧
      (added' = added ∨ (i ≤ added' ∧ added' < i + rest.length)) := by
  induction rest generalizing pn tuple i added with
  | nil => exact ⟨pn, tuple, added, rfl, by simp, Or.inl rfl⟩
  | cons ptid rest ih =>
    rw [List.nodup_cons] at hnd
    have hrest : ∀ (pn' : List (PropTypeId × List PropIdRaw)),
        (∀ k, k ≠ ptid → mgetD k [] pn' = mgetD k [] pn) →
        ∀ p ∈ rest, p ≠ consider.typeId → mfind p psn = none →
          mgetD p [] cn ≠ [] ∧ mgetD p [] pn' ≠ [] := by
      intro pn' hpn p hp hne hps
      have hpp : p ≠ ptid := fun e => hnd.1 (e ▸ hp)
      obtain ⟨h1, h2⟩ := h p (List.mem_cons_of_mem _ hp) hne hps
      exact ⟨h1, by rwa [hpn p hpp]⟩
    by_cases hc : ptid = consider.typeId
    · obtain ⟨pn', tuple', added', h0, h1, h2⟩ := ih pn (tuple ++ [⟨ptid, consider.id⟩])
        (i + 1) i hnd.2 (hrest pn (fun _ _ => rfl))
      refine ⟨pn', tuple', added', ?_, ?_, ?_⟩
      · simp only [assemble, hc, if_true]
        rw [hc] at h0
        exact h0
      · rw [h1]
        simp only [List.length_append, List.length_cons, List.length_nil]
        omega
      · right
        simp only [List.length_cons]
        rcases h2 with h2 | h2 <;> omega
    · simp only [assemble, hc, if_false]
      cases hps : mfind ptid psn with
      | some ps =>
        obtain ⟨pn', tuple', added', h0, h1, h2⟩ := ih pn (tuple ++ [⟨ptid, ps⟩])
          (i + 1) added hnd.2 (hrest pn (fun _ _ => rfl))
        refine ⟨pn', tuple', added', h0, ?_, ?_⟩
        · rw [h1]
          simp only [List.length_append, List.length_cons, List.length_nil]
          omega
        · simp only [List.length_cons]
          rcases h2 with h2 | h2
          · exact Or.inl h2
          · right
            omega
      | none =>
        obtain ⟨hcn, hpn⟩ := h ptid (by simp) hc hps
        obtain ⟨n, hn⟩ := back_of_ne_nil _ hcn
        obtain ⟨q, hq⟩ := popBack_of_ne_nil _ hpn
        simp only [hn, hq]
        obtain ⟨pn', tuple', added', h0, h1, h2⟩ := ih (mset ptid q pn) (tuple ++ [⟨ptid, n⟩])
          (i + 1) added hnd.2
          (hrest (mset ptid q pn) (fun k hk => mgetD_mset_other _ _ _ _ _ hk))
        refine ⟨pn', tuple', added', h0, ?_, ?_⟩
        · rw [h1]
          simp only [List.length_append, List.length_cons, List.length_nil]
          omega
        · simp only [List.length_cons]
          rcases h2 with h2 | h2
          · exact Or.inl h2
          · right
            omega

theorem addPartialStatic_spec (consider : GlobalPropId) (sun : SunId) (isPS : Bool) (s : State)
    (hps : isPS = true → ((s.novelTupleCreators sun).reuseOnStages consider.typeId).isSome = true) :
    Grows s (addPartialStatic consider sun isPS s) ∧
    Apart sun s (addPartialStatic consider sun isPS s) ∧
    (addPartialStatic consider sun isPS s).stagingPropTuples = s.stagingPropTuples ∧
    (addPartialStatic consider sun isPS s).novelTuples = s.novelTuples ∧
    (addPartialStatic consider sun isPS s).ptpsq = s.ptpsq := by
  unfold addPartialStatic
  cases isPS with
  | false =>
    rw [if_neg (by simp)]
    exact ⟨Grows.reflGrows s, Apart.reflApart sun s, rfl, rfl, rfl⟩
  | true =>
    rw [if_pos rfl]
    refine ⟨⟨rfl, rfl, rfl, rfl, rfl, fun _ _ _ h => h, ?_⟩,
      ⟨fun _ _ => rfl, fun O hO => ?_, fun _ _ => rfl⟩, rfl, rfl, rfl⟩
    · intro sun' t hne
      by_cases hs : sun' = sun
      · subst hs
        by_cases ht : t = consider.typeId
        · subst ht
          exact Or.inr (hps rfl)
        · left
          simpa [upd, ht] using hne
      · left
        simpa [upd, hs] using hne
    · show upd s.partialStatics sun _ O = _
      rw [upd_other _ _ _ _ hO]

theorem emergeStep_grows (s2 s3 : State) (typeset : Typeset) (novelTuple : NovelTuple)
    (h : Grows s2 s3) :
    ∃ s', (match emergeTarget s3 typeset s3.emerges with
        | some e => some { s3 with
            emergeCalls := s3.emergeCalls ++ [(e, novelTuple.map GlobalPropId.id)] }
        | none => some s3) = some s' ∧ Grows s2 s' ∧
      s'.stagingPropTuples = s3.stagingPropTuples ∧ s'.partialStatics = s3.partialStatics ∧
      s'.novelTuples = s3.novelTuples := by
  cases emergeTarget s3 typeset s3.emerges with
  | none => exact ⟨s3, rfl, h, rfl, rfl, rfl⟩
  | some e =>
    exact ⟨_, rfl, ⟨h.mapped, h.suns, h.typesets, h.creators, h.emerges, h.stages, h.reuse⟩,
      rfl, rfl, rfl⟩

/-- The formation of a tuple is defined when the assembly loop is, and appends exactly one tuple
to the tuple store of the SunLambda. -/
theorem formTuple_spec (consider : GlobalPropId) (ts : Typeset) (sun : SunId) (s2 : State)
    (psn : List (PropTypeId × PropIdRaw)) (cn : List (PropTypeId × List PropIdRaw))
    (hnd : ts.Nodup) (hne : ts ≠ [])
    (h : ∀ p ∈ ts, p ≠ consider.typeId → mfind p psn = none →
      mgetD p [] cn ≠ [] ∧ mgetD p [] (s2.stagingPropTuples sun) ≠ []) :
    ∃ s' tuple, formTuple consider ts sun s2 psn cn = some s' ∧ Grows s2 s' ∧
      Apart sun s2 s' ∧ s'.novelTuples sun = s2.novelTuples sun ++ [tuple] ∧
      s'.partialStatics = s2.partialStatics := by
  obtain ⟨pn, tuple, added, ha, hlen, hadded⟩ := assemble_defined consider psn cn ts
    (s2.stagingPropTuples sun) [] 0 0 hnd h
  have hpos : 0 < ts.length := List.length_pos.2 hne
  have hlt : added < tuple.length := by
    rw [hlen]
    simp only [List.length_nil, Nat.zero_add]
    rcases hadded with h1 | h1 <;> omega
  obtain ⟨novelTuple, hset⟩ := setAt_of_lt tuple added consider hlt
  obtain ⟨s', hs', hg, h1, h2, h3⟩ := emergeStep_grows s2
    { s2 with
      stagingPropTuples := upd s2.stagingPropTuples sun pn
      novelTuples := upd s2.novelTuples sun (s2.novelTuples sun ++ [novelTuple]) }
    ts novelTuple ⟨rfl, rfl, rfl, rfl, rfl, fun _ _ _ h => h, fun _ _ h => Or.inl h⟩
  refine ⟨s', novelTuple, ?_, hg, ⟨?_, ?_, ?_⟩, ?_, h2⟩
  · simp only [formTuple, ha, hset]
    exact hs'
  · intro O hO
    rw [h1]
    show upd s2.stagingPropTuples sun pn O = _
    rw [upd_other _ _ _ _ hO]
  · intro O _
    rw [h2]
  · intro O hO
    rw [h3]
    show upd s2.novelTuples sun _ O = _
    rw [upd_other _ _ _ _ hO]
  · rw [h3]
    show upd s2.novelTuples sun _ sun = _
    rw [upd_same]

theorem stageAdded_spec (consider : GlobalPropId) (sun : SunId) (staged : Bool) (s2 : State) :
    Grows s2 (stageAdded consider sun staged s2) ∧
    Apart sun s2 (stageAdded consider sun staged s2) ∧
    (stageAdded consider sun staged s2).novelTuples = s2.novelTuples ∧
    (stageAdded consider sun staged s2).partialStatics = s2.partialStatics := by
  unfold stageAdded
  cases staged with
  | false =>
    rw [if_neg (by simp)]
    exact ⟨Grows.reflGrows s2, Apart.reflApart sun s2, rfl, rfl⟩
  | true =>
    rw [if_pos rfl]
    refine ⟨⟨rfl, rfl, rfl, rfl, rfl, fun _ _ _ h => h, fun _ _ h => Or.inl h⟩,
      ⟨fun O hO => ?_, fun _ _ => rfl, fun _ _ => rfl⟩, rfl, rfl⟩
    show upd s2.stagingPropTuples sun _ O = _
    rw [upd_other _ _ _ _ hO]

/-- The part of the search after the completeness loop is defined for a typeset of pairwise
distinct types, given what the completeness loop guarantees. -/
theorem finishSearch_spec (consider : GlobalPropId) (ts : Typeset) (sun : SunId) (staged : Bool)
    (s2 : State) (psn : List (PropTypeId × PropIdRaw)) (ro : Bool)
    (hnd : ts.Nodup) (hne : ts ≠ [])
    (hc : ro = false → ∀ p ∈ ts, p ≠ consider.typeId →
      mhas p psn = true ∨ (mhas p (s2.stagingPropTuples sun) = true ∧
        mgetD p [] (s2.stagingPropTuples sun) ≠ [])) :
    ∃ s', finishSearch consider ts sun staged s2 psn ro = some s' ∧ Grows s2 s' ∧
      Apart sun s2 s' := by
  unfold finishSearch
  cases ro with
  | true =>
    simp only [if_true]
    obtain ⟨h1, h2, -, -⟩ := stageAdded_spec consider sun staged s2
    exact ⟨_, rfl, h1, h2⟩
  | false =>
    simp only [Bool.false_eq_true, if_false]
    by_cases hr : (neighborLoop s2 sun consider.typeId psn (s2.stagingPropTuples sun) []).2 = true
    · rw [if_pos hr]
      obtain ⟨h1, h2, -, -⟩ := stageAdded_spec consider sun staged s2
      exact ⟨_, rfl, h1, h2⟩
    · rw [if_neg hr]
      have hr' : neighborLoop s2 sun consider.typeId psn (s2.stagingPropTuples sun) [] =
          ((neighborLoop s2 sun consider.typeId psn (s2.stagingPropTuples sun) []).1, false) := by
        cases hx : neighborLoop s2 sun consider.typeId psn (s2.stagingPropTuples sun) [] with
        | mk a b =>
          rw [hx] at hr
          simp only [Bool.not_eq_true] at hr
          simp [hr]
      obtain ⟨-, hsound⟩ := neighborLoop_sound _ _ _ _ _ _ _ hr'
      obtain ⟨s', tuple, h0, h1, h2, -, -⟩ := formTuple_spec consider ts sun s2 psn
        (neighborLoop s2 sun consider.typeId psn (s2.stagingPropTuples sun) []).1 hnd hne (by
          intro p hp hpc hps
          rcases hc rfl p hp hpc with h | ⟨hk, hq⟩
          · simp [mhas, hps] at h
          · obtain ⟨v, hv⟩ := mfind_of_mhas _ _ hk
            exact ⟨hsound p v (mem_of_mfind _ _ _ hv) hpc (by simp [mhas, hps]), hq⟩)
      exact ⟨s', h0, h1, h2⟩

/-- The search for a novel tuple of one SunLambda is defined when the typeset has pairwise
distinct types and the partial statics of the SunLambda have reuse functions; it keeps the
registrations and the data of the other SunLambdas. -/
theorem considerSunLambda_spec (consider : GlobalPropId) (ts : Typeset) (sun : SunId)
    (s : State)
    (hreuse : ∀ p, s.partialStatics sun p ≠ [] →
      ((s.novelTupleCreators sun).reuseOnStages p).isSome = true)
    (hnd : ts.Nodup) (hne : ts ≠ []) :
    ∃ s', considerSunLambda consider ts sun s = some s' ∧ Grows s s' ∧ Apart sun s s' := by
  unfold considerSunLambda
  simp only []
  have hps : (IsPropCompatibleWithSunLambda s sun consider.typeId consider.id &&
      ((s.novelTupleCreators sun).reuseOnStages consider.typeId).isSome) = true →
      ((s.novelTupleCreators sun).reuseOnStages consider.typeId).isSome = true := by
    intro h
    simp only [Bool.and_eq_true] at h
    exact h.2
  obtain ⟨hg1, ha1, hst1, hnt1, hpq1⟩ := addPartialStatic_spec consider sun
    (IsPropCompatibleWithSunLambda s sun consider.typeId consider.id &&
      ((s.novelTupleCreators sun).reuseOnStages consider.typeId).isSome) s hps
  generalize addPartialStatic consider sun
    (IsPropCompatibleWithSunLambda s sun consider.typeId consider.id &&
      ((s.novelTupleCreators sun).reuseOnStages consider.typeId).isSome) s = s1 at *
  have hreuse1 : ∀ p, s1.partialStatics sun p ≠ [] →
      ((s1.novelTupleCreators sun).reuseOnStages p).isSome = true := by
    intro p hp
    rw [hg1.creators]
    rcases hg1.reuse sun p hp with h | h
    · exact hreuse p h
    · exact h
  by_cases hf : IsPropCompatibleWithSunLambda s sun consider.typeId consider.id = true
  · rw [if_pos hf]
    obtain ⟨pq, st, psn, ro, h0, h1, h2, h3, h4, h5, h6, h7, h8⟩ := completenessLoop_spec sun
      (mgetD consider.id [] (s.ptpsq consider.typeId)) consider.typeId ts s1 [] hreuse1
    rw [h0]
    simp only []
    obtain ⟨s', hs', hg2, ha2⟩ := finishSearch_spec consider ts sun
      (IsPropCompatibleWithSunLambda s sun consider.typeId consider.id &&
        !(IsPropCompatibleWithSunLambda s sun consider.typeId consider.id &&
          ((s.novelTupleCreators sun).reuseOnStages consider.typeId).isSome))
      { s1 with ptpsq := pq, stagingPropTuples := st } psn ro hnd hne h8
    refine ⟨s', hs', ?_, ?_⟩
    · have hmid : Grows s1 { s1 with ptpsq := pq, stagingPropTuples := st } :=
        ⟨rfl, rfl, rfl, rfl, rfl, h1, fun _ _ h => Or.inl h⟩
      exact hg1.transGrows (hmid.transGrows hg2)
    · have hmid : Apart sun s1 { s1 with ptpsq := pq, stagingPropTuples := st } :=
        ⟨h2, fun _ _ => rfl, fun _ _ => rfl⟩
      exact ha1.transApart (hmid.transApart ha2)
  · rw [if_neg hf]
    simp only []
    obtain ⟨s', hs', hg2, ha2⟩ := finishSearch_spec consider ts sun
      (IsPropCompatibleWithSunLambda s sun consider.typeId consider.id &&
        !(IsPropCompatibleWithSunLambda s sun consider.typeId consider.id &&
          ((s.novelTupleCreators sun).reuseOnStages consider.typeId).isSome))
      s1 [] true hnd hne (by simp)
    exact ⟨s', hs', hg1.transGrows hg2, ha1.transApart ha2⟩

/-! ## `ConsiderProp`: the outer loops -/

theorem considerVisits_append (consider : GlobalPropId) (a b : List (Typeset × SunId))
    (s : State) :
    considerVisits consider (a ++ b) s =
      (considerVisits consider a s).bind (considerVisits consider b) := by
  induction a generalizing s with
  | nil => rfl
  | cons v a ih =>
    obtain ⟨ts, sun⟩ := v
    simp only [List.cons_append, considerVisits]
    cases considerSunLambda consider ts sun s with
    | none => rfl
    | some s1 => exact ih s1

theorem considerSunLambdas_eq_visits (consider : GlobalPropId) (ts : Typeset)
    (suns : List SunId) (s : State) :
    considerSunLambdas consider ts suns s =
      considerVisits consider (suns.map (fun sun => (ts, sun))) s := by
  induction suns generalizing s with
  | nil => rfl
  | cons sun suns ih =>
    simp only [considerSunLambdas, List.map_cons, considerVisits]
    cases considerSunLambda consider ts sun s with
    | none => rfl
    | some s1 => exact ih s1

/-- The loop over visited pairs is defined when partial statics have reuse functions and the
visited typesets have pairwise distinct types; SunLambdas that are not visited keep their staging
map, partial statics and tuple store. -/
theorem considerVisits_spec (consider : GlobalPropId) (vs : List (Typeset × SunId)) (s : State)
    (hr : ReuseTotal s) (hv : ∀ v ∈ vs, v.1.Nodup ∧ v.1 ≠ []) :
    ∃ s', considerVisits consider vs s = some s' ∧ Grows s s' ∧
      ∀ O, (∀ v ∈ vs, v.2 ≠ O) →
        s'.stagingPropTuples O = s.stagingPropTuples O ∧
        s'.partialStatics O = s.partialStatics O ∧ s'.novelTuples O = s.novelTuples O := by
  induction vs generalizing s with
  | nil => exact ⟨s, rfl, Grows.reflGrows s, fun _ _ => ⟨rfl, rfl, rfl⟩⟩
  | cons v vs ih =>
    obtain ⟨ts, sun⟩ := v
    obtain ⟨hnd, hne⟩ := hv (ts, sun) (by simp)
    obtain ⟨s1, h1, hg1, ha1⟩ := considerSunLambda_spec consider ts sun s (hr sun) hnd hne
    obtain ⟨s2, h2, hg2, ho2⟩ := ih s1 (hg1.reuseTotal hr)
      (fun v hm => hv v (List.mem_cons_of_mem _ hm))
    refine ⟨s2, by simp only [considerVisits, h1, h2], hg1.transGrows hg2, ?_⟩
    intro O hO
    have hne' : O ≠ sun := fun e => hO (ts, sun) (by simp) e.symm
    obtain ⟨e1, e2, e3⟩ := ho2 O (fun v hm => hO v (List.mem_cons_of_mem _ hm))
    exact ⟨e1.trans (ha1.staging O hne'), e2.trans (ha1.statics O hne'),
      e3.trans (ha1.tuples O hne')⟩

theorem visits_congr (s s' : State) (h : s'.typesetSunLambdas = s.typesetSunLambdas)
    (tss : List Typeset) : visits s' tss = visits s tss := by
  simp only [visits, h]

theorem mem_visits (s : State) (tss : List Typeset) (v : Typeset × SunId)
    (h : v ∈ visits s tss) : v.1 ∈ tss ∧ v.2 ∈ s.typesetSunLambdas v.1 := by
  simp only [visits, List.mem_flatMap, List.mem_map] at h
  obtain ⟨ts, hts, sun, hsun, rfl⟩ := h
  exact ⟨hts, hsun⟩

/-- The two nested loops of `ConsiderProp` visit the pairs of `visits` in order. -/
theorem considerTypesets_eq_visits (consider : GlobalPropId) (tss : List Typeset) (s : State)
    (hr : ReuseTotal s) (hts : ∀ ts ∈ tss, ts.Nodup ∧ ts ≠ []) :
    considerTypesets consider tss s = considerVisits consider (visits s tss) s := by
  induction tss generalizing s with
  | nil => rfl
  | cons ts tss ih =>
    have hv : visits s (ts :: tss) =
        (s.typesetSunLambdas ts).map (fun sun => (ts, sun)) ++ visits s tss := by
      simp [visits]
    rw [hv, considerVisits_append]
    simp only [considerTypesets, considerSunLambdas_eq_visits]
    obtain ⟨s1, h1, hg1, -⟩ := considerVisits_spec consider
      ((s.typesetSunLambdas ts).map (fun sun => (ts, sun))) s hr (by
        intro v hm
        simp only [List.mem_map] at hm
        obtain ⟨sun, -, rfl⟩ := hm
        exact hts ts (by simp))
    rw [h1]
    simp only [Option.some_bind]
    rw [ih s1 (hg1.reuseTotal hr) (fun t hm => hts t (List.mem_cons_of_mem _ hm)),
      visits_congr s s1 hg1.suns]

theorem split_of_count_one (O : SunId) (l : List SunId) (h : l.count O = 1) :
    ∃ P Q, l = P ++ O :: Q ∧ O ∉ P ∧ O ∉ Q := by
  induction l with
  | nil => simp at h
  | cons x xs ih =>
    by_cases hx : x = O
    · subst hx
      refine ⟨[], xs, rfl, by simp, ?_⟩
      simp only [List.count_cons_self] at h
      intro hm
      have := List.count_pos_iff.2 hm
      omega
    · rw [List.count_cons_of_ne (fun e => hx e.symm)] at h
      obtain ⟨P, Q, e, hP, hQ⟩ := ih h
      refine ⟨x :: P, Q, by simp [e], ?_, hQ⟩
      simp only [List.mem_cons, not_or]
      exact ⟨fun e => hx e.symm, hP⟩

/-- A SunLambda registered once is visited once by the loops of `ConsiderProp` over the typesets
of a type of its typeset. -/
theorem visits_split (s : State) (O : SunId) (ts : Typeset) (t : PropTypeId)
    (hreg : RegisteredOnce s O ts) (hmn : MappedNodup s) (ht : t ∈ ts) :
    ∃ pre post, visits s (s.mappedPropTupleTypesets t) = pre ++ (ts, O) :: post ∧
      (∀ v ∈ pre, v.2 ≠ O) ∧ (∀ v ∈ post, v.2 ≠ O) := by
  obtain ⟨A, B, hAB⟩ := List.append_of_mem (hreg.indexed t ht)
  have hnd := hmn t
  rw [hAB] at hnd
  have hA : ts ∉ A := by
    intro hm
    have := (List.nodup_append.1 hnd).2.2
    exact this hm (by simp) 
  have hB : ts ∉ B := by
    have := (List.nodup_append.1 hnd).2.1
    exact (List.nodup_cons.1 this).1
  obtain ⟨P, Q, hPQ, hP, hQ⟩ := split_of_count_one O _ hreg.once
  have hother : ∀ (L : List Typeset), ts ∉ L → ∀ v ∈ visits s L, v.2 ≠ O := by
    intro L hL v hv
    obtain ⟨h1, h2⟩ := mem_visits s L v hv
    intro e
    have hne : v.1 ≠ ts := fun e' => hL (e' ▸ h1)
    exact hreg.unique v.1 hne (e ▸ h2)
  refine ⟨visits s A ++ P.map (fun sun => (ts, sun)),
    Q.map (fun sun => (ts, sun)) ++ visits s B, ?_, ?_, ?_⟩
  · rw [hAB]
    simp [visits, hPQ]
  · intro v hv
    rw [List.mem_append] at hv
    rcases hv with hv | hv
    · exact hother A hA v hv
    · simp only [List.mem_map] at hv
      obtain ⟨sun, hsun, rfl⟩ := hv
      exact fun e => hP (e ▸ hsun)
  · intro v hv
    rw [List.mem_append] at hv
    rcases hv with hv | hv
    · simp only [List.mem_map] at hv
      obtain ⟨sun, hsun, rfl⟩ := hv
      exact fun e => hQ (e ▸ hsun)
    · exact hother B hB v hv

/-! ## Completeness -/

theorem mhas_of_mgetD_ne_nil {κ β : Type} [DecidableEq κ] (k : κ) (m : List (κ × List β))
    (h : mgetD k [] m ≠ []) : mhas k m = true := by
  cases hf : mfind k m with
  | none => simp [mgetD, hf] at h
  | some v => simp [mhas, hf]

/-- When every other type of the typeset has a non-empty staging queue, the completeness loop
changes nothing and does not rule the tuple out. -/
theorem completenessLoop_full (sun : SunId) (stages : GroupSet) (propTypeId : PropTypeId)
    (ts : List PropTypeId) (s : State) (psn : List (PropTypeId × PropIdRaw))
    (h : ∀ p ∈ ts, p ≠ propTypeId → mgetD p [] (s.stagingPropTuples sun) ≠ []) :
    completenessLoop sun stages propTypeId ts s psn = some (s, psn, false) := by
  induction ts with
  | nil => rfl
  | cons ptid rest ih =>
    have hrest := ih (fun p hp => h p (List.mem_cons_of_mem _ hp))
    by_cases hp : ptid = propTypeId
    · simp only [completenessLoop, hp, if_true]
      exact hrest
    · have hq := h ptid (by simp) hp
      have hk := mhas_of_mgetD_ne_nil _ _ hq
      have hs : ({ s with
          stagingPropTuples :=
            upd s.stagingPropTuples sun (mtouch ptid [] (s.stagingPropTuples sun)) } : State)
          = s := by
        rw [mtouch_of_mhas _ _ _ hk, upd_self]
      simp only [completenessLoop, hp, if_false]
      rw [hs]
      have hne : (mgetD ptid [] (s.stagingPropTuples sun)).isEmpty = false := by
        cases hl : mgetD ptid [] (s.stagingPropTuples sun) with
        | nil => exact absurd hl hq
        | cons a l => rfl
      rw [upd_same, mtouch_of_mhas _ _ _ hk, hne]
      simp only [Bool.false_eq_true, if_false]
      exact hrest

theorem isPropCompatible_of_tracked (s : State) (sun : SunId) (ptid : PropTypeId)
    (rid : PropIdRaw) (hc : (s.novelTupleCreators sun).compatible = none)
    (ht : s.tracked ptid rid = true) : IsPropCompatibleWithSunLambda s sun ptid rid = true := by
  obtain ⟨v, hv⟩ := mfind_of_mhas _ _ ht
  simp only [IsPropCompatibleWithSunLambda, hv, hc]

/-- The search for the SunLambda `O` forms exactly one tuple when `O` has no compatibility
constraint and no reuse function, the added prop is in the stage index, every staged prop of `O`
is in the stage index, and every other type of the typeset has a non-empty staging queue. -/
theorem considerSunLambda_complete (consider : GlobalPropId) (ts : Typeset) (O : SunId)
    (s : State) (hnd : ts.Nodup) (hg : consider.typeId ∈ ts)
    (htr : s.tracked consider.typeId consider.id = true)
    (hcompat : (s.novelTupleCreators O).compatible = none)
    (hreuse : ∀ t, (s.novelTupleCreators O).reuseOnStages t = none)
    (hkeys : StagingKeyed s O ts)
    (htracked : ∀ t r, r ∈ s.staged O t → s.tracked t r = true)
    (hfull : ∀ t ∈ ts, t ≠ consider.typeId → s.staged O t ≠ []) :
    ∃ s' tuple, considerSunLambda consider ts O s = some s' ∧
      s'.novelTuples O = s.novelTuples O ++ [tuple] := by
  have hne : ts ≠ [] := List.ne_nil_of_mem hg
  have hf : IsPropCompatibleWithSunLambda s O consider.typeId consider.id = true :=
    isPropCompatible_of_tracked s O _ _ hcompat htr
  have hloop := completenessLoop_full O (mgetD consider.id [] (s.ptpsq consider.typeId))
    consider.typeId ts s [] hfull
  have hok : (neighborLoop s O consider.typeId [] (s.stagingPropTuples O) []).2 = false := by
    apply neighborLoop_ok
    intro k q hmem
    by_cases hk : k = consider.typeId
    · exact Or.inl hk
    · right
      right
      have hkt : k ∈ ts := hkeys.within k (List.mem_map_of_mem Prod.fst hmem)
      have hq : s.staged O k = q := by
        simp only [State.staged, mgetD, mfind_of_mem_nodup k q _ hkeys.nodup hmem,
          Option.getD_some]
      have hqne := hfull k hkt hk
      rw [hq] at hqne
      cases q with
      | nil => exact absurd rfl hqne
      | cons r q' =>
        refine ⟨r, ?_⟩
        have hrt : s.tracked k r = true := htracked k r (by rw [hq]; simp)
        simp only [firstCompatible, isPropCompatible_of_tracked s O k r hcompat hrt, if_true]
  have hpair : neighborLoop s O consider.typeId [] (s.stagingPropTuples O) [] =
      ((neighborLoop s O consider.typeId [] (s.stagingPropTuples O) []).1, false) := by
    cases hx : neighborLoop s O consider.typeId [] (s.stagingPropTuples O) [] with
    | mk a b =>
      rw [hx] at hok
      simp only at hok
      rw [hok]
  obtain ⟨-, hsound⟩ := neighborLoop_sound _ _ _ _ _ _ _ hpair
  obtain ⟨s', tuple, h0, -, -, h1, -⟩ := formTuple_spec consider ts O s []
    (neighborLoop s O consider.typeId [] (s.stagingPropTuples O) []).1 hnd hne (by
      intro p hp hpc _
      have hq := hfull p hp hpc
      obtain ⟨v, hv⟩ := mfind_of_mhas _ _ (mhas_of_mgetD_ne_nil _ _ hq)
      exact ⟨hsound p v (mem_of_mfind _ _ _ hv) hpc rfl, hq⟩)
  refine ⟨s', tuple, ?_, h1⟩
  unfold considerSunLambda
  simp only [hf, hreuse, Option.isSome_none, Bool.and_false, if_true]
  have hadd : addPartialStatic consider O false s = s := by
    simp [addPartialStatic]
  rw [hadd, hloop]
  simp only [finishSearch, Bool.false_eq_true, if_false, hok]
  exact h0

/-- The state in which `ConsiderProp` starts its loops: the stage index has an entry for the
considered prop, and everything else is as before. -/
theorem considerProp_start (s : State) (consider : GlobalPropId) :
    ∃ s0 : State, ConsiderProp s consider =
        considerTypesets consider (s.mappedPropTupleTypesets consider.typeId) s0 ∧
      s0.tracked consider.typeId consider.id = true ∧
      (∀ t r, s.tracked t r = true → s0.tracked t r = true) ∧
      s0.mappedPropTupleTypesets = s.mappedPropTupleTypesets ∧
      s0.typesetSunLambdas = s.typesetSunLambdas ∧
      s0.novelTupleCreators = s.novelTupleCreators ∧
      s0.stagingPropTuples = s.stagingPropTuples ∧
      s0.partialStatics = s.partialStatics ∧ s0.novelTuples = s.novelTuples := by
  refine ⟨{ s with
    ptpsq := upd s.ptpsq consider.typeId (mtouch consider.id [] (s.ptpsq consider.typeId)) },
    rfl, ?_, ?_, rfl, rfl, rfl, rfl, rfl, rfl⟩
  · show mhas consider.id (upd s.ptpsq consider.typeId _ consider.typeId) = true
    rw [upd_same]
    exact mhas_mtouch_self _ _ _
  · intro t r h
    obtain ⟨v, hv⟩ := mfind_of_mhas _ _ h
    exact mhas_of_mfind _ _ _ (stages_touch _ _ _ _ _ _ hv)

theorem Grows.tracked {s s' : State} (h : Grows s s') (t : PropTypeId) (r : PropIdRaw)
    (ht : s.tracked t r = true) : s'.tracked t r = true := by
  obtain ⟨v, hv⟩ := mfind_of_mhas _ _ ht
  exact mhas_of_mfind _ _ _ (h.stages t r v hv)

/-- C1: completeness.  Let `O` be registered exactly once with a typeset `ts` of pairwise
distinct types, with no compatibility constraint and no reuse function, in a state where every
prop staged under `O` is in the stage index and every type of `ts` other than the type of the
considered prop has a non-empty staging queue under `O`.  Then `ConsiderProp` of a prop of a
type of `ts` is defined and appends exactly one tuple to the tuple store of `O`.  The remaining
hypotheses are the standing invariants of the containers and of the registry. -/
theorem C1_completeness (s : State) (O : SunId) (ts : Typeset) (consider : GlobalPropId)
    (hreg : RegisteredOnce s O ts) (hnd : ts.Nodup) (hg : consider.typeId ∈ ts)
    (hcompat : (s.novelTupleCreators O).compatible = none)
    (hreuse : ∀ t, (s.novelTupleCreators O).reuseOnStages t = none)
    (htracked : ∀ t r, r ∈ s.staged O t → s.tracked t r = true)
    (hfull : ∀ t ∈ ts, t ≠ consider.typeId → s.staged O t ≠ [])
    (hkeys : StagingKeyed s O ts) (hmn : MappedNodup s) (hmi : MappedIndexed s)
    (htd : TypesetsDistinct s) (hrt : ReuseTotal s) :
    ∃ s' tuple, ConsiderProp s consider = some s' ∧
      s'.novelTuples O = s.novelTuples O ++ [tuple] := by
  have hts : ∀ ts' ∈ s.mappedPropTupleTypesets consider.typeId, ts'.Nodup ∧ ts' ≠ [] :=
    fun ts' hm => ⟨htd _ ts' hm, List.ne_nil_of_mem (hmi _ ts' hm)⟩
  obtain ⟨pre, post, hsplit, hpre, hpost⟩ := visits_split s O ts consider.typeId hreg hmn hg
  have hvis : ∀ v ∈ pre ++ (ts, O) :: post, v.1.Nodup ∧ v.1 ≠ [] := by
    intro v hv
    rw [← hsplit] at hv
    exact hts v.1 (mem_visits s _ v hv).1
  obtain ⟨s0, hstart, htr0, hmono0, -, hsuns0, hcr0, hst0, hps0, hnt0⟩ :=
    considerProp_start s consider
  have hrt0 : ReuseTotal s0 := by
    intro sun t h
    rw [hcr0]
    rw [hps0] at h
    exact hrt sun t h
  obtain ⟨sA, hA, hgA, hoA⟩ := considerVisits_spec consider pre s0 hrt0
    (fun v hv => hvis v (by simp [hv]))
  obtain ⟨eA1, -, eA3⟩ := hoA O hpre
  have hcA : sA.novelTupleCreators = s.novelTupleCreators := hgA.creators.trans hcr0
  have hstA : sA.stagingPropTuples O = s.stagingPropTuples O := by rw [eA1, hst0]
  obtain ⟨sB, tuple, hB, hntB⟩ := considerSunLambda_complete consider ts O sA hnd hg
    (hgA.tracked _ _ htr0)
    (by rw [hcA]; exact hcompat)
    (by rw [hcA]; exact hreuse)
    ⟨by rw [hstA]; exact hkeys.nodup, by rw [hstA]; exact hkeys.within⟩
    (by
      intro t r hr
      apply hgA.tracked
      apply hmono0
      apply htracked
      simpa only [State.staged, hstA] using hr)
    (by
      intro t ht hne
      simpa only [State.staged, hstA] using hfull t ht hne)
  obtain ⟨sB', hB', hgB, -⟩ := considerSunLambda_spec consider ts O sA (hgA.reuseTotal hrt0 O)
    hnd (List.ne_nil_of_mem hg)
  have hBB : sB' = sB := by
    rw [hB] at hB'
    exact (Option.some.inj hB').symm
  subst hBB
  obtain ⟨sC, hC, -, hoC⟩ := considerVisits_spec consider post sB'
    (hgB.reuseTotal (hgA.reuseTotal hrt0)) (fun v hv => hvis v (by simp [hv]))
  obtain ⟨-, -, eC3⟩ := hoC O hpost
  refine ⟨sC, tuple, ?_, ?_⟩
  · rw [hstart, considerTypesets_eq_visits _ _ _ hrt0 hts, visits_congr s s0 hsuns0, hsplit,
      considerVisits_append, hA]
    simp only [Option.some_bind, considerVisits, hB]
    exact hC
  · rw [eC3, hntB, eA3, hnt0]

/-! ## Partial-static fan-out -/

/-- The loops of `ConsiderProp` around the search for a SunLambda `O` registered once: the
searches that come before leave the data of `O` as they were, then `O` is searched once, and the
searches that come after leave the data of `O` as the search for `O` left them. -/
theorem considerProp_around (s : State) (O : SunId) (ts : Typeset) (consider : GlobalPropId)
    (hreg : RegisteredOnce s O ts) (hnd : ts.Nodup) (hg : consider.typeId ∈ ts)
    (hmn : MappedNodup s) (hmi : MappedIndexed s) (htd : TypesetsDistinct s)
    (hrt : ReuseTotal s) :
    ∃ sA sB sC, considerSunLambda consider ts O sA = some sB ∧
      ConsiderProp s consider = some sC ∧
      sA.tracked consider.typeId consider.id = true ∧
      (∀ t r, s.tracked t r = true → sA.tracked t r = true) ∧
      sA.novelTupleCreators = s.novelTupleCreators ∧
      sA.stagingPropTuples O = s.stagingPropTuples O ∧
      sA.partialStatics O = s.partialStatics O ∧ sA.novelTuples O = s.novelTuples O ∧
      sC.stagingPropTuples O = sB.stagingPropTuples O ∧
      sC.partialStatics O = sB.partialStatics O ∧ sC.novelTuples O = sB.novelTuples O ∧
      sC.mappedPropTupleTypesets = s.mappedPropTupleTypesets ∧
      sC.typesetSunLambdas = s.typesetSunLambdas ∧
      sC.novelTupleCreators = s.novelTupleCreators ∧ ReuseTotal sC := by
  have hts : ∀ ts' ∈ s.mappedPropTupleTypesets consider.typeId, ts'.Nodup ∧ ts' ≠ [] :=
    fun ts' hm => ⟨htd _ ts' hm, List.ne_nil_of_mem (hmi _ ts' hm)⟩
  obtain ⟨pre, post, hsplit, hpre, hpost⟩ := visits_split s O ts consider.typeId hreg hmn hg
  have hvis : ∀ v ∈ pre ++ (ts, O) :: post, v.1.Nodup ∧ v.1 ≠ [] := by
    intro v hv
    rw [← hsplit] at hv
    exact hts v.1 (mem_visits s _ v hv).1
  obtain ⟨s0, hstart, htr0, hmono0, hmap0, hsuns0, hcr0, hst0, hps0, hnt0⟩ :=
    considerProp_start s consider
  have hrt0 : ReuseTotal s0 := by
    intro sun t h
    rw [hcr0]
    rw [hps0] at h
    exact hrt sun t h
  obtain ⟨sA, hA, hgA, hoA⟩ := considerVisits_spec consider pre s0 hrt0
    (fun v hv => hvis v (by simp [hv]))
  obtain ⟨eA1, eA2, eA3⟩ := hoA O hpre
  obtain ⟨sB, hB, hgB, -⟩ := considerSunLambda_spec consider ts O sA (hgA.reuseTotal hrt0 O)
    hnd (List.ne_nil_of_mem hg)
  obtain ⟨sC, hC, hgC, hoC⟩ := considerVisits_spec consider post sB
    (hgB.reuseTotal (hgA.reuseTotal hrt0)) (fun v hv => hvis v (by simp [hv]))
  obtain ⟨eC1, eC2, eC3⟩ := hoC O hpost
  have hgAll : Grows s0 sC := hgA.transGrows (hgB.transGrows hgC)
  refine ⟨sA, sB, sC, hB, ?_, hgA.tracked _ _ htr0,
    fun t r h => hgA.tracked _ _ (hmono0 t r h), hgA.creators.trans hcr0,
    by rw [eA1, hst0], by rw [eA2, hps0], by rw [eA3, hnt0], eC1, eC2, eC3,
    hgAll.mapped.trans hmap0, hgAll.suns.trans hsuns0, hgAll.creators.trans hcr0,
    hgAll.reuseTotal hrt0⟩
  rw [hstart, considerTypesets_eq_visits _ _ _ hrt0 hts, visits_congr s s0 hsuns0, hsplit,
    considerVisits_append, hA]
  simp only [Option.some_bind, considerVisits, hB]
  exact hC

theorem neighborLoop_skip (s : State) (sun : SunId) (propTypeId : PropTypeId)
    (psn : List (PropTypeId × PropIdRaw)) (entries cn : List (PropTypeId × List PropIdRaw))
    (h : ∀ k ∈ mkeys entries, k = propTypeId ∨ mhas k psn = true) :
    neighborLoop s sun propTypeId psn entries cn = (cn, false) := by
  induction entries with
  | nil => rfl
  | cons e entries ih =>
    obtain ⟨t, queue⟩ := e
    have ht := h t (by simp [mkeys])
    simp only [neighborLoop, ht, if_true]
    exact ih (fun k hk => h k (by
      simp only [mkeys, List.map_cons, List.mem_cons] at hk ⊢
      exact Or.inr hk))

/-- The search for `O` over the typeset `[Y, X]`, for a new prop of type `Y`, when `X` has a
reuse function that is always true, `Y` has none, the partial statics of `X` are `[x]` and the
staging queue of `X` is empty: the tuple `(y, x)` is formed, and the partial statics and the
staging queues of `O` are as before. -/
theorem considerSunLambda_fanout (s : State) (O : SunId) (X Y : PropTypeId) (x y : PropIdRaw)
    (hXY : X ≠ Y)
    (htr : s.tracked Y y = true)
    (hcompat : (s.novelTupleCreators O).compatible = none)
    (hX : ∃ f, (s.novelTupleCreators O).reuseOnStages X = some f ∧ ∀ a b c, f a b c = true)
    (hY : (s.novelTupleCreators O).reuseOnStages Y = none)
    (hps : s.partialStatics O X = [x]) (hsX : s.staged O X = [])
    (hkeys : ∀ t ∈ mkeys (s.stagingPropTuples O), t ∈ [Y, X]) :
    ∃ s', considerSunLambda ⟨Y, y⟩ [Y, X] O s = some s' ∧
      s'.novelTuples O = s.novelTuples O ++ [[⟨Y, y⟩, ⟨X, x⟩]] ∧
      s'.partialStatics O = s.partialStatics O ∧
      (∀ t, s'.staged O t = s.staged O t) ∧
      (∀ t ∈ mkeys (s'.stagingPropTuples O), t ∈ [Y, X]) := by
  obtain ⟨f, hf, hftrue⟩ := hX
  have hfull : IsPropCompatibleWithSunLambda s O Y y = true :=
    isPropCompatible_of_tracked s O Y y hcompat htr
  have hadd : addPartialStatic ⟨Y, y⟩ O false s = s := by
    simp [addPartialStatic]
  have hempty : (mgetD X [] (mtouch X [] (s.stagingPropTuples O))).isEmpty = true := by
    rw [mgetD_mtouch]
    have : mgetD X [] (s.stagingPropTuples O) = [] := hsX
    rw [this]
    rfl
  have hloop : completenessLoop O (mgetD y [] (s.ptpsq Y)) Y [Y, X] s [] =
      some ({ s with
        ptpsq := upd s.ptpsq Y (mtouch x [] (s.ptpsq Y))
        stagingPropTuples := upd s.stagingPropTuples O (mtouch X [] (s.stagingPropTuples O)) },
        [(X, x)], false) := by
    simp only [completenessLoop, if_true, hXY, if_false, upd_same, hempty, hps,
      FindPartialStatic, hf, hftrue, mset]
  have hskip : neighborLoop
      { s with
        ptpsq := upd s.ptpsq Y (mtouch x [] (s.ptpsq Y))
        stagingPropTuples := upd s.stagingPropTuples O (mtouch X [] (s.stagingPropTuples O)) }
      O Y [(X, x)] (mtouch X [] (s.stagingPropTuples O)) [] = ([], false) := by
    apply neighborLoop_skip
    intro k hk
    rcases mem_mkeys_mtouch _ _ _ _ hk with h | h
    · have := hkeys k h
      simp only [List.mem_cons, List.mem_singleton, List.not_mem_nil, or_false] at this
      rcases this with h1 | h1
      · exact Or.inl h1
      · right
        simp [mhas, mfind, h1]
    · right
      simp [mhas, mfind, h]
  have hasm : assemble ⟨Y, y⟩ [(X, x)] [] [Y, X] (mtouch X [] (s.stagingPropTuples O)) [] 0 0 =
      some (mtouch X [] (s.stagingPropTuples O), [⟨Y, y⟩, ⟨X, x⟩], 0) := by
    simp [assemble, hXY, mfind]
  obtain ⟨s', hs', -, h1, h2, h3⟩ := emergeStep_grows s
    { s with
      ptpsq := upd s.ptpsq Y (mtouch x [] (s.ptpsq Y))
      stagingPropTuples := upd (upd s.stagingPropTuples O (mtouch X [] (s.stagingPropTuples O)))
        O (mtouch X [] (s.stagingPropTuples O))
      novelTuples := upd s.novelTuples O (s.novelTuples O ++ [[⟨Y, y⟩, ⟨X, x⟩]]) }
    [Y, X] [⟨Y, y⟩, ⟨X, x⟩]
    ⟨rfl, rfl, rfl, rfl, rfl, fun t r v h => stages_touch _ _ _ _ _ _ h, fun _ _ h => Or.inl h⟩
  refine ⟨s', ?_, ?_, ?_, ?_, ?_⟩
  · unfold considerSunLambda
    simp only [hfull, hY, Option.isSome_none, Bool.and_false, if_true]
    rw [hadd, hloop]
    simp only [finishSearch, Bool.false_eq_true, if_false, upd_same, hskip, formTuple, hasm,
      setAt]
    exact hs'
  · rw [h3]
    show upd s.novelTuples O _ O = _
    rw [upd_same]
  · rw [h2]
  · intro t
    simp only [State.staged]
    rw [h1]
    show mgetD t [] (upd _ O _ O) = _
    rw [upd_same, mgetD_mtouch]
  · intro t ht
    rw [h1] at ht
    have ht' : t ∈ mkeys (mtouch X [] (s.stagingPropTuples O)) := by
      have e : (upd (upd s.stagingPropTuples O (mtouch X [] (s.stagingPropTuples O))) O
          (mtouch X [] (s.stagingPropTuples O))) O = mtouch X [] (s.stagingPropTuples O) :=
        upd_same _ _ _
      rw [← e]
      exact ht
    rcases mem_mkeys_mtouch _ _ _ _ ht' with h | h
    · exact hkeys t h
    · simp [h]

theorem fanout_tuples_nodup (X Y : PropTypeId) (x : PropIdRaw) (ys : List PropIdRaw)
    (h : ys.Nodup) :
    (ys.map (fun y => ([⟨Y, y⟩, ⟨X, x⟩] : NovelTuple))).Nodup := by
  apply List.Nodup.map _ h
  intro a b hab
  simp only [List.cons.injEq, GlobalPropId.mk.injEq, true_and, and_true] at hab
  exact hab

/-- C3: partial-static fan-out.  Let `O` be registered once over the typeset `[Y, X]`, with no
compatibility constraint, a reuse function for `X` that is always true and none for `Y`, in a
state where the partial statics of `X` under `O` are `[x]` and the staging queue of `X` under
`O` is empty.  Considering the props `(Y, y)` for `y` in a duplicate-free list `ys`, one after
another, is defined and appends to the tuple store of `O` the tuples `(y, x)` in order; these
tuples are pairwise distinct and the partial statics of `X` are still `[x]` afterwards.  The
remaining hypotheses are the standing invariants of the containers and of the registry. -/
theorem C3_partial_static_fanout (s : State) (O : SunId) (X Y : PropTypeId) (x : PropIdRaw)
    (ys : List PropIdRaw) (hreg : RegisteredOnce s O [Y, X]) (hXY : X ≠ Y)
    (hcompat : (s.novelTupleCreators O).compatible = none)
    (hX : ∃ f, (s.novelTupleCreators O).reuseOnStages X = some f ∧ ∀ a b c, f a b c = true)
    (hY : (s.novelTupleCreators O).reuseOnStages Y = none)
    (hps : s.partialStatics O X = [x]) (hsX : s.staged O X = []) (hsY : s.staged O Y = [])
    (hys : ys.Nodup)
    (hkeys : ∀ t ∈ mkeys (s.stagingPropTuples O), t ∈ [Y, X])
    (hmn : MappedNodup s) (hmi : MappedIndexed s) (htd : TypesetsDistinct s)
    (hrt : ReuseTotal s) :
    ∃ s', considerEach (ys.map (fun y => ⟨Y, y⟩)) s = some s' ∧
      s'.novelTuples O = s.novelTuples O ++ ys.map (fun y => [⟨Y, y⟩, ⟨X, x⟩]) ∧
      (ys.map (fun y => ([⟨Y, y⟩, ⟨X, x⟩] : NovelTuple))).Nodup ∧
      s'.partialStatics O X = [x] ∧ s'.staged O X = [] ∧ s'.staged O Y = [] := by
  refine (?_ : ∃ s', considerEach (ys.map (fun y => ⟨Y, y⟩)) s = some s' ∧
      s'.novelTuples O = s.novelTuples O ++ ys.map (fun y => [⟨Y, y⟩, ⟨X, x⟩]) ∧
      s'.partialStatics O X = [x] ∧ s'.staged O X = [] ∧ s'.staged O Y = []).imp
    (fun s' h => ⟨h.1, h.2.1, fanout_tuples_nodup X Y x ys hys, h.2.2⟩)
  clear hys
  induction ys generalizing s with
  | nil => exact ⟨s, rfl, by simp, hps, hsX, hsY⟩
  | cons y ys ih =>
    have hnd : ([Y, X] : Typeset).Nodup := by
      simp only [List.nodup_cons, List.mem_singleton, List.not_mem_nil, not_false_eq_true,
        List.nodup_nil, and_true]
      exact fun e => hXY e.symm
    obtain ⟨sA, sB, sC, hB, hC, htrA, -, hcrA, hstA, hpsA, hntA, hstC, hpsC, hntC, hmapC,
      hsunsC, hcrC, hrtC⟩ := considerProp_around s O [Y, X] ⟨Y, y⟩ hreg hnd (by simp) hmn hmi
        htd hrt
    obtain ⟨sB', hB', hnt, hpsB, hstB, hkeysB⟩ := considerSunLambda_fanout sA O X Y x y hXY
      htrA (by rw [hcrA]; exact hcompat) (by rw [hcrA]; exact hX) (by rw [hcrA]; exact hY)
      (by rw [hpsA]; exact hps) (by simpa only [State.staged, hstA] using hsX)
      (by rw [hstA]; exact hkeys)
    have hBB : sB' = sB := by
      rw [hB] at hB'
      exact (Option.some.inj hB').symm
    subst hBB
    have hstagedC : ∀ t, sC.staged O t = s.staged O t := by
      intro t
      have h1 : sC.staged O t = sB'.staged O t := by simp only [State.staged, hstC]
      have h2 : sA.staged O t = s.staged O t := by simp only [State.staged, hstA]
      rw [h1, hstB t, h2]
    obtain ⟨s', hs', hnt', hps', hsX', hsY'⟩ := ih sC
      ⟨by rw [hmapC]; exact hreg.indexed, by rw [hsunsC]; exact hreg.once,
        by rw [hsunsC]; exact hreg.unique⟩
      (by rw [hcrC]; exact hcompat) (by rw [hcrC]; exact hX) (by rw [hcrC]; exact hY)
      (by rw [hpsC, hpsB, hpsA]; exact hps)
      (by rw [hstagedC]; exact hsX) (by rw [hstagedC]; exact hsY)
      (by rw [hstC]; exact hkeysB)
      (by intro t; rw [hmapC]; exact hmn t)
      (by intro t ts h; rw [hmapC] at h; exact hmi t ts h)
      (by intro t ts h; rw [hmapC] at h; exact htd t ts h)
      hrtC
    refine ⟨s', ?_, ?_, hps', hsX', hsY'⟩
    · simp only [List.map_cons, considerEach, hC]
      exact hs'
    · rw [hnt', hntC, hnt, hntA]
      simp

/-! ## Witnesses for the claims on tuple formation -/

/-- The registry invariants of a state with one SunLambda `O` over the typeset `[a, b]`. -/
theorem registry_of_single (s : State) (O : SunId) (a b : PropTypeId)
    (hm : s.mappedPropTupleTypesets =
      fun t => if t = b then [[a, b]] else if t = a then [[a, b]] else [])
    (hs : s.typesetSunLambdas = fun ts => if ts = [a, b] then [O] else []) :
    RegisteredOnce s O [a, b] ∧ MappedNodup s ∧ MappedIndexed s ∧
      (a ≠ b → TypesetsDistinct s) := by
  have hmem : ∀ t ts, ts ∈ s.mappedPropTupleTypesets t → ts = [a, b] ∧ (t = a ∨ t = b) := by
    intro t ts h
    rw [hm] at h
    simp only [] at h
    by_cases h1 : t = b
    · rw [if_pos h1, List.mem_singleton] at h
      exact ⟨h, Or.inr h1⟩
    · by_cases h0 : t = a
      · rw [if_neg h1, if_pos h0, List.mem_singleton] at h
        exact ⟨h, Or.inl h0⟩
      · rw [if_neg h1, if_neg h0] at h
        exact absurd h (List.not_mem_nil _)
  refine ⟨⟨?_, ?_, ?_⟩, ?_, ?_, ?_⟩
  · intro t ht
    rw [hm]
    simp only [List.mem_cons, List.mem_singleton, List.not_mem_nil, or_false] at ht
    rcases ht with ht | ht
    · by_cases hab : a = b
      · simp [ht, hab]
      · simp [ht, hab]
    · simp [ht]
  · rw [hs]
    simp
  · intro ts' hne
    rw [hs]
    simp [hne]
  · intro t
    rw [hm]
    by_cases h1 : t = b
    · simp [h1]
    · by_cases h0 : t = a
      · simp [h1, h0]
      · simp [h1, h0]
  · intro t ts h
    obtain ⟨h1, h2⟩ := hmem t ts h
    rw [h1]
    rcases h2 with h2 | h2 <;> simp [h2]
  · intro hab t ts h
    obtain ⟨h1, -⟩ := hmem t ts h
    rw [h1]
    simp [hab]

theorem pairStaged_registry :
    RegisteredOnce pairStaged 7 [0, 1] ∧ MappedNodup pairStaged ∧ MappedIndexed pairStaged ∧
      TypesetsDistinct pairStaged := by
  obtain ⟨h1, h2, h3, h4⟩ := registry_of_single pairStaged 7 0 1 rfl rfl
  exact ⟨h1, h2, h3, h4 (by decide)⟩

theorem pairStaged_reuseTotal : ReuseTotal pairStaged := by
  intro sun t h
  exact absurd rfl h

theorem pairStaged_staged (t : PropTypeId) :
    pairStaged.staged 7 t = if t = 1 then [] else if t = 0 then [0] else [] := by
  show mgetD t [] [(1, []), (0, [0])] = _
  by_cases h1 : t = 1
  · simp [mgetD, mfind, h1]
  · by_cases h0 : t = 0
    · simp [mgetD, mfind, h0]
    · simp [mgetD, mfind, h1, h0, Ne.symm h1, Ne.symm h0]

/-- Witness of C1: `a1` is staged under `Pair`, and `b1` is considered. -/
theorem C1_completeness_witness :
    RegisteredOnce pairStaged 7 [0, 1] ∧ ([0, 1] : Typeset).Nodup ∧
    (∀ t r, r ∈ pairStaged.staged 7 t → pairStaged.tracked t r = true) ∧
    (∀ t ∈ ([0, 1] : Typeset), t ≠ 1 → pairStaged.staged 7 t ≠ []) ∧
    StagingKeyed pairStaged 7 [0, 1] ∧ ReuseTotal pairStaged ∧
    ∃ s' tuple, ConsiderProp pairStaged ⟨1, 0⟩ = some s' ∧
      s'.novelTuples 7 = pairStaged.novelTuples 7 ++ [tuple] := by
  have htracked : ∀ t r, r ∈ pairStaged.staged 7 t → pairStaged.tracked t r = true := by
    intro t r h
    rw [pairStaged_staged] at h
    by_cases h1 : t = 1
    · simp [h1] at h
    · by_cases h0 : t = 0
      · rw [if_neg h1, if_pos h0, List.mem_singleton] at h
        subst h0 h
        rfl
      · simp [h1, h0] at h
  have hfull : ∀ t ∈ ([0, 1] : Typeset), t ≠ 1 → pairStaged.staged 7 t ≠ [] := by
    intro t ht hne
    simp only [List.mem_cons, List.mem_singleton, List.not_mem_nil, or_false] at ht
    rcases ht with ht | ht
    · subst ht
      rw [pairStaged_staged]
      simp
    · exact absurd ht hne
  have hkeys : StagingKeyed pairStaged 7 [0, 1] :=
    ⟨by decide, by
      intro t ht
      have : t ∈ ([1, 0] : List PropTypeId) := ht
      simp only [List.mem_cons, List.mem_singleton, List.not_mem_nil, or_false] at this ⊢
      exact this.symm⟩
  obtain ⟨hreg, hmn, hmi, htd⟩ := pairStaged_registry
  exact ⟨hreg, by decide, htracked, hfull, hkeys, pairStaged_reuseTotal,
    C1_completeness pairStaged 7 [0, 1] ⟨1, 0⟩ hreg (by decide) (by decide) rfl (fun _ => rfl)
      htracked hfull hkeys hmn hmi htd pairStaged_reuseTotal⟩

theorem countReady_registry :
    RegisteredOnce countReady 9 [2, 3] ∧ MappedNodup countReady ∧ MappedIndexed countReady ∧
      TypesetsDistinct countReady := by
  obtain ⟨h1, h2, h3, h4⟩ := registry_of_single countReady 9 2 3 rfl rfl
  exact ⟨h1, h2, h3, h4 (by decide)⟩

theorem countReady_partialStatics :
    countReady.partialStatics =
      upd (fun _ _ => []) 9 (upd (fun _ => []) 3 [0]) := rfl

theorem countReady_reuseTotal : ReuseTotal countReady := by
  intro sun t h
  by_cases hs : sun = 9
  · by_cases ht : t = 3
    · subst hs ht
      rfl
    · exfalso
      apply h
      rw [countReady_partialStatics, hs, upd_same, upd_other _ _ _ _ ht]
  · exfalso
    apply h
    rw [countReady_partialStatics, upd_other _ _ _ _ hs]

/-- Witness of C3: the Count scenario with `counter1` registered as partial static, and the
ticks `tick1 = (Tick, 0)`, `tick2 = (Tick, 1)` considered one after the other. -/
theorem C3_partial_static_fanout_witness :
    RegisteredOnce countReady 9 [2, 3] ∧
    (∃ f, (countReady.novelTupleCreators 9).reuseOnStages 3 = some f ∧ ∀ a b c, f a b c = true) ∧
    countReady.partialStatics 9 3 = [0] ∧ countReady.staged 9 3 = [] ∧
    countReady.staged 9 2 = [] ∧ ReuseTotal countReady ∧
    ∃ s', considerEach ([0, 1].map (fun y => ⟨2, y⟩)) countReady = some s' ∧
      s'.novelTuples 9 = countReady.novelTuples 9 ++ [0, 1].map (fun y => [⟨2, y⟩, ⟨3, 0⟩]) ∧
      ([0, 1].map (fun y => ([⟨2, y⟩, ⟨3, 0⟩] : NovelTuple))).Nodup ∧
      s'.partialStatics 9 3 = [0] ∧ s'.staged 9 3 = [] ∧ s'.staged 9 2 = [] := by
  obtain ⟨hreg, hmn, hmi, htd⟩ := countReady_registry
  have hX : ∃ f, (countReady.novelTupleCreators 9).reuseOnStages 3 = some f ∧
      ∀ a b c, f a b c = true := ⟨fun _ _ _ => true, rfl, fun _ _ _ => rfl⟩
  have hkeys : ∀ t ∈ mkeys (countReady.stagingPropTuples 9), t ∈ ([2, 3] : Typeset) := by
    intro t ht
    have : t ∈ ([2] : List PropTypeId) := ht
    simp only [List.mem_singleton] at this
    simp [this]
  exact ⟨hreg, hX, rfl, rfl, rfl, countReady_reuseTotal,
    C3_partial_static_fanout countReady 9 3 2 0 [0, 1] hreg (by decide) rfl hX rfl rfl rfl rfl
      (by decide) hkeys hmn hmi htd countReady_reuseTotal⟩

/-! ## The scheduler -/

/-- The insertion point of `Plan` splits the list: the schedules before it are not greater than
the new one, and the schedule at it, when there is one, is greater. -/
theorem plan_split {κ : Type} (lt : κ → κ → Bool) (l : List (SunSchedule κ)) (id : SunId)
    (k : κ) :
    ∃ before after, l = before ++ after ∧ Plan lt l id k = before ++ ⟨id, k⟩ :: after ∧
      (∀ e ∈ before, lt k e.specificity = false) ∧
      (∀ e, after.head? = some e → lt k e.specificity = true) := by
  induction l with
  | nil => exact ⟨[], [], rfl, rfl, by simp, by simp⟩
  | cons b rest ih =>
    by_cases hb : lt k b.specificity = true
    · refine ⟨[], b :: rest, rfl, ?_, by simp, ?_⟩
      · simp [Plan, upperBound, hb, insertAt]
      · intro e he
        simp only [List.head?_cons, Option.some.injEq] at he
        rw [← he]
        exact hb
    · obtain ⟨before, after, h1, h2, h3, h4⟩ := ih
      refine ⟨b :: before, after, by simp [h1], ?_, ?_, h4⟩
      · simp only [Plan, upperBound, hb, insertAt, List.cons_append, Bool.false_eq_true,
          if_false]
        simp only [Plan] at h2
        rw [h2]
      · intro e he
        simp only [List.mem_cons] at he
        rcases he with he | he
        · rw [he]
          simpa using hb
        · exact h3 e he

/-- On an ascending list and for a transitive comparison, every schedule from the insertion
point of `Plan` on is greater than the new one when the comparison is total, and none is
smaller in any case. -/
theorem plan_after_not_smaller {κ : Type} (lt : κ → κ → Bool)
    (hasym : ∀ a b, lt a b = true → lt b a = false)
    (htrans : ∀ a b c, lt a b = true → lt b c = true → lt a c = true)
    (after : List (SunSchedule κ)) (k : κ) (hsorted : Ascending lt after)
    (hhead : ∀ e, after.head? = some e → lt k e.specificity = true) :
    ∀ e ∈ after, lt e.specificity k = false := by
  intro e he
  cases after with
  | nil => simp at he
  | cons b rest =>
    have hb := hhead b rfl
    simp only [List.mem_cons] at he
    rcases he with he | he
    · rw [he]
      exact hasym _ _ hb
    · have hbe : lt e.specificity b.specificity = false :=
        (List.pairwise_cons.1 hsorted).1 e he
      cases hek : lt e.specificity k with
      | false => rfl
      | true =>
        rw [htrans _ _ _ hek hb] at hbe
        exact absurd hbe (by simp)

theorem plan_ascending {κ : Type} (lt : κ → κ → Bool)
    (hasym : ∀ a b, lt a b = true → lt b a = false)
    (htrans : ∀ a b c, lt a b = true → lt b c = true → lt a c = true)
    (l : List (SunSchedule κ)) (id : SunId) (k : κ) (hsorted : Ascending lt l) :
    Ascending lt (Plan lt l id k) := by
  obtain ⟨before, after, h1, h2, h3, h4⟩ := plan_split lt l id k
  rw [h2]
  rw [h1] at hsorted
  unfold Ascending at hsorted ⊢
  rw [List.pairwise_append] at hsorted ⊢
  obtain ⟨hb, ha, hba⟩ := hsorted
  refine ⟨hb, ?_, ?_⟩
  · rw [List.pairwise_cons]
    exact ⟨fun e he => plan_after_not_smaller lt hasym htrans after k ha h4 e he, ha⟩
  · intro a hma b hmb
    simp only [List.mem_cons] at hmb
    rcases hmb with hmb | hmb
    · rw [hmb]
      exact h3 a hma
    · exact hba a hma b hmb

theorem planEach_ascending {κ : Type} (lt : κ → κ → Bool)
    (hasym : ∀ a b, lt a b = true → lt b a = false)
    (htrans : ∀ a b c, lt a b = true → lt b c = true → lt a c = true)
    (plans : List (SunId × κ)) (l : List (SunSchedule κ)) (hsorted : Ascending lt l) :
    Ascending lt (planEach lt l plans) := by
  induction plans generalizing l with
  | nil => exact hsorted
  | cons p plans ih =>
    obtain ⟨id, k⟩ := p
    exact ih _ (plan_ascending lt hasym htrans l id k hsorted)

/-- C12: schedule order invariant.  Starting from the empty schedule list, after any sequence of
`Plan` calls the list is in ascending order of specificity: no schedule has a specificity
smaller than that of a schedule before it.  The comparison of specificities needs only be
asymmetric and transitive, as every strict total order is. -/
theorem C12_schedule_ascending {κ : Type} (lt : κ → κ → Bool)
    (hasym : ∀ a b, lt a b = true → lt b a = false)
    (htrans : ∀ a b c, lt a b = true → lt b c = true → lt a c = true)
    (plans : List (SunId × κ)) :
    Ascending lt (planEach lt [] plans) :=
  planEach_ascending lt hasym htrans plans [] List.Pairwise.nil

theorem natLt_asymm (a b : Nat) (h : natLt a b = true) : natLt b a = false := by
  simp only [natLt, decide_eq_true_eq, decide_eq_false_iff_not] at h ⊢
  omega

theorem natLt_trans (a b c : Nat) (h1 : natLt a b = true) (h2 : natLt b c = true) :
    natLt a c = true := by
  simp only [natLt, decide_eq_true_eq] at h1 h2 ⊢
  omega

theorem natLt_total (a b : Nat) : natLt a b = true ∨ a = b ∨ natLt b a = true := by
  simp only [natLt, decide_eq_true_eq]
  omega

/-- Witness of C12: four `Plan` calls with natural numbers as specificities. -/
theorem C12_schedule_ascending_witness :
    (∀ a b, natLt a b = true → natLt b a = false) ∧
    (∀ a b c, natLt a b = true → natLt b c = true → natLt a c = true) ∧
    Ascending natLt (planEach natLt [] [(1, 5), (2, 3), (3, 5), (4, 4)]) :=
  ⟨natLt_asymm, natLt_trans,
    C12_schedule_ascending natLt natLt_asymm natLt_trans [(1, 5), (2, 3), (3, 5), (4, 4)]⟩

/-- C13: the insertion of `Plan` is stable.  On an ascending schedule list, for a strict total
order of specificities, `Plan(id, key)` keeps the existing schedules in their order and puts
the new one between two parts of the list: every schedule before it has a specificity that is
not greater than `key`, and every schedule after it has a greater specificity.  In particular
the existing schedules of specificity `key` all come before the new one. -/
theorem C13_plan_stable {κ : Type} (lt : κ → κ → Bool)
    (hasym : ∀ a b, lt a b = true → lt b a = false)
    (htrans : ∀ a b c, lt a b = true → lt b c = true → lt a c = true)
    (htotal : ∀ a b, lt a b = true ∨ a = b ∨ lt b a = true)
    (l : List (SunSchedule κ)) (id : SunId) (key : κ) (hsorted : Ascending lt l) :
    ∃ before after, l = before ++ after ∧ Plan lt l id key = before ++ ⟨id, key⟩ :: after ∧
      (∀ e ∈ before, lt key e.specificity = false) ∧
      (∀ e ∈ after, lt key e.specificity = true) ∧
      (∀ e ∈ l, e.specificity = key → e ∈ before) := by
  obtain ⟨before, after, h1, h2, h3, h4⟩ := plan_split lt l id key
  have hafter : ∀ e ∈ after, lt key e.specificity = true := by
    intro e he
    cases after with
    | nil => simp at he
    | cons b rest =>
      have hb := h4 b rfl
      simp only [List.mem_cons] at he
      rcases he with he | he
      · rw [he]
        exact hb
      · rw [h1] at hsorted
        have hbe : lt e.specificity b.specificity = false :=
          (List.pairwise_cons.1 (List.pairwise_append.1 hsorted).2.1).1 e he
        rcases htotal b.specificity e.specificity with h | h | h
        · exact htrans _ _ _ hb h
        · rw [← h]
          exact hb
        · rw [h] at hbe
          exact absurd hbe (by simp)
  refine ⟨before, after, h1, h2, h3, hafter, ?_⟩
  intro e he hk
  rw [h1, List.mem_append] at he
  rcases he with he | he
  · exact he
  · have := hafter e he
    rw [hk] at this
    have hirr : lt key key = false := by
      cases hkk : lt key key with
      | false => rfl
      | true => exact (hasym key key hkk).symm ▸ hkk ▸ rfl
    rw [hirr] at this
    exact absurd this (by simp)

/-- Witness of C13: a schedule of specificity 5 planned into the list of specificities
`3, 5, 5, 7`. -/
theorem C13_plan_stable_witness :
    Ascending natLt [⟨2, 3⟩, ⟨1, 5⟩, ⟨3, 5⟩, ⟨4, 7⟩] ∧
    ∃ before after, ([⟨2, 3⟩, ⟨1, 5⟩, ⟨3, 5⟩, ⟨4, 7⟩] : List (SunSchedule Nat)) = before ++ after ∧
      Plan natLt [⟨2, 3⟩, ⟨1, 5⟩, ⟨3, 5⟩, ⟨4, 7⟩] 9 5 = before ++ ⟨9, 5⟩ :: after ∧
      (∀ e ∈ before, natLt 5 e.specificity = false) ∧
      (∀ e ∈ after, natLt 5 e.specificity = true) ∧
      (∀ e ∈ ([⟨2, 3⟩, ⟨1, 5⟩, ⟨3, 5⟩, ⟨4, 7⟩] : List (SunSchedule Nat)),
        e.specificity = 5 → e ∈ before) := by
  have hs : Ascending natLt [⟨2, 3⟩, ⟨1, 5⟩, ⟨3, 5⟩, ⟨4, 7⟩] := by
    simp [Ascending, natLt]
  exact ⟨hs, C13_plan_stable natLt natLt_asymm natLt_trans natLt_total _ 9 5 hs⟩

/-! ## Deferred creation -/

/-- The loop of `AddPropStages` writes the stage index and the instance counters only. -/
theorem AddPropStages_frame (gpid : GlobalPropId) (stages : GroupSet) (s : State) :
    (AddPropStages gpid stages s).mappedPropTupleTypesets = s.mappedPropTupleTypesets ∧
    (AddPropStages gpid stages s).typesetSunLambdas = s.typesetSunLambdas ∧
    (AddPropStages gpid stages s).novelTupleCreators = s.novelTupleCreators ∧
    (AddPropStages gpid stages s).partialStatics = s.partialStatics ∧
    (AddPropStages gpid stages s).stagingPropTuples = s.stagingPropTuples ∧
    (AddPropStages gpid stages s).novelTuples = s.novelTuples ∧
    (∀ t r, s.tracked t r = true → (AddPropStages gpid stages s).tracked t r = true) := by
  induction stages generalizing s with
  | nil => exact ⟨rfl, rfl, rfl, rfl, rfl, rfl, fun _ _ h => h⟩
  | cons stage rest ih =>
    obtain ⟨h1, h2, h3, h4, h5, h6, h7⟩ := ih
      { s with
        instanceBuffer := upd s.instanceBuffer stage.group
          ⟨(stage.inst + 1) % 65536, (s.instanceBuffer stage.group).freeIds⟩
        ptpsq := upd s.ptpsq gpid.typeId
          (mset gpid.id (insertStage stage (mgetD gpid.id [] (s.ptpsq gpid.typeId)))
            (s.ptpsq gpid.typeId)) }
    refine ⟨h1, h2, h3, h4, h5, h6, ?_⟩
    intro t r h
    apply h7
    show mhas r (upd s.ptpsq gpid.typeId _ t) = true
    by_cases ht : t = gpid.typeId
    · subst ht
      rw [upd_same, mhas_iff_mem_mkeys, mkeys_mset]
      have hm : r ∈ mkeys (s.ptpsq gpid.typeId) := (mhas_iff_mem_mkeys _ _).1 h
      by_cases hk : gpid.id ∈ mkeys (s.ptpsq gpid.typeId)
      · rw [if_pos hk]
        exact hm
      · rw [if_neg hk]
        exact List.mem_append_left _ hm
    · rw [upd_other _ _ _ _ ht]
      exact h

/-- `ConsiderProp` is defined in every state that satisfies the standing invariants, keeps them,
and leaves the considered prop in the stage index. -/
theorem considerProp_defined (s : State) (consider : GlobalPropId) (hmi : MappedIndexed s)
    (htd : TypesetsDistinct s) (hrt : ReuseTotal s) :
    ∃ s', ConsiderProp s consider = some s' ∧
      s'.mappedPropTupleTypesets = s.mappedPropTupleTypesets ∧
      s'.typesetSunLambdas = s.typesetSunLambdas ∧
      s'.novelTupleCreators = s.novelTupleCreators ∧ ReuseTotal s' ∧
      s'.tracked consider.typeId consider.id = true ∧
      (∀ t r, s.tracked t r = true → s'.tracked t r = true) := by
  have hts : ∀ ts' ∈ s.mappedPropTupleTypesets consider.typeId, ts'.Nodup ∧ ts' ≠ [] :=
    fun ts' hm => ⟨htd _ ts' hm, List.ne_nil_of_mem (hmi _ ts' hm)⟩
  obtain ⟨s0, hstart, htr0, hmono0, hmap0, hsuns0, hcr0, -, hps0, -⟩ :=
    considerProp_start s consider
  have hrt0 : ReuseTotal s0 := by
    intro sun t h
    rw [hcr0]
    rw [hps0] at h
    exact hrt sun t h
  obtain ⟨s', h', hg, -⟩ := considerVisits_spec consider
    (visits s0 (s.mappedPropTupleTypesets consider.typeId)) s0 hrt0
    (fun v hv => hts v.1 (mem_visits s0 _ v hv).1)
  refine ⟨s', ?_, hg.mapped.trans hmap0, hg.suns.trans hsuns0, hg.creators.trans hcr0,
    hg.reuseTotal hrt0, hg.tracked _ _ htr0, fun t r h => hg.tracked _ _ (hmono0 t r h)⟩
  rw [hstart, considerTypesets_eq_visits _ _ _ hrt0 hts]
  exact h'

/-- The loop of `CreatePropsDelayed` is defined in every state that satisfies the standing
invariants; it is the left fold of "attach the stages, then consider" over the queue, and every
queued prop is in the stage index afterwards. -/
theorem createProps_defined (l : List DelayedPropCreator) (s : State) (hmi : MappedIndexed s)
    (htd : TypesetsDistinct s) (hrt : ReuseTotal s) :
    ∃ s1, createProps l s = some s1 ∧ List.foldlM attachThenConsider s l = some s1 ∧
      ∀ c ∈ l, s1.tracked c.gpid.typeId c.gpid.id = true := by
  suffices h : ∃ s1, createProps l s = some s1 ∧ List.foldlM attachThenConsider s l = some s1 ∧
      (∀ t r, s.tracked t r = true → s1.tracked t r = true) ∧
      ∀ c ∈ l, s1.tracked c.gpid.typeId c.gpid.id = true by
    obtain ⟨s1, h1, h2, -, h4⟩ := h
    exact ⟨s1, h1, h2, h4⟩
  induction l generalizing s with
  | nil => exact ⟨s, rfl, rfl, fun _ _ h => h, by simp⟩
  | cons c rest ih =>
    obtain ⟨f1, f2, f3, f4, -, -, f7⟩ := AddPropStages_frame c.gpid c.stages s
    obtain ⟨sa, ha, hmap, hsuns, hcr, hrta, htra, hmono⟩ := considerProp_defined
      (AddPropStages c.gpid c.stages s) c.gpid
      (by intro t ts h; rw [f1] at h; exact hmi t ts h)
      (by intro t ts h; rw [f1] at h; exact htd t ts h)
      (by intro sun t h; rw [f3]; rw [f4] at h; exact hrt sun t h)
    obtain ⟨s1, h1, h2, h3, h4⟩ := ih sa
      (by intro t ts h; rw [hmap, f1] at h; exact hmi t ts h)
      (by intro t ts h; rw [hmap, f1] at h; exact htd t ts h) hrta
    refine ⟨s1, ?_, ?_, fun t r h => h3 t r (hmono t r (f7 t r h)), ?_⟩
    · simp only [createProps, ha]
      exact h1
    · rw [List.foldlM_cons]
      show (attachThenConsider s c).bind _ = _
      simp only [attachThenConsider, ha, Option.some_bind]
      exact h2
    · intro c' hc'
      simp only [List.mem_cons] at hc'
      rcases hc' with hc' | hc'
      · rw [hc']
        exact h3 _ _ htra
      · exact h4 c' hc'

/-- C11: deferred visibility of creation.  `AddProp` appends the new prop and its stages to the
queue `propsToAdd` and leaves the stage index, every staging queue, every partial-static list
and every tuple store as they were.  In a state that satisfies the standing invariants,
`CreatePropsDelayed` is defined; its result is that of attaching the stages of, then
considering, each queued prop once, in queue order, with the queue emptied; every queued prop
is in the stage index afterwards. -/
theorem C11_deferred_creation (s : State) (gpid : GlobalPropId) (stages : GroupSet)
    (hmi : MappedIndexed s) (htd : TypesetsDistinct s) (hrt : ReuseTotal s) :
    ((AddProp s gpid stages).propsToAdd = s.propsToAdd ++ [⟨gpid, stages⟩] ∧
      (AddProp s gpid stages).ptpsq = s.ptpsq ∧
      (AddProp s gpid stages).stagingPropTuples = s.stagingPropTuples ∧
      (AddProp s gpid stages).partialStatics = s.partialStatics ∧
      (AddProp s gpid stages).novelTuples = s.novelTuples) ∧
    ∃ s1 s', List.foldlM attachThenConsider s s.propsToAdd = some s1 ∧
      CreatePropsDelayed s = some s' ∧ s'.propsToAdd = [] ∧
      s'.ptpsq = s1.ptpsq ∧ s'.stagingPropTuples = s1.stagingPropTuples ∧
      s'.partialStatics = s1.partialStatics ∧ s'.novelTuples = s1.novelTuples ∧
      s'.emergeCalls = s1.emergeCalls ∧
      ∀ c ∈ s.propsToAdd, s'.tracked c.gpid.typeId c.gpid.id = true := by
  refine ⟨⟨rfl, rfl, rfl, rfl, rfl⟩, ?_⟩
  obtain ⟨s1, h1, h2, h3⟩ := createProps_defined s.propsToAdd s hmi htd hrt
  refine ⟨s1, { s1 with propsToAdd := [] }, h2, ?_, rfl, rfl, rfl, rfl, rfl, rfl, h3⟩
  simp only [CreatePropsDelayed, h1]

theorem pairQueued_registry :
    RegisteredOnce pairQueued 7 [0, 1] ∧ MappedNodup pairQueued ∧ MappedIndexed pairQueued ∧
      TypesetsDistinct pairQueued := by
  obtain ⟨h1, h2, h3, h4⟩ := registry_of_single pairQueued 7 0 1 rfl rfl
  exact ⟨h1, h2, h3, h4 (by decide)⟩

/-- Witness of C11: `a1` and `b1` are queued; the flush forms the tuple `(a1, b1)`. -/
theorem C11_deferred_creation_witness :
    MappedIndexed pairQueued ∧ TypesetsDistinct pairQueued ∧ ReuseTotal pairQueued ∧
    (CreatePropsDelayed pairQueued).map (fun s => (s.novelTuples 7, s.propsToAdd.length)) =
      some ([[⟨0, 0⟩, ⟨1, 0⟩]], 0) ∧
    ((AddProp pairQueued ⟨0, 1⟩ [⟨1, 1⟩]).propsToAdd = pairQueued.propsToAdd ++ [⟨⟨0, 1⟩, [⟨1, 1⟩]⟩] ∧
      (AddProp pairQueued ⟨0, 1⟩ [⟨1, 1⟩]).ptpsq = pairQueued.ptpsq ∧
      (AddProp pairQueued ⟨0, 1⟩ [⟨1, 1⟩]).stagingPropTuples = pairQueued.stagingPropTuples ∧
      (AddProp pairQueued ⟨0, 1⟩ [⟨1, 1⟩]).partialStatics = pairQueued.partialStatics ∧
      (AddProp pairQueued ⟨0, 1⟩ [⟨1, 1⟩]).novelTuples = pairQueued.novelTuples) ∧
    ∃ s1 s', List.foldlM attachThenConsider pairQueued pairQueued.propsToAdd = some s1 ∧
      CreatePropsDelayed pairQueued = some s' ∧ s'.propsToAdd = [] ∧
      s'.ptpsq = s1.ptpsq ∧ s'.stagingPropTuples = s1.stagingPropTuples ∧
      s'.partialStatics = s1.partialStatics ∧ s'.novelTuples = s1.novelTuples ∧
      s'.emergeCalls = s1.emergeCalls ∧
      ∀ c ∈ pairQueued.propsToAdd, s'.tracked c.gpid.typeId c.gpid.id = true := by
  obtain ⟨-, -, hmi, htd⟩ := pairQueued_registry
  have hrt : ReuseTotal pairQueued := fun sun t h => absurd rfl h
  exact ⟨hmi, htd, hrt, rfl,
    C11_deferred_creation pairQueued ⟨0, 1⟩ [⟨1, 1⟩] hmi htd hrt⟩

/-! ## The claims on partner selection and restaging: evaluations -/

/-- C15 on the code: `Pair` has no compatibility constraint and its staging queue of `A` is
`[a1, a2]`, with `a2` staged last.  The tuple formed when `b1` is considered holds `a1`, the
first entry of the queue, and does not hold `a2`, the last one. -/
theorem C15_first_staged_is_chosen :
    pairTwoStaged.staged 7 0 = [0, 1] ∧
    (pairTwoStaged.novelTupleCreators 7).compatible.isNone = true ∧
    (InitProp pairTwoStaged ⟨1, 0⟩ [⟨2, 0⟩]).map (fun s => s.novelTuples 7) =
      some [[⟨0, 0⟩, ⟨1, 0⟩]] ∧
    (⟨0, 1⟩ : GlobalPropId) ∉ ([⟨0, 0⟩, ⟨1, 0⟩] : NovelTuple) :=
  ⟨rfl, rfl, rfl, by decide⟩

/-- C16 on the code: the staging queue of `A` under `Pair` is `[a1, a2]`, without duplicates.
When `b1` is considered the tuple `(a1, b1)` is formed with the staged partner `a1`, and the
entry removed from the queue is `a2`: the queue is `[a1]` afterwards, so the chosen partner is
still staged and the other entry is gone. -/
theorem C16_chosen_partner_stays_staged :
    pairTwoStaged.staged 7 0 = [0, 1] ∧
    (InitProp pairTwoStaged ⟨1, 0⟩ [⟨2, 0⟩]).map (fun s => (s.novelTuples 7, s.staged 7 0)) =
      some ([[⟨0, 0⟩, ⟨1, 0⟩]], [0]) :=
  ⟨rfl, rfl⟩

/-- C17 on the code: SunLambdas 1 and 2 share the typeset `[0]`, SunLambda 1 has a compatibility
constraint that rejects the stage set of the considered prop and is in the emerge set.  The
staging map, the partial statics and the tuple store of SunLambda 1 are unchanged, but the tuple
formed for SunLambda 2 invokes the emerge notification of SunLambda 1 with the rejected prop. -/
theorem C17_rejected_prop_is_notified :
    (requireStart.novelTupleCreators 1).compatible.map (fun c => c 0 [⟨3, 0⟩]) = some false ∧
    (requireStart.stagingPropTuples 1, requireStart.partialStatics 1 0,
      requireStart.novelTuples 1, requireStart.emergeCalls) = ([], [], [], []) ∧
    (InitProp requireStart ⟨0, 0⟩ [⟨3, 0⟩]).map
        (fun s => (s.stagingPropTuples 1, s.partialStatics 1 0, s.novelTuples 1, s.novelTuples 2,
          s.emergeCalls)) =
      some ([], [], [], [[⟨0, 0⟩]], [(1, [0])]) :=
  ⟨rfl, rfl, rfl⟩

/-- C20 on the code: the tuples `(a1, b1)` and `(a2, b2)` of `Pair` are both marked for breakup
when `a1` and `a2` are removed.  With `Pair` in the breakup set only `b2` is restaged and `b1`,
which is not pending removal, is not; with `Pair` outside the breakup set both are restaged. -/
theorem C20_survivor_not_restaged :
    (RemoveProps pairTwoTuples removeGroupOne).map
        (fun s => (s.propsToRemove, s.tuplesToBreakup)) =
      some ([(0, [0, 1])], [(7, [0, 1])]) ∧
    (pairTwoTuples.staged 7 1, ((pairTwoTuples.novelTupleCreators 7).reuseOnStages 1).isNone) =
      ([], true) ∧
    (flush pairTwoTuples removeGroupOne).map (fun s => (s.staged 7 1, s.breakupCalls)) =
      some ([1], [(7, [1, 1])]) ∧
    (flush plainTwoTuples removeGroupOne).map (fun s => (s.staged 7 1, s.breakupCalls)) =
      some ([1, 0], []) :=
  ⟨rfl, rfl, rfl, rfl⟩

/-- A prop that does not fulfil the compatibility constraint of a SunLambda is skipped by the
search for that SunLambda: the state is unchanged. -/
theorem considerSunLambda_incompatible (consider : GlobalPropId) (ts : Typeset) (sun : SunId)
    (s : State) (h : IsPropCompatibleWithSunLambda s sun consider.typeId consider.id = false) :
    considerSunLambda consider ts sun s = some s := by
  simp [considerSunLambda, h, addPartialStatic, finishSearch, stageAdded]

/-! ## `ConsiderProp`: what one search does -/

theorem Touched.reflTouched (t : PropTypeId) (s : State) : Touched t s s :=
  ⟨fun _ _ => rfl, fun _ _ => rfl⟩

theorem Touched.transTouched {t : PropTypeId} {s s1 s2 : State} (h1 : Touched t s s1)
    (h2 : Touched t s1 s2) : Touched t s s2 :=
  ⟨fun T hT => (h2.elsewhere T hT).trans (h1.elsewhere T hT),
    fun T r => (h2.stagesOf T r).trans (h1.stagesOf T r)⟩

/-- Reading `ptpsq[p][ps]` through `operator[]` creates at most an empty entry of type `p`. -/
theorem touched_touch (s : State) (p : PropTypeId) (ps : PropIdRaw) :
    Touched p s { s with ptpsq := upd s.ptpsq p (mtouch ps [] (s.ptpsq p)) } := by
  refine ⟨fun T hT => ?_, fun T r => ?_⟩
  · show upd s.ptpsq p _ T = _
    rw [upd_other _ _ _ _ hT]
  · show mgetD r [] (upd s.ptpsq p _ T) = mgetD r [] (s.ptpsq T)
    by_cases hT : T = p
    · subst hT
      rw [upd_same, mgetD_mtouch]
    · rw [upd_other _ _ _ _ hT]

/-- What `FindPartialStatic` returns: it touches the stage index only, and the partial static it
finds is one of the list that the reuse function accepts. -/
theorem FindPartialStatic_found (sun : SunId) (stages : GroupSet) (p ptid : PropTypeId)
    (l : List PropIdRaw) (s s' : State) (found : Option PropIdRaw)
    (h : FindPartialStatic sun stages p ptid l s = some (s', found)) :
    Touched p s s' ∧ s'.stagingPropTuples = s.stagingPropTuples ∧
      s'.partialStatics = s.partialStatics ∧ s'.novelTupleCreators = s.novelTupleCreators ∧
      ∀ ps, found = some ps → ps ∈ l ∧ ∃ f, (s.novelTupleCreators sun).reuseOnStages ptid = some f ∧
        f stages p (s.stagesOf p ps) = true := by
  induction l generalizing s with
  | nil =>
    simp only [FindPartialStatic, Option.some.injEq, Prod.mk.injEq] at h
    obtain ⟨h1, h2⟩ := h
    subst h1 h2
    exact ⟨Touched.reflTouched p s, rfl, rfl, rfl, by simp⟩
  | cons ps rest ih =>
    cases hr : (s.novelTupleCreators sun).reuseOnStages ptid with
    | none => simp [FindPartialStatic, hr] at h
    | some reuse =>
      simp only [FindPartialStatic, hr] at h
      have ht := touched_touch s p ps
      by_cases hacc : reuse stages p
          (mgetD ps [] (upd s.ptpsq p (mtouch ps [] (s.ptpsq p)) p)) = true
      · rw [if_pos hacc] at h
        simp only [Option.some.injEq, Prod.mk.injEq] at h
        obtain ⟨h1, h2⟩ := h
        subst h1 h2
        refine ⟨ht, rfl, rfl, rfl, ?_⟩
        intro x hx
        simp only [Option.some.injEq] at hx
        subst hx
        refine ⟨by simp, reuse, rfl, ?_⟩
        rw [upd_same, mgetD_mtouch] at hacc
        exact hacc
      · rw [if_neg hacc] at h
        obtain ⟨g1, g2, g3, g4, g5⟩ := ih _ h
        refine ⟨ht.transTouched g1, g2, g3, g4, ?_⟩
        intro x hx
        obtain ⟨m1, f, m2, m3⟩ := g5 x hx
        refine ⟨List.mem_cons_of_mem _ m1, f, ?_, ?_⟩
        · rw [← hr]
          exact m2
        · rw [← ht.stagesOf p x]
          exact m3

theorem staged_touch (s : State) (sun : SunId) (ptid k : PropTypeId) :
    mgetD k [] (upd s.stagingPropTuples sun (mtouch ptid [] (s.stagingPropTuples sun)) sun) =
      s.staged sun k := by
  rw [upd_same, mgetD_mtouch]
  rfl

/-- What the completeness loop returns: it touches the stage index and creates staging queues
only; a partial-static neighbour is recorded only for a type with an empty staging queue; and
the tuple is ruled out when some other type of the typeset has an empty staging queue and no
partial static that the reuse function accepts. -/
theorem completenessLoop_effect (sun : SunId) (stages : GroupSet) (p : PropTypeId)
    (ts : List PropTypeId) (s : State) (psn : List (PropTypeId × PropIdRaw)) (s' : State)
    (psn' : List (PropTypeId × PropIdRaw)) (ro : Bool)
    (h : completenessLoop sun stages p ts s psn = some (s', psn', ro)) :
    Touched p s s' ∧ s'.partialStatics = s.partialStatics ∧
      s'.novelTupleCreators = s.novelTupleCreators ∧
      (∀ k, s'.staged sun k = s.staged sun k) ∧
      ((mkeys (s.stagingPropTuples sun)).Nodup → (mkeys (s'.stagingPropTuples sun)).Nodup) ∧
      (∀ k, mhas k psn' = true → mhas k psn = true ∨ (k ≠ p ∧ s.staged sun k = [])) ∧
      ((∃ U ∈ ts, U ≠ p ∧ s.staged sun U = [] ∧
          ∀ ps ∈ s.partialStatics sun U, ∀ f,
            (s.novelTupleCreators sun).reuseOnStages U = some f →
              f stages p (s.stagesOf p ps) = false) → ro = true) := by
  induction ts generalizing s psn with
  | nil =>
    simp only [completenessLoop, Option.some.injEq, Prod.mk.injEq] at h
    obtain ⟨h1, h2, h3⟩ := h
    subst h1 h2 h3
    exact ⟨Touched.reflTouched p s, rfl, rfl, fun _ => rfl, fun hk => hk, fun _ hk => Or.inl hk,
      by simp⟩
  | cons ptid rest ih =>
    by_cases hp : ptid = p
    · simp only [completenessLoop, hp, if_true] at h
      obtain ⟨g1, g2, g3, g4, gk, g5, g6⟩ := ih s psn h
      refine ⟨g1, g2, g3, g4, gk, g5, ?_⟩
      rintro ⟨U, hU, hne, hrest⟩
      simp only [List.mem_cons] at hU
      rcases hU with hU | hU
      · exact absurd (hU.trans hp) hne
      · exact g6 ⟨U, hU, hne, hrest⟩
    · simp only [completenessLoop, hp, if_false] at h
      have hst := staged_touch s sun ptid
      have hkn : (mkeys (s.stagingPropTuples sun)).Nodup → (mkeys
          (upd s.stagingPropTuples sun (mtouch ptid [] (s.stagingPropTuples sun)) sun)).Nodup := by
        intro hk
        rw [upd_same]
        exact mkeys_mtouch_nodup _ _ _ hk
      by_cases hem : (mgetD ptid []
          (upd s.stagingPropTuples sun (mtouch ptid [] (s.stagingPropTuples sun)) sun)).isEmpty
          = true
      · rw [if_pos hem] at h
        have hnil : s.staged sun ptid = [] := by
          rw [hst ptid] at hem
          exact List.isEmpty_iff.1 hem
        cases hfp : FindPartialStatic sun stages p ptid (s.partialStatics sun ptid)
            { s with
              stagingPropTuples :=
                upd s.stagingPropTuples sun (mtouch ptid [] (s.stagingPropTuples sun)) } with
        | none =>
          rw [hfp] at h
          simp at h
        | some r =>
          obtain ⟨s2, found⟩ := r
          rw [hfp] at h
          obtain ⟨f1, f2, f3, f4, f5⟩ := FindPartialStatic_found _ _ _ _ _ _ _ _ hfp
          have ht : Touched p s s2 := ⟨f1.elsewhere, f1.stagesOf⟩
          have hq : ∀ k, s2.staged sun k = s.staged sun k := by
            intro k
            show mgetD k [] (s2.stagingPropTuples sun) = _
            rw [f2]
            exact hst k
          cases found with
          | none =>
            simp only [Option.some.injEq, Prod.mk.injEq] at h
            obtain ⟨h1, h2, h3⟩ := h
            subst h1 h2 h3
            exact ⟨ht, f3, f4, hq, fun hk => by rw [f2]; exact hkn hk, fun _ hk => Or.inl hk,
              fun _ => rfl⟩
          | some ps =>
            simp only [] at h
            obtain ⟨g1, g2, g3, g4, gk, g5, g6⟩ := ih s2 _ h
            refine ⟨ht.transTouched g1, g2.trans f3, g3.trans f4,
              fun k => (g4 k).trans (hq k), fun hk => gk (by rw [f2]; exact hkn hk), ?_, ?_⟩
            · intro k hk
              rcases g5 k hk with hk1 | ⟨hk1, hk2⟩
              · by_cases hkp : k = ptid
                · right
                  rw [hkp]
                  exact ⟨hp, hnil⟩
                · left
                  simpa only [mhas, mfind_mset_other _ _ _ _ hkp] using hk1
              · right
                exact ⟨hk1, (hq k).symm.trans hk2⟩
            · rintro ⟨U, hU, hne, hUq, hrej⟩
              simp only [List.mem_cons] at hU
              rcases hU with hU | hU
              · exfalso
                subst hU
                obtain ⟨m1, f, m2, m3⟩ := f5 ps rfl
                have m4 : f stages p (s.stagesOf p ps) = true := m3
                rw [hrej ps m1 f m2] at m4
                exact absurd m4 (by simp)
              · apply g6
                refine ⟨U, hU, hne, (hq U).trans hUq, ?_⟩
                intro x hx f hf
                rw [f3] at hx
                rw [f4] at hf
                rw [ht.stagesOf p x]
                exact hrej x hx f hf
      · rw [if_neg hem] at h
        obtain ⟨g1, g2, g3, g4, gk, g5, g6⟩ := ih _ _ h
        refine ⟨⟨g1.elsewhere, g1.stagesOf⟩, g2, g3, fun k => (g4 k).trans (hst k),
          fun hk => gk (hkn hk), ?_, ?_⟩
        · intro k hk
          rcases g5 k hk with hk1 | ⟨hk1, hk2⟩
          · exact Or.inl hk1
          · exact Or.inr ⟨hk1, (hst k).symm.trans hk2⟩
        · rintro ⟨U, hU, hne, hUq, hrej⟩
          simp only [List.mem_cons] at hU
          rcases hU with hU | hU
          · exfalso
            apply hem
            rw [hst ptid, ← hU, hUq]
            rfl
          · exact g6 ⟨U, hU, hne, (hst U).trans hUq, hrej⟩

/-- When the neighbour loop does not rule the tuple out, the compatible neighbour it records for
a key of the staging map is the first compatible entry of the queue of that key. -/
theorem neighborLoop_first (s : State) (sun : SunId) (p : PropTypeId)
    (psn : List (PropTypeId × PropIdRaw)) (entries cn cn' : List (PropTypeId × List PropIdRaw))
    (hnd : (mkeys entries).Nodup) (hfresh : ∀ k ∈ mkeys entries, mgetD k [] cn = [])
    (h : neighborLoop s sun p psn entries cn = (cn', false)) :
    (∀ k q, (k, q) ∈ entries → k ≠ p → mhas k psn = false →
      ∃ n, firstCompatible s sun k q = some n ∧ mgetD k [] cn' = [n]) ∧
    (∀ k, k ∉ mkeys entries → mgetD k [] cn' = mgetD k [] cn) := by
  induction entries generalizing cn with
  | nil =>
    simp only [neighborLoop, Prod.mk.injEq, and_true] at h
    subst h
    exact ⟨by simp, fun _ _ => rfl⟩
  | cons e entries ih =>
    obtain ⟨t, queue⟩ := e
    have hkeys : mkeys ((t, queue) :: entries) = t :: mkeys entries := rfl
    rw [hkeys, List.nodup_cons] at hnd
    rw [hkeys] at hfresh
    have hnotin : ∀ k, k ∉ mkeys ((t, queue) :: entries) → k ≠ t ∧ k ∉ mkeys entries := by
      intro k hk
      rw [hkeys, List.mem_cons, not_or] at hk
      exact hk
    by_cases hskip : t = p ∨ mhas t psn = true
    · simp only [neighborLoop, hskip, if_true] at h
      obtain ⟨h1, h2⟩ := ih cn hnd.2 (fun k hk => hfresh k (List.mem_cons_of_mem _ hk)) h
      refine ⟨?_, fun k hk => h2 k (hnotin k hk).2⟩
      intro k q hmem hne hps
      simp only [List.mem_cons, Prod.mk.injEq] at hmem
      rcases hmem with ⟨hk, -⟩ | hmem
      · subst hk
        rcases hskip with hs | hs
        · exact absurd hs hne
        · rw [hps] at hs
          exact absurd hs (by simp)
      · exact h1 k q hmem hne hps
    · simp only [neighborLoop, hskip, if_false] at h
      have ht0 : mgetD t [] cn = [] := hfresh t (by simp)
      cases hfc : firstCompatible s sun t queue with
      | none =>
        simp only [hfc] at h
        have hem : (mgetD t [] (mtouch t [] cn)).isEmpty = true := by
          rw [mgetD_mtouch, ht0]
          rfl
        rw [if_pos hem] at h
        simp at h
      | some n =>
        simp only [hfc] at h
        have hval : mgetD t [] (mtouch t [] (mset t (mgetD t [] cn ++ [n]) cn)) = [n] := by
          rw [mgetD_mtouch, mgetD_mset_same, ht0]
          rfl
        have hem : ¬ (mgetD t [] (mtouch t [] (mset t (mgetD t [] cn ++ [n]) cn))).isEmpty
            = true := by
          rw [hval]
          simp
        rw [if_neg hem] at h
        have hother : ∀ k, k ≠ t →
            mgetD k [] (mtouch t [] (mset t (mgetD t [] cn ++ [n]) cn)) = mgetD k [] cn := by
          intro k hk
          rw [mgetD_mtouch, mgetD_mset_other _ _ _ _ _ hk]
        obtain ⟨h1, h2⟩ := ih _ hnd.2 (by
          intro k hk
          have hkt : k ≠ t := fun e => hnd.1 (e ▸ hk)
          rw [hother k hkt]
          exact hfresh k (List.mem_cons_of_mem _ hk)) h
        refine ⟨?_, ?_⟩
        · intro k q hmem hne hps
          simp only [List.mem_cons, Prod.mk.injEq] at hmem
          rcases hmem with ⟨hk, hq⟩ | hmem
          · subst hk hq
            exact ⟨n, hfc, by rw [h2 k hnd.1, hval]⟩
          · exact h1 k q hmem hne hps
        · intro k hk
          obtain ⟨hkt, hkn⟩ := hnotin k hk
          rw [h2 k hkn, hother k hkt]

theorem popBack_spec {α : Type} (l q : List α) (h : popBack l = some q) :
    ∃ x, l = q ++ [x] := by
  induction l generalizing q with
  | nil => simp [popBack] at h
  | cons a l ih =>
    cases l with
    | nil =>
      simp only [popBack, Option.some.injEq] at h
      subst h
      exact ⟨a, rfl⟩
    | cons b l =>
      cases hr : popBack (b :: l) with
      | none => simp [popBack, hr] at h
      | some r =>
        simp only [popBack, hr, Option.map_some', Option.some.injEq] at h
        obtain ⟨x, hx⟩ := ih r hr
        exact ⟨x, by rw [← h, hx]; rfl⟩

theorem setAt_same {α : Type} (l : List α) (i : Nat) (a : α) (h : nth l i = some a) :
    setAt l i a = some l := by
  induction l generalizing i with
  | nil => simp [nth] at h
  | cons x xs ih =>
    cases i with
    | zero =>
      simp only [nth, Option.some.injEq] at h
      subst h
      rfl
    | succ i =>
      simp only [nth] at h
      simp only [setAt, ih i h, Option.map_some']

theorem assembled_typeId (consider : GlobalPropId) (psn : List (PropTypeId × PropIdRaw))
    (cn : List (PropTypeId × List PropIdRaw)) (ptid : PropTypeId) :
    (assembled consider psn cn ptid).typeId = ptid := by
  unfold assembled
  by_cases h : ptid = consider.typeId
  · rw [if_pos h]
  · rw [if_neg h]
    cases mfind ptid psn <;> rfl

theorem assembled_self (consider : GlobalPropId) (psn : List (PropTypeId × PropIdRaw))
    (cn : List (PropTypeId × List PropIdRaw)) :
    assembled consider psn cn consider.typeId = consider := by
  unfold assembled
  rw [if_pos rfl]

/-- What the assembly loop returns: the tuple grows by the members of `assembled`, in typeset
order; every staging queue loses entries at its end at most, the queue of the considered type
none; and `addedPropTypeIndex` is a position of the considered type. -/
theorem assemble_shape (consider : GlobalPropId) (psn : List (PropTypeId × PropIdRaw))
    (cn : List (PropTypeId × List PropIdRaw)) (rest : List PropTypeId)
    (pn : List (PropTypeId × List PropIdRaw)) (tuple : NovelTuple) (i added : Nat)
    (pn' : List (PropTypeId × List PropIdRaw)) (tuple' : NovelTuple) (added' : Nat)
    (h : assemble consider psn cn rest pn tuple i added = some (pn', tuple', added')) :
    tuple' = tuple ++ rest.map (assembled consider psn cn) ∧
    (∀ k, ∃ gone, mgetD k [] pn = mgetD k [] pn' ++ gone) ∧
    mgetD consider.typeId [] pn' = mgetD consider.typeId [] pn ∧
    (consider.typeId ∈ rest → ∃ j, added' = i + j ∧ nth rest j = some consider.typeId) ∧
    (consider.typeId ∉ rest → added' = added) := by
  induction rest generalizing pn tuple i added with
  | nil =>
    simp only [assemble, Option.some.injEq, Prod.mk.injEq] at h
    obtain ⟨h1, h2, h3⟩ := h
    subst h1 h2 h3
    exact ⟨by simp, fun k => ⟨[], by simp⟩, rfl, by simp, fun _ => rfl⟩
  | cons ptid rest ih =>
    by_cases hc : ptid = consider.typeId
    · simp only [assemble, hc, if_true] at h
      obtain ⟨g1, g2, g3, g4, g5⟩ := ih _ _ _ _ h
      refine ⟨?_, g2, g3, ?_, ?_⟩
      · rw [g1, hc, List.map_cons, assembled_self]
        simp
      · intro _
        by_cases hm : consider.typeId ∈ rest
        · obtain ⟨j, hj, hn⟩ := g4 hm
          exact ⟨j + 1, by omega, by simpa only [nth] using hn⟩
        · exact ⟨0, by rw [g5 hm]; rfl, by rw [hc]; rfl⟩
      · intro hm
        exact absurd (by rw [hc]; simp) hm
    · simp only [assemble, hc, if_false] at h
      have hmem : consider.typeId ∈ ptid :: rest → consider.typeId ∈ rest := by
        intro hm
        simp only [List.mem_cons] at hm
        rcases hm with hm | hm
        · exact absurd hm.symm hc
        · exact hm
      have hidx : ∀ a' : Nat,
          (consider.typeId ∈ rest → ∃ j, a' = i + 1 + j ∧ nth rest j = some consider.typeId) →
          consider.typeId ∈ ptid :: rest →
            ∃ j, a' = i + j ∧ nth (ptid :: rest) j = some consider.typeId := by
        intro a' g4 hm
        obtain ⟨j, hj, hn⟩ := g4 (hmem hm)
        exact ⟨j + 1, by omega, by simpa only [nth] using hn⟩
      cases hps : mfind ptid psn with
      | some ps =>
        simp only [hps] at h
        obtain ⟨g1, g2, g3, g4, g5⟩ := ih _ _ _ _ h
        refine ⟨?_, g2, g3, hidx added' g4, fun hm => g5 (fun hr => hm (List.mem_cons_of_mem _ hr))⟩
        rw [g1, List.map_cons]
        have : assembled consider psn cn ptid = ⟨ptid, ps⟩ := by
          simp only [assembled, hc, if_false, hps]
        rw [this]
        simp
      | none =>
        simp only [hps] at h
        cases hb : back (mgetD ptid [] cn) with
        | none => simp [hb] at h
        | some n =>
          cases hq : popBack (mgetD ptid [] pn) with
          | none => simp [hb, hq] at h
          | some q =>
            simp only [hb, hq] at h
            obtain ⟨g1, g2, g3, g4, g5⟩ := ih _ _ _ _ h
            obtain ⟨x, hx⟩ := popBack_spec _ _ hq
            refine ⟨?_, ?_, ?_, hidx added' g4,
              fun hm => g5 (fun hr => hm (List.mem_cons_of_mem _ hr))⟩
            · rw [g1, List.map_cons]
              have : assembled consider psn cn ptid = ⟨ptid, n⟩ := by
                simp only [assembled, hc, if_false, hps, hb, Option.getD_some]
              rw [this]
              simp
            · intro k
              obtain ⟨gone, hg⟩ := g2 k
              by_cases hk : k = ptid
              · subst hk
                rw [mgetD_mset_same] at hg
                exact ⟨gone ++ [x], by rw [hx, hg, List.append_assoc]⟩
              · rw [mgetD_mset_other _ _ _ _ _ hk] at hg
                exact ⟨gone, hg⟩
            · rw [g3, mgetD_mset_other _ _ _ _ _ (fun e => hc e.symm)]

/-- What the formation of a tuple returns, for a typeset that holds the considered type: the
tuple of `assembled` members is appended to the tuple store of the SunLambda; the staging queues
of the SunLambda lose entries at their end at most, the queue of the considered type none. -/
theorem formTuple_shape (consider : GlobalPropId) (ts : Typeset) (sun : SunId) (s2 : State)
    (psn : List (PropTypeId × PropIdRaw)) (cn : List (PropTypeId × List PropIdRaw))
    (s' : State) (hg : consider.typeId ∈ ts)
    (h : formTuple consider ts sun s2 psn cn = some s') :
    s'.novelTuples sun = s2.novelTuples sun ++ [ts.map (assembled consider psn cn)] ∧
    s'.partialStatics = s2.partialStatics ∧ s'.ptpsq = s2.ptpsq ∧
    s'.novelTupleCreators = s2.novelTupleCreators ∧
    (∀ k, ∃ gone, s2.staged sun k = s'.staged sun k ++ gone) ∧
    s'.staged sun consider.typeId = s2.staged sun consider.typeId := by
  unfold formTuple at h
  cases ha : assemble consider psn cn ts (s2.stagingPropTuples sun) [] 0 0 with
  | none => simp [ha] at h
  | some r =>
    obtain ⟨pn, tuple, added⟩ := r
    obtain ⟨g1, g2, g3, g4, -⟩ := assemble_shape _ _ _ _ _ _ _ _ _ _ _ ha
    obtain ⟨j, hj, hn⟩ := g4 hg
    have hnth : nth tuple added = some consider := by
      rw [g1, hj, List.nil_append, Nat.zero_add, nth_map, hn, Option.map_some', assembled_self]
    simp only [ha, setAt_same _ _ _ hnth] at h
    have key : ∀ s3 : State, s3.novelTuples = upd s2.novelTuples sun (s2.novelTuples sun ++ [tuple])
        → s3.stagingPropTuples = upd s2.stagingPropTuples sun pn →
        s3.partialStatics = s2.partialStatics → s3.ptpsq = s2.ptpsq →
        s3.novelTupleCreators = s2.novelTupleCreators →
        s3.novelTuples sun = s2.novelTuples sun ++ [ts.map (assembled consider psn cn)] ∧
        s3.partialStatics = s2.partialStatics ∧ s3.ptpsq = s2.ptpsq ∧
        s3.novelTupleCreators = s2.novelTupleCreators ∧
        (∀ k, ∃ gone, s2.staged sun k = s3.staged sun k ++ gone) ∧
        s3.staged sun consider.typeId = s2.staged sun consider.typeId := by
      intro s3 e1 e2 e3 e4 e5
      refine ⟨?_, e3, e4, e5, ?_, ?_⟩
      · rw [e1, upd_same, g1, List.nil_append]
      · intro k
        show ∃ gone, mgetD k [] (s2.stagingPropTuples sun) =
          mgetD k [] (s3.stagingPropTuples sun) ++ gone
        rw [e2, upd_same]
        exact g2 k
      · show mgetD consider.typeId [] (s3.stagingPropTuples sun) =
          mgetD consider.typeId [] (s2.stagingPropTuples sun)
        rw [e2, upd_same]
        exact g3
    split at h
    · simp only [Option.some.injEq] at h
      subst h
      exact key _ rfl rfl rfl rfl rfl
    · simp only [Option.some.injEq] at h
      subst h
      exact key _ rfl rfl rfl rfl rfl

/-- What the staging of the added prop does to the staging queues of the SunLambda. -/
theorem stageAdded_staged (consider : GlobalPropId) (sun : SunId) (staged : Bool) (s2 : State) :
    (stageAdded consider sun staged s2).staged sun consider.typeId =
      (if staged then s2.staged sun consider.typeId ++ [consider.id]
        else s2.staged sun consider.typeId) ∧
    (∀ k, k ≠ consider.typeId → (stageAdded consider sun staged s2).staged sun k =
      s2.staged sun k) ∧
    (stageAdded consider sun staged s2).ptpsq = s2.ptpsq ∧
    (stageAdded consider sun staged s2).novelTupleCreators = s2.novelTupleCreators ∧
    (stageAdded consider sun staged s2).emergeCalls = s2.emergeCalls := by
  cases staged with
  | false => exact ⟨rfl, fun _ _ => rfl, rfl, rfl, rfl⟩
  | true =>
    refine ⟨?_, ?_, rfl, rfl, rfl⟩
    · show mgetD consider.typeId [] (upd s2.stagingPropTuples sun _ sun) =
        s2.staged sun consider.typeId ++ [consider.id]
      rw [upd_same, mgetD_mset_same]
      rfl
    · intro k hk
      show mgetD k [] (upd s2.stagingPropTuples sun _ sun) = _
      rw [upd_same, mgetD_mset_other _ _ _ _ _ hk]
      rfl

/-- The two ways in which the part of the search after the completeness loop ends: the added prop
is staged (or nothing is done), or the neighbour loop succeeds and a tuple is formed. -/
theorem finishSearch_effect (consider : GlobalPropId) (ts : Typeset) (sun : SunId)
    (staged : Bool) (s2 : State) (psn : List (PropTypeId × PropIdRaw)) (ro : Bool) (s' : State)
    (h : finishSearch consider ts sun staged s2 psn ro = some s') :
    s' = stageAdded consider sun staged s2 ∨
    (ro = false ∧ ∃ cn,
      neighborLoop s2 sun consider.typeId psn (s2.stagingPropTuples sun) [] = (cn, false) ∧
      formTuple consider ts sun s2 psn cn = some s') := by
  unfold finishSearch at h
  cases ro with
  | true =>
    simp only [if_true, Option.some.injEq] at h
    exact Or.inl h.symm
  | false =>
    simp only [Bool.false_eq_true, if_false] at h
    cases hx : neighborLoop s2 sun consider.typeId psn (s2.stagingPropTuples sun) [] with
    | mk cn b =>
      rw [hx] at h
      cases b with
      | true =>
        simp only [if_true, Option.some.injEq] at h
        exact Or.inl h.symm
      | false =>
        simp only [Bool.false_eq_true, if_false] at h
        exact Or.inr ⟨rfl, cn, rfl, h⟩

theorem firstCompatible_congr (s s' : State) (sun : SunId) (k : PropTypeId)
    (q : List PropIdRaw) (hpq : s'.ptpsq k = s.ptpsq k)
    (hcr : s'.novelTupleCreators = s.novelTupleCreators) :
    firstCompatible s' sun k q = firstCompatible s sun k q := by
  induction q with
  | nil => rfl
  | cons r q ih => simp only [firstCompatible, IsPropCompatibleWithSunLambda, hpq, hcr, ih]

theorem addPartialStatic_other (consider : GlobalPropId) (sun : SunId) (isPS : Bool) (s : State)
    (U : PropTypeId) (hU : U ≠ consider.typeId) :
    (addPartialStatic consider sun isPS s).partialStatics sun U = s.partialStatics sun U := by
  cases isPS with
  | false => rfl
  | true =>
    show upd s.partialStatics sun (upd (s.partialStatics sun) consider.typeId _) sun U = _
    rw [upd_same, upd_other _ _ _ _ hU]

/-- What the search for one SunLambda returns, for a typeset that holds the type of the
considered prop.  The stage index is touched only, the partial statics are those left by the
partial-static registration, and then either no tuple is formed and the prop is staged when it
fulfils the constraint and is not a partial static, or one tuple is formed: its members are the
`assembled` ones, the staging queues lose entries at their end at most, partial-static
neighbours stand for types with an empty queue only, the compatible neighbour of a type with a
non-empty queue is the first compatible entry of the queue, and no other type of the typeset
lacks both a staged prop and an accepted partial static. -/
theorem considerSunLambda_effect (consider : GlobalPropId) (ts : Typeset) (sun : SunId)
    (s s' : State) (hg : consider.typeId ∈ ts)
    (hreuse : ∀ p, s.partialStatics sun p ≠ [] →
      ((s.novelTupleCreators sun).reuseOnStages p).isSome = true)
    (h : considerSunLambda consider ts sun s = some s') :
    Touched consider.typeId s s' ∧ s'.novelTupleCreators = s.novelTupleCreators ∧
    s'.partialStatics = (addPartialStatic consider sun
      (IsPropCompatibleWithSunLambda s sun consider.typeId consider.id &&
        ((s.novelTupleCreators sun).reuseOnStages consider.typeId).isSome) s).partialStatics ∧
    ((s'.novelTuples = s.novelTuples ∧
        s'.staged sun consider.typeId =
          (if (IsPropCompatibleWithSunLambda s sun consider.typeId consider.id &&
              !(IsPropCompatibleWithSunLambda s sun consider.typeId consider.id &&
                ((s.novelTupleCreators sun).reuseOnStages consider.typeId).isSome)) = true
            then s.staged sun consider.typeId ++ [consider.id]
            else s.staged sun consider.typeId) ∧
        ∀ k, k ≠ consider.typeId → s'.staged sun k = s.staged sun k) ∨
      (IsPropCompatibleWithSunLambda s sun consider.typeId consider.id = true ∧
        ∃ psn cn,
          s'.novelTuples sun = s.novelTuples sun ++ [ts.map (assembled consider psn cn)] ∧
          (∀ k, ∃ gone, s.staged sun k = s'.staged sun k ++ gone) ∧
          s'.staged sun consider.typeId = s.staged sun consider.typeId ∧
          (∀ k, mhas k psn = true → k ≠ consider.typeId ∧ s.staged sun k = []) ∧
          ((mkeys (s.stagingPropTuples sun)).Nodup → ∀ k, k ≠ consider.typeId →
            s.staged sun k ≠ [] →
              ∃ n, firstCompatible s sun k (s.staged sun k) = some n ∧ mgetD k [] cn = [n]) ∧
          ¬ ∃ U ∈ ts, U ≠ consider.typeId ∧ s.staged sun U = [] ∧
            ∀ ps ∈ s.partialStatics sun U, ∀ f,
              (s.novelTupleCreators sun).reuseOnStages U = some f →
                f (s.stagesOf consider.typeId consider.id) consider.typeId
                  (s.stagesOf consider.typeId ps) = false)) := by
  unfold considerSunLambda at h
  simp only [] at h
  have hps : (IsPropCompatibleWithSunLambda s sun consider.typeId consider.id &&
      ((s.novelTupleCreators sun).reuseOnStages consider.typeId).isSome) = true →
      ((s.novelTupleCreators sun).reuseOnStages consider.typeId).isSome = true := by
    intro h
    simp only [Bool.and_eq_true] at h
    exact h.2
  obtain ⟨hg1, -, hst1, hnt1, hpq1⟩ := addPartialStatic_spec consider sun
    (IsPropCompatibleWithSunLambda s sun consider.typeId consider.id &&
      ((s.novelTupleCreators sun).reuseOnStages consider.typeId).isSome) s hps
  have hother := addPartialStatic_other consider sun
    (IsPropCompatibleWithSunLambda s sun consider.typeId consider.id &&
      ((s.novelTupleCreators sun).reuseOnStages consider.typeId).isSome) s
  generalize addPartialStatic consider sun
    (IsPropCompatibleWithSunLambda s sun consider.typeId consider.id &&
      ((s.novelTupleCreators sun).reuseOnStages consider.typeId).isSome) s = s1 at *
  generalize (IsPropCompatibleWithSunLambda s sun consider.typeId consider.id &&
      !(IsPropCompatibleWithSunLambda s sun consider.typeId consider.id &&
        ((s.novelTupleCreators sun).reuseOnStages consider.typeId).isSome)) = flag at *
  have hreuse1 : ∀ p, s1.partialStatics sun p ≠ [] →
      ((s1.novelTupleCreators sun).reuseOnStages p).isSome = true := by
    intro p hp
    rw [hg1.creators]
    rcases hg1.reuse sun p hp with h | h
    · exact hreuse p h
    · exact h
  have hq1 : ∀ k, s1.staged sun k = s.staged sun k := by
    intro k
    show mgetD k [] (s1.stagingPropTuples sun) = _
    rw [hst1]
    rfl
  have hso1 : ∀ T r, s1.stagesOf T r = s.stagesOf T r := by
    intro T r
    show mgetD r [] (s1.ptpsq T) = _
    rw [hpq1]
    rfl
  -- the case in which no tuple is formed
  have hnone : ∀ s2 : State, Touched consider.typeId s1 s2 →
      s2.novelTupleCreators = s1.novelTupleCreators → s2.partialStatics = s1.partialStatics →
      s2.novelTuples = s1.novelTuples → (∀ k, s2.staged sun k = s1.staged sun k) →
      s' = stageAdded consider sun flag s2 →
      Touched consider.typeId s s' ∧ s'.novelTupleCreators = s.novelTupleCreators ∧
      s'.partialStatics = s1.partialStatics ∧
      (s'.novelTuples = s.novelTuples ∧
        s'.staged sun consider.typeId =
          (if flag = true then s.staged sun consider.typeId ++ [consider.id]
            else s.staged sun consider.typeId) ∧
        ∀ k, k ≠ consider.typeId → s'.staged sun k = s.staged sun k) := by
    intro s2 ht hcr hpst hnt hq hs'
    obtain ⟨-, -, a3, a4⟩ := stageAdded_spec consider sun flag s2
    obtain ⟨b1, b2, b3, b4, -⟩ := stageAdded_staged consider sun flag s2
    subst hs'
    refine ⟨⟨fun T hT => ?_, fun T r => ?_⟩, ?_, a4.trans hpst, a3.trans (hnt.trans hnt1), ?_, ?_⟩
    · rw [b3, ht.elsewhere T hT, hpq1]
    · show mgetD r [] ((stageAdded consider sun flag s2).ptpsq T) = _
      rw [b3]
      exact (ht.stagesOf T r).trans (hso1 T r)
    · rw [b4, hcr, hg1.creators]
    · rw [b1, hq, hq1]
    · intro k hk
      rw [b2 k hk, hq, hq1]
  by_cases hf : IsPropCompatibleWithSunLambda s sun consider.typeId consider.id = true
  · rw [if_pos hf] at h
    cases hcl : completenessLoop sun (mgetD consider.id [] (s.ptpsq consider.typeId))
        consider.typeId ts s1 [] with
    | none => simp [hcl] at h
    | some r =>
      obtain ⟨s2, psn, ro⟩ := r
      simp only [hcl] at h
      obtain ⟨e1, e2, e3, e4, e5, e6, e7⟩ := completenessLoop_effect _ _ _ _ _ _ _ _ _ hcl
      have hnt2 : s2.novelTuples = s1.novelTuples := by
        obtain ⟨pq, st, psn0, ro0, h0, -⟩ := completenessLoop_spec sun
          (mgetD consider.id [] (s.ptpsq consider.typeId)) consider.typeId ts s1 [] hreuse1
        rw [h0] at hcl
        simp only [Option.some.injEq, Prod.mk.injEq] at hcl
        rw [← hcl.1]
      rcases finishSearch_effect _ _ _ _ _ _ _ _ h with hno | ⟨hro, cn, hnl, hft⟩
      · obtain ⟨c1, c2, c3, c4⟩ := hnone s2 e1 e3 e2 hnt2 e4 hno
        exact ⟨c1, c2, c3, Or.inl c4⟩
      · obtain ⟨d1, d2, d3, d4, d5, d6⟩ := formTuple_shape _ _ _ _ _ _ _ hg hft
        refine ⟨⟨fun T hT => ?_, fun T r => ?_⟩, ?_, d2.trans e2, Or.inr ⟨hf, psn, cn, ?_, ?_, ?_,
          ?_, ?_, ?_⟩⟩
        · rw [d3, e1.elsewhere T hT, hpq1]
        · show mgetD r [] (s'.ptpsq T) = _
          rw [d3]
          exact (e1.stagesOf T r).trans (hso1 T r)
        · rw [d4, e3, hg1.creators]
        · rw [d1, hnt2, hnt1]
        · intro k
          obtain ⟨gone, hgone⟩ := d5 k
          exact ⟨gone, by rw [← hgone, e4, hq1]⟩
        · rw [d6, e4, hq1]
        · intro k hk
          rcases e6 k hk with hk1 | ⟨hk1, hk2⟩
          · simp [mhas, mfind] at hk1
          · exact ⟨hk1, (hq1 k).symm.trans hk2⟩
        · intro hnd k hkt hne
          have hnd2 : (mkeys (s2.stagingPropTuples sun)).Nodup := e5 (by rw [hst1]; exact hnd)
          have hq2 : s2.staged sun k = s.staged sun k := (e4 k).trans (hq1 k)
          have hne2 : mgetD k [] (s2.stagingPropTuples sun) ≠ [] := by
            intro e
            exact hne (hq2.symm.trans e)
          obtain ⟨q, hq⟩ := mfind_of_mhas _ _ (mhas_of_mgetD_ne_nil _ _ hne2)
          have hqeq : q = s.staged sun k := by
            rw [← hq2]
            simp only [State.staged, mgetD, hq, Option.getD_some]
          have hpsn : mhas k psn = false := by
            cases hm : mhas k psn with
            | false => rfl
            | true =>
              rcases e6 k hm with hk1 | ⟨-, hk2⟩
              · simp [mhas, mfind] at hk1
              · exact absurd ((hq1 k).symm.trans hk2) hne
          obtain ⟨first, -⟩ := neighborLoop_first s2 sun consider.typeId psn
            (s2.stagingPropTuples sun) [] cn hnd2 (fun _ _ => rfl) hnl
          obtain ⟨n, hn1, hn2⟩ := first k q (mem_of_mfind _ _ _ hq) hkt hpsn
          refine ⟨n, ?_, hn2⟩
          rw [← hqeq, ← hn1]
          exact (firstCompatible_congr s s2 sun k q
            ((e1.elsewhere k hkt).trans (by rw [hpq1])) (e3.trans hg1.creators)).symm
        · rintro ⟨U, hU, hne, hUq, hrej⟩
          have : ro = true := by
            apply e7
            refine ⟨U, hU, hne, (hq1 U).trans hUq, ?_⟩
            intro x hx f hf'
            rw [hother U hne] at hx
            rw [hg1.creators] at hf'
            have := hrej x hx f hf'
            rw [hso1]
            exact this
          rw [hro] at this
          exact absurd this (by simp)
  · rw [if_neg hf] at h
    simp only [] at h
    rcases finishSearch_effect _ _ _ _ _ _ _ _ h with hno | ⟨hro, -⟩
    · obtain ⟨c1, c2, c3, c4⟩ := hnone s1 (Touched.reflTouched _ s1) rfl rfl rfl (fun _ => rfl) hno
      exact ⟨c1, c2, c3, Or.inl c4⟩
    · exact absurd hro (by simp)

/-! ## `ConsiderProp`: one SunLambda among the others -/

/-- The loop over visited pairs touches the stage index only. -/
theorem considerVisits_touched (consider : GlobalPropId) (vs : List (Typeset × SunId))
    (s s' : State) (hr : ReuseTotal s)
    (hv : ∀ v ∈ vs, v.1.Nodup ∧ consider.typeId ∈ v.1)
    (h : considerVisits consider vs s = some s') : Touched consider.typeId s s' := by
  induction vs generalizing s with
  | nil =>
    simp only [considerVisits, Option.some.injEq] at h
    subst h
    exact Touched.reflTouched _ s
  | cons v vs ih =>
    obtain ⟨ts, sun⟩ := v
    obtain ⟨hnd, hg⟩ := hv (ts, sun) (by simp)
    obtain ⟨s1, h1, hg1, -⟩ := considerSunLambda_spec consider ts sun s (hr sun) hnd
      (List.ne_nil_of_mem hg)
    simp only [considerVisits, h1] at h
    obtain ⟨t1, -⟩ := considerSunLambda_effect consider ts sun s s1 hg (hr sun) h1
    exact t1.transTouched (ih s1 (hg1.reuseTotal hr)
      (fun v hm => hv v (List.mem_cons_of_mem _ hm)) h)

/-- The loops of `ConsiderProp` around the search for a SunLambda `O` registered once, with what
the searches that come before `O` leave: the stage index is touched only, the considered prop is
in it, and the data of `O` are as in the state in which `ConsiderProp` was called. -/
theorem considerProp_visit (s : State) (O : SunId) (ts : Typeset) (consider : GlobalPropId)
    (hreg : RegisteredOnce s O ts) (hnd : ts.Nodup) (hg : consider.typeId ∈ ts)
    (hmn : MappedNodup s) (hmi : MappedIndexed s) (htd : TypesetsDistinct s)
    (hrt : ReuseTotal s) :
    ∃ sA sB sC, considerSunLambda consider ts O sA = some sB ∧
      ConsiderProp s consider = some sC ∧
      Touched consider.typeId s sA ∧
      sA.tracked consider.typeId consider.id = true ∧
      sA.novelTupleCreators = s.novelTupleCreators ∧
      sA.stagingPropTuples O = s.stagingPropTuples O ∧
      sA.partialStatics O = s.partialStatics O ∧ sA.novelTuples O = s.novelTuples O ∧
      sC.stagingPropTuples O = sB.stagingPropTuples O ∧
      sC.partialStatics O = sB.partialStatics O ∧ sC.novelTuples O = sB.novelTuples O := by
  have hts : ∀ ts' ∈ s.mappedPropTupleTypesets consider.typeId, ts'.Nodup ∧ ts' ≠ [] :=
    fun ts' hm => ⟨htd _ ts' hm, List.ne_nil_of_mem (hmi _ ts' hm)⟩
  obtain ⟨pre, post, hsplit, hpre, hpost⟩ := visits_split s O ts consider.typeId hreg hmn hg
  have hvis : ∀ v ∈ pre ++ (ts, O) :: post, v.1.Nodup ∧ v.1 ≠ [] := by
    intro v hv
    rw [← hsplit] at hv
    exact hts v.1 (mem_visits s _ v hv).1
  have hvin : ∀ v ∈ pre ++ (ts, O) :: post, consider.typeId ∈ v.1 := by
    intro v hv
    rw [← hsplit] at hv
    exact hmi _ v.1 (mem_visits s _ v hv).1
  have hstart : ConsiderProp s consider =
      considerTypesets consider (s.mappedPropTupleTypesets consider.typeId)
        { s with
          ptpsq :=
            upd s.ptpsq consider.typeId (mtouch consider.id [] (s.ptpsq consider.typeId)) } :=
    rfl
  have ht0 := touched_touch s consider.typeId consider.id
  have htr0 : ({ s with
      ptpsq := upd s.ptpsq consider.typeId (mtouch consider.id [] (s.ptpsq consider.typeId)) }
      : State).tracked consider.typeId consider.id = true := by
    show mhas consider.id (upd s.ptpsq consider.typeId _ consider.typeId) = true
    rw [upd_same]
    exact mhas_mtouch_self _ _ _
  have hsame : ∀ s0 : State, s0 = { s with
      ptpsq := upd s.ptpsq consider.typeId (mtouch consider.id [] (s.ptpsq consider.typeId)) } →
      s0.typesetSunLambdas = s.typesetSunLambdas ∧
      s0.novelTupleCreators = s.novelTupleCreators ∧
      s0.stagingPropTuples = s.stagingPropTuples ∧
      s0.partialStatics = s.partialStatics ∧ s0.novelTuples = s.novelTuples := by
    intro s0 e
    subst e
    exact ⟨rfl, rfl, rfl, rfl, rfl⟩
  have hsame0 := hsame _ rfl
  generalize ({ s with
      ptpsq := upd s.ptpsq consider.typeId (mtouch consider.id [] (s.ptpsq consider.typeId)) }
      : State) = s0 at hstart ht0 htr0 hsame0
  obtain ⟨hsuns0, hcr0, hst0, hps0, hnt0⟩ := hsame0
  have hrt0 : ReuseTotal s0 := by
    intro sun t h
    rw [hcr0]
    rw [hps0] at h
    exact hrt sun t h
  obtain ⟨sA, hA, hgA, hoA⟩ := considerVisits_spec consider pre s0 hrt0
    (fun v hv => hvis v (by simp [hv]))
  have htA : Touched consider.typeId s0 sA := considerVisits_touched consider pre s0 sA hrt0
    (fun v hv => ⟨(hvis v (by simp [hv])).1, hvin v (by simp [hv])⟩) hA
  obtain ⟨eA1, eA2, eA3⟩ := hoA O hpre
  obtain ⟨sB, hB, hgB, -⟩ := considerSunLambda_spec consider ts O sA (hgA.reuseTotal hrt0 O)
    hnd (List.ne_nil_of_mem hg)
  obtain ⟨sC, hC, -, hoC⟩ := considerVisits_spec consider post sB
    (hgB.reuseTotal (hgA.reuseTotal hrt0)) (fun v hv => hvis v (by simp [hv]))
  obtain ⟨eC1, eC2, eC3⟩ := hoC O hpost
  refine ⟨sA, sB, sC, hB, ?_, ht0.transTouched htA, hgA.tracked _ _ htr0,
    hgA.creators.trans hcr0, by rw [eA1, hst0], by rw [eA2, hps0], by rw [eA3, hnt0],
    eC1, eC2, eC3⟩
  rw [hstart, considerTypesets_eq_visits _ _ _ hrt0 hts, visits_congr s s0 hsuns0, hsplit,
    considerVisits_append, hA]
  simp only [Option.some_bind, considerVisits, hB]
  exact hC

theorem staged_congr (s s' : State) (O : SunId)
    (h : s'.stagingPropTuples O = s.stagingPropTuples O) (k : PropTypeId) :
    s'.staged O k = s.staged O k := by
  simp only [State.staged, h]

/-- A prop of the stage index fulfils the compatibility constraint of a SunLambda when the
SunLambda has no constraint or its constraint accepts the type and the stage set of the prop. -/
theorem isPropCompatible_of_accepts (s : State) (sun : SunId) (t : PropTypeId) (r : PropIdRaw)
    (htr : s.tracked t r = true)
    (hc : ∀ c, (s.novelTupleCreators sun).compatible = some c → c t (s.stagesOf t r) = true) :
    IsPropCompatibleWithSunLambda s sun t r = true := by
  obtain ⟨v, hv⟩ := mfind_of_mhas _ _ htr
  have hso : s.stagesOf t r = v := by
    simp only [State.stagesOf, mgetD, hv, Option.getD_some]
  unfold IsPropCompatibleWithSunLambda
  rw [hv]
  cases hcomp : (s.novelTupleCreators sun).compatible with
  | none => rfl
  | some c =>
    have := hc c hcomp
    rw [hso] at this
    exact this

/-- Staging on incompleteness, with the reuse function called as `FindPartialStatic` calls it.
Let `O` be registered once over a typeset `ts` of pairwise distinct types that holds the type
`t` of the considered prop.  Suppose the compatibility constraint of `O`, when there is one,
accepts `t` and the stage set of the prop; `O` has no reuse function for `t`; and another type
`U` of `ts` has an empty staging queue under `O` and no partial static for which the call
`reuse(stage set of the considered prop, t, ptpsq[t][ps])` returns true.  Then `ConsiderProp` is
defined, appends no tuple to the tuple store of `O`, appends the prop at the end of the staging
queue of `t` under `O`, and leaves the other staging queues of `O` as they were.  The remaining
hypotheses are the standing invariants. -/
theorem considerProp_stages_incomplete (s : State) (O : SunId) (ts : Typeset)
    (consider : GlobalPropId) (U : PropTypeId)
    (hreg : RegisteredOnce s O ts) (hnd : ts.Nodup) (hg : consider.typeId ∈ ts)
    (hU : U ∈ ts) (hUne : U ≠ consider.typeId)
    (hcompat : ∀ c, (s.novelTupleCreators O).compatible = some c →
      c consider.typeId (s.stagesOf consider.typeId consider.id) = true)
    (hnoreuse : (s.novelTupleCreators O).reuseOnStages consider.typeId = none)
    (hempty : s.staged O U = [])
    (hrej : ∀ ps ∈ s.partialStatics O U, ∀ f,
      (s.novelTupleCreators O).reuseOnStages U = some f →
        f (s.stagesOf consider.typeId consider.id) consider.typeId
          (s.stagesOf consider.typeId ps) = false)
    (hmn : MappedNodup s) (hmi : MappedIndexed s) (htd : TypesetsDistinct s)
    (hrt : ReuseTotal s) :
    ∃ s', ConsiderProp s consider = some s' ∧ s'.novelTuples O = s.novelTuples O ∧
      s'.staged O consider.typeId = s.staged O consider.typeId ++ [consider.id] ∧
      ∀ k, k ≠ consider.typeId → s'.staged O k = s.staged O k := by
  obtain ⟨sA, sB, sC, hB, hC, htA, htrA, hcrA, hstA, hpsA, hntA, hstC, -, hntC⟩ :=
    considerProp_visit s O ts consider hreg hnd hg hmn hmi htd hrt
  have hreuseA : ∀ p, sA.partialStatics O p ≠ [] →
      ((sA.novelTupleCreators O).reuseOnStages p).isSome = true := by
    intro p hp
    rw [hpsA] at hp
    rw [hcrA]
    exact hrt O p hp
  have hF : IsPropCompatibleWithSunLambda sA O consider.typeId consider.id = true :=
    isPropCompatible_of_accepts sA O _ _ htrA (by
      intro c hc
      rw [hcrA] at hc
      rw [htA.stagesOf]
      exact hcompat c hc)
  obtain ⟨-, -, -, hcase⟩ := considerSunLambda_effect consider ts O sA sB hg hreuseA hB
  rcases hcase with ⟨n1, n2, n3⟩ | ⟨-, psn, cn, -, -, -, -, -, hnot⟩
  · refine ⟨sC, hC, by rw [hntC, n1, hntA], ?_, ?_⟩
    · rw [hF, hcrA, hnoreuse] at n2
      simp only [Option.isSome_none, Bool.and_false, Bool.not_false, Bool.and_self,
        if_true] at n2
      rw [staged_congr sB sC O hstC, n2, staged_congr s sA O hstA]
    · intro k hk
      rw [staged_congr sB sC O hstC, n3 k hk, staged_congr s sA O hstA]
  · exfalso
    apply hnot
    refine ⟨U, hU, hUne, (staged_congr s sA O hstA U).trans hempty, ?_⟩
    intro x hx f hf
    rw [hpsA] at hx
    rw [hcrA] at hf
    rw [htA.stagesOf, htA.stagesOf]
    exact hrej x hx f hf

/-- C19: partial-static marking.  Let `O` be registered once over a typeset `ts` of pairwise
distinct types that holds the type `t` of the considered prop.  Suppose `O` has a reuse function
for `t` and the compatibility constraint of `O`, when there is one, accepts `t` and the stage
set of the prop.  Then `ConsiderProp` is defined and appends the prop at the end of the
partial-static list of `t` under `O`; the staging queue of `t` under `O` is as before, and no
staging queue of `O` gains an entry (a queue loses entries at its end at most), whether or not
a tuple is formed.  The remaining hypotheses are the standing invariants. -/
theorem C19_partial_static_marking (s : State) (O : SunId) (ts : Typeset)
    (consider : GlobalPropId)
    (hreg : RegisteredOnce s O ts) (hnd : ts.Nodup) (hg : consider.typeId ∈ ts)
    (hcompat : ∀ c, (s.novelTupleCreators O).compatible = some c →
      c consider.typeId (s.stagesOf consider.typeId consider.id) = true)
    (hreuse : ((s.novelTupleCreators O).reuseOnStages consider.typeId).isSome = true)
    (hmn : MappedNodup s) (hmi : MappedIndexed s) (htd : TypesetsDistinct s)
    (hrt : ReuseTotal s) :
    ∃ s', ConsiderProp s consider = some s' ∧
      s'.partialStatics O consider.typeId =
        s.partialStatics O consider.typeId ++ [consider.id] ∧
      s'.staged O consider.typeId = s.staged O consider.typeId ∧
      ∀ k, ∃ gone, s.staged O k = s'.staged O k ++ gone := by
  obtain ⟨sA, sB, sC, hB, hC, htA, htrA, hcrA, hstA, hpsA, hntA, hstC, hpsC, -⟩ :=
    considerProp_visit s O ts consider hreg hnd hg hmn hmi htd hrt
  have hreuseA : ∀ p, sA.partialStatics O p ≠ [] →
      ((sA.novelTupleCreators O).reuseOnStages p).isSome = true := by
    intro p hp
    rw [hpsA] at hp
    rw [hcrA]
    exact hrt O p hp
  have hF : IsPropCompatibleWithSunLambda sA O consider.typeId consider.id = true :=
    isPropCompatible_of_accepts sA O _ _ htrA (by
      intro c hc
      rw [hcrA] at hc
      rw [htA.stagesOf]
      exact hcompat c hc)
  obtain ⟨-, -, ePS, hcase⟩ := considerSunLambda_effect consider ts O sA sB hg hreuseA hB
  rw [hF, hcrA, hreuse] at ePS
  have hstatics : sC.partialStatics O consider.typeId =
      s.partialStatics O consider.typeId ++ [consider.id] := by
    rw [hpsC, ePS]
    show upd sA.partialStatics O (upd (sA.partialStatics O) consider.typeId _) O
      consider.typeId = _
    rw [upd_same, upd_same, hpsA]
  refine ⟨sC, hC, hstatics, ?_, ?_⟩
  · rcases hcase with ⟨-, n2, -⟩ | ⟨-, psn, cn, -, -, m3, -⟩
    · rw [hF, hcrA, hreuse] at n2
      simp only [Bool.and_self, Bool.not_true, Bool.and_false, Bool.false_eq_true,
        if_false] at n2
      rw [staged_congr sB sC O hstC, n2, staged_congr s sA O hstA]
    · rw [staged_congr sB sC O hstC, m3, staged_congr s sA O hstA]
  · intro k
    rcases hcase with ⟨-, n2, n3⟩ | ⟨-, psn, cn, -, m2, -⟩
    · refine ⟨[], ?_⟩
      rw [List.append_nil, staged_congr sB sC O hstC]
      by_cases hk : k = consider.typeId
      · rw [hF, hcrA, hreuse] at n2
        simp only [Bool.and_self, Bool.not_true, Bool.and_false, Bool.false_eq_true,
          if_false] at n2
        rw [hk, n2, staged_congr s sA O hstA]
      · rw [n3 k hk, staged_congr s sA O hstA]
    · obtain ⟨gone, hgone⟩ := m2 k
      exact ⟨gone, by rw [staged_congr sB sC O hstC, ← hgone, staged_congr s sA O hstA]⟩

/-- An instance of the lemma: `a1` is staged under `Pair`, no `B` is, and `a2` is considered. -/
theorem considerProp_stages_incomplete_pair :
    RegisteredOnce pairStaged 7 [0, 1] ∧ pairStaged.staged 7 1 = [] ∧
    pairStaged.staged 7 0 = [0] ∧
    ∃ s', ConsiderProp pairStaged ⟨0, 1⟩ = some s' ∧
      s'.novelTuples 7 = pairStaged.novelTuples 7 ∧
      s'.staged 7 0 = pairStaged.staged 7 0 ++ [1] ∧
      ∀ k, k ≠ 0 → s'.staged 7 k = pairStaged.staged 7 k := by
  obtain ⟨hreg, hmn, hmi, htd⟩ := pairStaged_registry
  have hnone : (pairStaged.novelTupleCreators 7).compatible = none := rfl
  have hstatics : pairStaged.partialStatics 7 1 = [] := rfl
  exact ⟨hreg, rfl, rfl,
    considerProp_stages_incomplete pairStaged 7 [0, 1] ⟨0, 1⟩ 1 hreg (by decide) (by decide)
      (by decide) (by decide)
      (fun c hc => by rw [hnone] at hc; exact absurd hc (by simp))
      rfl rfl
      (fun ps hps => by rw [hstatics] at hps; exact absurd hps (List.not_mem_nil _))
      hmn hmi htd pairStaged_reuseTotal⟩

/-- Witness of C19: `counter1` is a partial static of `Count`, and `counter2 = (Counter, 1)` is
considered. -/
theorem C19_partial_static_marking_witness :
    RegisteredOnce countReady 9 [2, 3] ∧
    ((countReady.novelTupleCreators 9).reuseOnStages 3).isSome = true ∧
    countReady.partialStatics 9 3 = [0] ∧
    ∃ s', ConsiderProp countReady ⟨3, 1⟩ = some s' ∧
      s'.partialStatics 9 3 = countReady.partialStatics 9 3 ++ [1] ∧
      s'.staged 9 3 = countReady.staged 9 3 ∧
      ∀ k, ∃ gone, countReady.staged 9 k = s'.staged 9 k ++ gone := by
  obtain ⟨hreg, hmn, hmi, htd⟩ := countReady_registry
  have hnone : (countReady.novelTupleCreators 9).compatible = none := rfl
  exact ⟨hreg, rfl, rfl,
    C19_partial_static_marking countReady 9 [2, 3] ⟨3, 1⟩ hreg (by decide) (by decide)
      (fun c hc => by rw [hnone] at hc; exact absurd hc (by simp))
      rfl hmn hmi htd countReady_reuseTotal⟩

/-! ## Partner selection and tuple shape -/

theorem firstCompatible_spec (s : State) (sun : SunId) (k : PropTypeId) (q : List PropIdRaw)
    (n : PropIdRaw) (h : firstCompatible s sun k q = some n) :
    ∃ before after, q = before ++ n :: after ∧
      IsPropCompatibleWithSunLambda s sun k n = true ∧
      ∀ b ∈ before, IsPropCompatibleWithSunLambda s sun k b = false := by
  induction q with
  | nil => simp [firstCompatible] at h
  | cons r q ih =>
    by_cases hr : IsPropCompatibleWithSunLambda s sun k r = true
    · simp only [firstCompatible, hr, if_true, Option.some.injEq] at h
      subst h
      exact ⟨[], q, rfl, hr, by simp⟩
    · simp only [firstCompatible, hr, if_false] at h
      obtain ⟨before, after, e, h1, h2⟩ := ih h
      refine ⟨r :: before, after, by rw [e]; rfl, h1, ?_⟩
      intro b hb
      simp only [List.mem_cons] at hb
      rcases hb with hb | hb
      · rw [hb]
        simpa using hr
      · exact h2 b hb

theorem assembled_neighbor (consider : GlobalPropId) (psn : List (PropTypeId × PropIdRaw))
    (cn : List (PropTypeId × List PropIdRaw)) (T : PropTypeId) (n : PropIdRaw)
    (hT : T ≠ consider.typeId) (hps : mhas T psn = false) (hcn : mgetD T [] cn = [n]) :
    assembled consider psn cn T = ⟨T, n⟩ := by
  have hnone : mfind T psn = none := by
    cases hf : mfind T psn with
    | none => rfl
    | some v => simp [mhas, hf] at hps
  unfold assembled
  rw [if_neg hT, hnone, hcn]
  rfl

theorem assembled_map_typeId (consider : GlobalPropId) (psn : List (PropTypeId × PropIdRaw))
    (cn : List (PropTypeId × List PropIdRaw)) (ts : Typeset) :
    (ts.map (assembled consider psn cn)).map GlobalPropId.typeId = ts := by
  induction ts with
  | nil => rfl
  | cons p ts ih => simp only [List.map_cons, assembled_typeId, ih]

/-- C15, amended: partner selection takes the first compatible entry.  Let `O` be registered
once over a typeset `ts` of pairwise distinct types that holds the type of the considered prop
and another type `T` whose staging queue under `O` is not empty.  Then `ConsiderProp` is
defined, and when it appends a tuple to the tuple store of `O`, the member of type `T` of that
tuple is the first entry of the staging queue of `T`, in queue order, that fulfils the
compatibility constraint of `O`: the entries staged before it do not fulfil it.  The remaining
hypotheses are the standing invariants. -/
theorem C15_partner_is_first_compatible (s : State) (O : SunId) (ts : Typeset)
    (consider : GlobalPropId) (T : PropTypeId)
    (hreg : RegisteredOnce s O ts) (hnd : ts.Nodup) (hg : consider.typeId ∈ ts)
    (hT : T ∈ ts) (hTne : T ≠ consider.typeId) (hq : s.staged O T ≠ [])
    (hkeys : (mkeys (s.stagingPropTuples O)).Nodup)
    (hmn : MappedNodup s) (hmi : MappedIndexed s) (htd : TypesetsDistinct s)
    (hrt : ReuseTotal s) :
    ∃ s', ConsiderProp s consider = some s' ∧
      (s'.novelTuples O = s.novelTuples O ∨
        ∃ tuple n before after, s'.novelTuples O = s.novelTuples O ++ [tuple] ∧
          (⟨T, n⟩ : GlobalPropId) ∈ tuple ∧
          (∀ i, nth ts i = some T → nth tuple i = some ⟨T, n⟩) ∧
          s.staged O T = before ++ n :: after ∧
          IsPropCompatibleWithSunLambda s O T n = true ∧
          ∀ b ∈ before, IsPropCompatibleWithSunLambda s O T b = false) := by
  obtain ⟨sA, sB, sC, hB, hC, htA, htrA, hcrA, hstA, hpsA, hntA, hstC, -, hntC⟩ :=
    considerProp_visit s O ts consider hreg hnd hg hmn hmi htd hrt
  have hreuseA : ∀ p, sA.partialStatics O p ≠ [] →
      ((sA.novelTupleCreators O).reuseOnStages p).isSome = true := by
    intro p hp
    rw [hpsA] at hp
    rw [hcrA]
    exact hrt O p hp
  obtain ⟨-, -, -, hcase⟩ := considerSunLambda_effect consider ts O sA sB hg hreuseA hB
  refine ⟨sC, hC, ?_⟩
  rcases hcase with ⟨n1, -, -⟩ | ⟨-, psn, cn, m1, -, -, m4, m5, -⟩
  · left
    rw [hntC, n1, hntA]
  · right
    have hqA : sA.staged O T ≠ [] := by
      rw [staged_congr s sA O hstA]
      exact hq
    obtain ⟨n, hn1, hn2⟩ := m5 (by rw [hstA]; exact hkeys) T hTne hqA
    have hps : mhas T psn = false := by
      cases hm : mhas T psn with
      | false => rfl
      | true => exact absurd (m4 T hm).2 hqA
    have hmember := assembled_neighbor consider psn cn T n hTne hps hn2
    rw [staged_congr s sA O hstA,
      firstCompatible_congr s sA O T _ (htA.elsewhere T hTne) hcrA] at hn1
    obtain ⟨before, after, e, h1, h2⟩ := firstCompatible_spec s O T _ n hn1
    refine ⟨ts.map (assembled consider psn cn), n, before, after, ?_, ?_, ?_, e, h1, h2⟩
    · rw [hntC, m1, hntA]
    · rw [← hmember]
      exact List.mem_map_of_mem _ hT
    · intro i hi
      rw [nth_map, hi, Option.map_some', hmember]

/-- Witness of C15 as amended: the staging queue of `A` under `Pair` is `[a1, a2]`, and `b1` is
considered. -/
theorem C15_partner_is_first_compatible_witness :
    RegisteredOnce pairTwoStaged 7 [0, 1] ∧ pairTwoStaged.staged 7 0 = [0, 1] ∧
    ∃ s', ConsiderProp pairTwoStaged ⟨1, 0⟩ = some s' ∧
      (s'.novelTuples 7 = pairTwoStaged.novelTuples 7 ∨
        ∃ tuple n before after, s'.novelTuples 7 = pairTwoStaged.novelTuples 7 ++ [tuple] ∧
          (⟨0, n⟩ : GlobalPropId) ∈ tuple ∧
          (∀ i, nth [0, 1] i = some 0 → nth tuple i = some ⟨0, n⟩) ∧
          pairTwoStaged.staged 7 0 = before ++ n :: after ∧
          IsPropCompatibleWithSunLambda pairTwoStaged 7 0 n = true ∧
          ∀ b ∈ before, IsPropCompatibleWithSunLambda pairTwoStaged 7 0 b = false) := by
  obtain ⟨hreg, hmn, hmi, htd⟩ := registry_of_single pairTwoStaged 7 0 1 rfl rfl
  have hq : pairTwoStaged.staged 7 0 = [0, 1] := rfl
  exact ⟨hreg, rfl,
    C15_partner_is_first_compatible pairTwoStaged 7 [0, 1] ⟨1, 0⟩ 0 hreg (by decide) (by decide)
      (by decide) (by decide) (by rw [hq]; simp) (by decide) hmn hmi (htd (by decide))
      (fun sun t h => absurd rfl h)⟩

/-- Every tuple that the loop over visited pairs appends to a tuple store belongs to a visited
pair of the SunLambda, has the types of the typeset of the pair in order, and holds the
considered prop at the positions of its type. -/
theorem considerVisits_shape (consider : GlobalPropId) (vs : List (Typeset × SunId))
    (s : State) (hr : ReuseTotal s)
    (hv : ∀ v ∈ vs, v.1.Nodup ∧ consider.typeId ∈ v.1) :
    ∃ s', considerVisits consider vs s = some s' ∧
      ∀ O, ∃ new, s'.novelTuples O = s.novelTuples O ++ new ∧
        ∀ tuple ∈ new, ∃ ts, (ts, O) ∈ vs ∧ tuple.map GlobalPropId.typeId = ts ∧
          ∀ i, nth ts i = some consider.typeId → nth tuple i = some consider := by
  induction vs generalizing s with
  | nil => exact ⟨s, rfl, fun O => ⟨[], by simp, by simp⟩⟩
  | cons v vs ih =>
    obtain ⟨ts, sun⟩ := v
    obtain ⟨hnd, hg⟩ := hv (ts, sun) (by simp)
    obtain ⟨s1, h1, hg1, ha1⟩ := considerSunLambda_spec consider ts sun s (hr sun) hnd
      (List.ne_nil_of_mem hg)
    obtain ⟨-, -, -, hcase⟩ := considerSunLambda_effect consider ts sun s s1 hg (hr sun) h1
    obtain ⟨s2, h2, hnew2⟩ := ih s1 (hg1.reuseTotal hr)
      (fun v hm => hv v (List.mem_cons_of_mem _ hm))
    refine ⟨s2, by simp only [considerVisits, h1, h2], ?_⟩
    intro O
    obtain ⟨new2, e2, p2⟩ := hnew2 O
    have p2' : ∀ tuple ∈ new2, ∃ ts', (ts', O) ∈ (ts, sun) :: vs ∧
        tuple.map GlobalPropId.typeId = ts' ∧
        ∀ i, nth ts' i = some consider.typeId → nth tuple i = some consider := by
      intro tuple hm
      obtain ⟨ts', a, b, c⟩ := p2 tuple hm
      exact ⟨ts', List.mem_cons_of_mem _ a, b, c⟩
    by_cases hO : O = sun
    · subst hO
      rcases hcase with ⟨n1, -, -⟩ | ⟨-, psn, cn, m1, -⟩
      · exact ⟨new2, by rw [e2, n1], p2'⟩
      · refine ⟨ts.map (assembled consider psn cn) :: new2, by rw [e2, m1]; simp, ?_⟩
        intro tuple hm
        simp only [List.mem_cons] at hm
        rcases hm with hm | hm
        · refine ⟨ts, by simp, ?_, ?_⟩
          · rw [hm]
            exact assembled_map_typeId consider psn cn ts
          · intro i hi
            rw [hm, nth_map, hi, Option.map_some', assembled_self]
        · exact p2' tuple hm
    · exact ⟨new2, by rw [e2, ha1.tuples O hO], p2'⟩

/-- C14: tuple shape.  In a state that satisfies the standing invariants (typesets are filed
under their member types and have pairwise distinct types, partial statics have reuse
functions), `ConsiderProp` is defined, and every tuple that it appends to the tuple store of a
SunLambda `O` belongs to a typeset `ts` of `O` that holds the type of the considered prop: the
tuple has the length of `ts`, its members have the types of `ts` in order, and the member at the
position of the considered type is the considered prop. -/
theorem C14_tuple_shape (s : State) (consider : GlobalPropId) (hmi : MappedIndexed s)
    (htd : TypesetsDistinct s) (hrt : ReuseTotal s) :
    ∃ s', ConsiderProp s consider = some s' ∧
      ∀ O, ∃ new, s'.novelTuples O = s.novelTuples O ++ new ∧
        ∀ tuple ∈ new, ∃ ts, ts ∈ s.mappedPropTupleTypesets consider.typeId ∧
          O ∈ s.typesetSunLambdas ts ∧ tuple.length = ts.length ∧
          tuple.map GlobalPropId.typeId = ts ∧
          ∀ i, nth ts i = some consider.typeId → nth tuple i = some consider := by
  have hts : ∀ ts' ∈ s.mappedPropTupleTypesets consider.typeId, ts'.Nodup ∧ ts' ≠ [] :=
    fun ts' hm => ⟨htd _ ts' hm, List.ne_nil_of_mem (hmi _ ts' hm)⟩
  obtain ⟨s0, hstart, -, -, -, hsuns0, hcr0, -, hps0, hnt0⟩ := considerProp_start s consider
  have hrt0 : ReuseTotal s0 := by
    intro sun t h
    rw [hcr0]
    rw [hps0] at h
    exact hrt sun t h
  obtain ⟨s', h', hnew⟩ := considerVisits_shape consider
    (visits s0 (s.mappedPropTupleTypesets consider.typeId)) s0 hrt0
    (fun v hv => ⟨(hts v.1 (mem_visits s0 _ v hv).1).1, hmi _ v.1 (mem_visits s0 _ v hv).1⟩)
  refine ⟨s', ?_, ?_⟩
  · rw [hstart, considerTypesets_eq_visits _ _ _ hrt0 hts]
    exact h'
  · intro O
    obtain ⟨new, e, p⟩ := hnew O
    refine ⟨new, by rw [e, hnt0], ?_⟩
    intro tuple hm
    obtain ⟨ts, a, b, c⟩ := p tuple hm
    obtain ⟨a1, a2⟩ := mem_visits s0 _ _ a
    refine ⟨ts, a1, ?_, ?_, b, c⟩
    · rw [← hsuns0]
      exact a2
    · rw [← b, List.length_map]

/-- Witness of C14: `a1` is staged under `Pair`, and `b1` is considered. -/
theorem C14_tuple_shape_witness :
    MappedIndexed pairStaged ∧ TypesetsDistinct pairStaged ∧ ReuseTotal pairStaged ∧
    (ConsiderProp pairStaged ⟨1, 0⟩).map (fun s => s.novelTuples 7) =
      some [[⟨0, 0⟩, ⟨1, 0⟩]] ∧
    ∃ s', ConsiderProp pairStaged ⟨1, 0⟩ = some s' ∧
      ∀ O, ∃ new, s'.novelTuples O = pairStaged.novelTuples O ++ new ∧
        ∀ tuple ∈ new, ∃ ts, ts ∈ pairStaged.mappedPropTupleTypesets 1 ∧
          O ∈ pairStaged.typesetSunLambdas ts ∧ tuple.length = ts.length ∧
          tuple.map GlobalPropId.typeId = ts ∧
          ∀ i, nth ts i = some 1 → nth tuple i = some ⟨1, 0⟩ := by
  obtain ⟨-, -, hmi, htd⟩ := pairStaged_registry
  exact ⟨hmi, htd, pairStaged_reuseTotal, rfl,
    C14_tuple_shape pairStaged ⟨1, 0⟩ hmi htd pairStaged_reuseTotal⟩

/-- A prop that the compatibility constraint of `O` rejects leaves the staging map, the partial
statics and the tuple store of `O` as they were, for `O` registered once over a typeset of
pairwise distinct types. -/
theorem considerProp_incompatible_frame (s : State) (O : SunId) (ts : Typeset)
    (consider : GlobalPropId) (c : CompatibleConstraint)
    (hreg : RegisteredOnce s O ts) (hnd : ts.Nodup) (hg : consider.typeId ∈ ts)
    (hc : (s.novelTupleCreators O).compatible = some c)
    (hrej : c consider.typeId (s.stagesOf consider.typeId consider.id) = false)
    (hmn : MappedNodup s) (hmi : MappedIndexed s) (htd : TypesetsDistinct s)
    (hrt : ReuseTotal s) :
    ∃ s', ConsiderProp s consider = some s' ∧
      s'.stagingPropTuples O = s.stagingPropTuples O ∧
      s'.partialStatics O = s.partialStatics O ∧ s'.novelTuples O = s.novelTuples O := by
  obtain ⟨sA, sB, sC, hB, hC, htA, htrA, hcrA, hstA, hpsA, hntA, hstC, hpsC, hntC⟩ :=
    considerProp_visit s O ts consider hreg hnd hg hmn hmi htd hrt
  have hF : IsPropCompatibleWithSunLambda sA O consider.typeId consider.id = false := by
    obtain ⟨v, hv⟩ := mfind_of_mhas _ _ htrA
    have hso : sA.stagesOf consider.typeId consider.id = v := by
      simp only [State.stagesOf, mgetD, hv, Option.getD_some]
    unfold IsPropCompatibleWithSunLambda
    rw [hv, hcrA, hc]
    show c consider.typeId v = false
    rw [← hso, htA.stagesOf]
    exact hrej
  rw [considerSunLambda_incompatible consider ts O sA hF] at hB
  have hAB : sA = sB := Option.some.inj hB
  subst hAB
  exact ⟨sC, hC, hstC.trans hstA, hpsC.trans hpsA, hntC.trans hntA⟩

/-! ## The claims on stages, reuse functions and `Require`: evaluations -/

/-- C23 on the code: after the stage `(group 1, instance 5)` is attached the counter of group 1
is 6; attaching the stage `(group 1, instance 2)` to another prop sets it to 3, which is lower
than before and not greater than the instance 5 that is still attached to the first prop. -/
theorem C23_counter_is_lowered :
    ((AddPropStages ⟨0, 0⟩ [⟨1, 5⟩] State.empty).instanceBuffer 1).nextId = 6 ∧
    (twoAttached.instanceBuffer 1).nextId = 3 ∧
    twoAttached.stagesOf 0 0 = [⟨1, 5⟩] ∧ twoAttached.stagesOf 0 1 = [⟨1, 2⟩] :=
  ⟨rfl, rfl, rfl, rfl⟩

/-- C24 on the code: for the stages `a = (group 1, instance 2)` and `b = (group 2, instance 1)`
the comparison of the code gives both `a < b` and `b < a`, so it is not asymmetric; the order by
group and then instance gives `a < b` only. -/
theorem C24_stage_order_not_asymmetric :
    Stage.lt ⟨1, 2⟩ ⟨2, 1⟩ = true ∧ Stage.lt ⟨2, 1⟩ ⟨1, 2⟩ = true ∧
    Stage.lexLt ⟨1, 2⟩ ⟨2, 1⟩ = true ∧ Stage.lexLt ⟨2, 1⟩ ⟨1, 2⟩ = false :=
  ⟨rfl, rfl, rfl, rfl⟩

/-- C26 on the code: `Count` has the partial statics `counter1`, `counter2` of type `Counter`
(type 3, each with a stage in group 1), and `tick1` of type `Tick` (type 2, with a stage in
group 2) is considered.  A reuse function that accepts the type `Counter` of the candidate
rejects both candidates and one that accepts the type `Tick` of the considered prop accepts
`counter1`; a reuse function that accepts a candidate with a stage in group 1 rejects both
candidates and one that looks for a stage in group 2, which only `tick1` has, accepts
`counter1`.  So the function is called with the type of the considered prop and with the stage
set stored under that type. -/
theorem C26_reuse_called_with_considered_type :
    (countTwoCounters (reuseOfType 3)).partialStatics 9 3 = [0, 1] ∧
    (countTwoCounters (reuseOfType 3)).ptpsq 3 = [(0, [⟨1, 0⟩]), (1, [⟨1, 1⟩])] ∧
    (ConsiderProp (countTwoCounters (reuseOfType 3)) ⟨2, 0⟩).map (fun s => s.novelTuples 9) =
      some [] ∧
    (ConsiderProp (countTwoCounters (reuseOfType 2)) ⟨2, 0⟩).map (fun s => s.novelTuples 9) =
      some [[⟨2, 0⟩, ⟨3, 0⟩]] ∧
    (ConsiderProp (countTwoCounters (reuseOfGroup 1)) ⟨2, 0⟩).map (fun s => s.novelTuples 9) =
      some [] ∧
    (ConsiderProp (countTwoCounters (reuseOfGroup 2)) ⟨2, 0⟩).map (fun s => s.novelTuples 9) =
      some [[⟨2, 0⟩, ⟨3, 0⟩]] :=
  ⟨rfl, rfl, rfl, rfl, rfl, rfl⟩

/-- C27 on the code: before `tick1 = (Tick, 0)` is considered the stage index holds one prop of
type `Tick`, which is `tick1`; afterwards it holds an entry, with an empty stage set, for the
raw id 1 under the type `Tick`, the raw id of the partial-static candidate `counter2`. -/
theorem C27_considerProp_creates_index_entry :
    (countTwoCounters (reuseOfType 3)).tracked 2 0 = true ∧
    (countTwoCounters (reuseOfType 3)).ptpsq 2 = [(0, [⟨2, 0⟩])] ∧
    (ConsiderProp (countTwoCounters (reuseOfType 3)) ⟨2, 0⟩).map (fun s => s.ptpsq 2) =
      some [(0, [⟨2, 0⟩]), (1, [])] :=
  ⟨rfl, rfl, rfl⟩

/-- C18 on the code: in the Count scenario whose reuse function for `Counter` accepts a candidate
with a stage in group 2, `tick1 = (Tick, 0)` is considered.  The prop `tick1` is compatible with
`Count`, `Count` has no reuse function for `Tick`, the staging queue of `Counter` is empty, and
the reuse function rejects both partial statics `counter1`, `counter2` of `Counter` when it is
given their type and their stage sets.  Yet `ConsiderProp` appends the tuple
`(tick1, counter1)` to the tuple store of `Count` and does not stage `tick1`: the call that
`FindPartialStatic` makes for `counter1` passes the type `Tick` and the stage set stored under
`(Tick, 0)`, which is that of `tick1`, and returns true. -/
theorem C18_tuple_formed_though_candidates_rejected :
    IsPropCompatibleWithSunLambda (countTwoCounters (reuseOfGroup 2)) 9 2 0 = true ∧
    (((countTwoCounters (reuseOfGroup 2)).novelTupleCreators 9).reuseOnStages 2).isNone = true ∧
    (countTwoCounters (reuseOfGroup 2)).staged 9 3 = [] ∧
    (((countTwoCounters (reuseOfGroup 2)).novelTupleCreators 9).reuseOnStages 3).map
      (fun f => ((countTwoCounters (reuseOfGroup 2)).partialStatics 9 3).map (fun ps =>
        (ps, (countTwoCounters (reuseOfGroup 2)).stagesOf 3 ps,
          f ((countTwoCounters (reuseOfGroup 2)).stagesOf 2 0) 3
            ((countTwoCounters (reuseOfGroup 2)).stagesOf 3 ps)))) =
      some [(0, [⟨1, 0⟩], false), (1, [⟨1, 1⟩], false)] ∧
    (((countTwoCounters (reuseOfGroup 2)).novelTupleCreators 9).reuseOnStages 3).map
      (fun f => f ((countTwoCounters (reuseOfGroup 2)).stagesOf 2 0) 2
        ((countTwoCounters (reuseOfGroup 2)).stagesOf 2 0)) = some true ∧
    (ConsiderProp (countTwoCounters (reuseOfGroup 2)) ⟨2, 0⟩).map
      (fun s => (s.novelTuples 9, s.staged 9 2)) = some ([[⟨2, 0⟩, ⟨3, 0⟩]], []) :=
  ⟨rfl, rfl, rfl, rfl, rfl, rfl⟩

/-- C30 on the code: after `Require<P>(7, 5)`, where the type id of the integer type
`PropTypeId` is 0 and `P` is another type, of id 1, the constraint of SunLambda 7 accepts every
prop of type `P`, with or without a stage of group 5, and rejects a prop of type 0 without a
stage of group 5. -/
theorem C30_require_ignores_its_type :
    (∀ stages : GroupSet,
      ((Require State.empty 0 7 5).novelTupleCreators 7).compatible.map (fun c => c 1 stages) =
        some true) ∧
    ((Require State.empty 0 7 5).novelTupleCreators 7).compatible.map
        (fun c => (c 1 [], c 1 [⟨5, 0⟩], c 0 [], c 0 [⟨5, 0⟩])) =
      some (true, true, false, true) :=
  ⟨fun _ => rfl, rfl⟩

/-- C25 on the code: under `Count` the staging queue of `Counter` is `[counter1]`, and
`counter2` is a partial static of `Counter` whose reuse function accepts every prop.  When
`tick1` is considered the tuple holds the staged `counter1`, not the partial static `counter2`,
and the staging queue of `Counter` is emptied. -/
theorem C25_staged_partner_is_taken :
    lateSingleton.staged 9 3 = [0] ∧ lateSingleton.partialStatics 9 3 = [1] ∧
    ((lateSingleton.novelTupleCreators 9).reuseOnStages 3).map
        (fun f => f [⟨2, 0⟩] 2 (lateSingleton.stagesOf 2 1)) = some true ∧
    (InitProp lateSingleton ⟨2, 0⟩ [⟨2, 0⟩]).map (fun s => (s.novelTuples 9, s.staged 9 3)) =
      some ([[⟨2, 0⟩, ⟨3, 0⟩]], []) :=
  ⟨rfl, rfl, rfl, rfl⟩

/-! ## Assembly is safe -/

theorem mhas_mset {κ α : Type} [DecidableEq κ] (k k' : κ) (v : α) (m : List (κ × α)) :
    mhas k' (mset k v m) = (decide (k' = k) || mhas k' m) := by
  by_cases h : k' = k
  · subst h
    simp [mhas, mfind_mset_same]
  · simp [mhas, mfind_mset_other _ _ _ _ h, h]

/-- When the completeness loop does not rule the tuple out, every type of the typeset other than
the added one has a partial-static neighbour or a non-empty staging queue. -/
theorem completenessLoop_covered (sun : SunId) (stages : GroupSet) (p : PropTypeId)
    (ts : List PropTypeId) (s : State) (psn : List (PropTypeId × PropIdRaw)) (s' : State)
    (psn' : List (PropTypeId × PropIdRaw)) (ro : Bool)
    (h : completenessLoop sun stages p ts s psn = some (s', psn', ro)) :
    (∀ k, mhas k psn = true → mhas k psn' = true) ∧
    (ro = false → ∀ q ∈ ts, q ≠ p → mhas q psn' = true ∨ s.staged sun q ≠ []) := by
  induction ts generalizing s psn with
  | nil =>
    simp only [completenessLoop, Option.some.injEq, Prod.mk.injEq] at h
    obtain ⟨-, h2, -⟩ := h
    subst h2
    exact ⟨fun _ hk => hk, fun _ q hq => by simp at hq⟩
  | cons ptid rest ih =>
    by_cases hp : ptid = p
    · simp only [completenessLoop, hp, if_true] at h
      obtain ⟨g1, g2⟩ := ih s psn h
      refine ⟨g1, fun hro q hq hne => ?_⟩
      simp only [List.mem_cons] at hq
      rcases hq with hq | hq
      · exact absurd (hq.trans hp) hne
      · exact g2 hro q hq hne
    · simp only [completenessLoop, hp, if_false] at h
      have hst := staged_touch s sun ptid
      by_cases hem : (mgetD ptid []
          (upd s.stagingPropTuples sun (mtouch ptid [] (s.stagingPropTuples sun)) sun)).isEmpty
          = true
      · rw [if_pos hem] at h
        cases hfp : FindPartialStatic sun stages p ptid (s.partialStatics sun ptid)
            { s with
              stagingPropTuples :=
                upd s.stagingPropTuples sun (mtouch ptid [] (s.stagingPropTuples sun)) } with
        | none =>
          rw [hfp] at h
          simp at h
        | some r =>
          obtain ⟨s2, found⟩ := r
          rw [hfp] at h
          obtain ⟨-, f2, -⟩ := FindPartialStatic_found _ _ _ _ _ _ _ _ hfp
          have hq2 : ∀ k, s2.staged sun k = s.staged sun k := by
            intro k
            show mgetD k [] (s2.stagingPropTuples sun) = _
            rw [f2]
            exact hst k
          cases found with
          | none =>
            simp only [Option.some.injEq, Prod.mk.injEq] at h
            obtain ⟨-, h2, h3⟩ := h
            subst h2 h3
            exact ⟨fun _ hk => hk, fun hro => absurd hro (by simp)⟩
          | some ps =>
            simp only [] at h
            obtain ⟨g1, g2⟩ := ih s2 _ h
            refine ⟨fun k hk => g1 k (by rw [mhas_mset, hk]; simp), fun hro q hq hne => ?_⟩
            simp only [List.mem_cons] at hq
            rcases hq with hq | hq
            · left
              apply g1
              rw [mhas_mset, hq]
              simp
            · rcases g2 hro q hq hne with g | g
              · exact Or.inl g
              · right
                rw [← hq2 q]
                exact g
      · rw [if_neg hem] at h
        obtain ⟨g1, g2⟩ := ih _ _ h
        refine ⟨g1, fun hro q hq hne => ?_⟩
        simp only [List.mem_cons] at hq
        rcases hq with hq | hq
        · right
          intro hnil
          apply hem
          rw [hst ptid, ← hq, hnil]
          rfl
        · rcases g2 hro q hq hne with g | g
          · exact Or.inl g
          · right
            intro hnil
            apply g
            show mgetD q [] _ = []
            rw [hst q]
            exact hnil

/-- C29: assembly never reads an empty list.  For a typeset `ts` of pairwise distinct types,
when the completeness loop and the neighbour loop of the search for a SunLambda both end
without ruling the tuple out, every type of `ts` other than the considered one has a
partial-static neighbour, or has a non-empty list of compatible neighbours and a non-empty
staging queue; and the assembly loop, which calls `back()` on the former and `pop_back()` on
the latter, is defined. -/
theorem C29_assembly_reads_no_empty_list (consider : GlobalPropId) (ts : Typeset) (sun : SunId)
    (stages : GroupSet) (s1 s2 : State) (psn : List (PropTypeId × PropIdRaw))
    (cn : List (PropTypeId × List PropIdRaw)) (hnd : ts.Nodup)
    (hcl : completenessLoop sun stages consider.typeId ts s1 [] = some (s2, psn, false))
    (hnl : neighborLoop s2 sun consider.typeId psn (s2.stagingPropTuples sun) [] = (cn, false)) :
    (∀ p ∈ ts, p ≠ consider.typeId →
      mhas p psn = true ∨
        (mgetD p [] cn ≠ [] ∧ mgetD p [] (s2.stagingPropTuples sun) ≠ [])) ∧
    ∃ pn tuple added,
      assemble consider psn cn ts (s2.stagingPropTuples sun) [] 0 0 = some (pn, tuple, added) := by
  obtain ⟨-, hcov⟩ := completenessLoop_covered _ _ _ _ _ _ _ _ _ hcl
  obtain ⟨-, -, -, hq, -⟩ := completenessLoop_effect _ _ _ _ _ _ _ _ _ hcl
  obtain ⟨-, hsound⟩ := neighborLoop_sound _ _ _ _ _ _ _ hnl
  have hall : ∀ p ∈ ts, p ≠ consider.typeId → mfind p psn = none →
      mgetD p [] cn ≠ [] ∧ mgetD p [] (s2.stagingPropTuples sun) ≠ [] := by
    intro p hp hne hps
    rcases hcov rfl p hp hne with h | h
    · simp [mhas, hps] at h
    · have hq2 : mgetD p [] (s2.stagingPropTuples sun) ≠ [] := by
        intro e
        apply h
        rw [← hq p]
        exact e
      obtain ⟨v, hv⟩ := mfind_of_mhas _ _ (mhas_of_mgetD_ne_nil _ _ hq2)
      exact ⟨hsound p v (mem_of_mfind _ _ _ hv) hne (by simp [mhas, hps]), hq2⟩
  refine ⟨?_, ?_⟩
  · intro p hp hne
    cases hps : mfind p psn with
    | none => exact Or.inr (hall p hp hne hps)
    | some v => exact Or.inl (by simp [mhas, hps])
  · obtain ⟨pn, tuple, added, ha, -⟩ := assemble_defined consider psn cn ts
      (s2.stagingPropTuples sun) [] 0 0 hnd hall
    exact ⟨pn, tuple, added, ha⟩

/-- Witness of C29: `a1` is staged under `Pair`, and the search for `Pair` runs for `b1`. -/
theorem C29_assembly_reads_no_empty_list_witness :
    ([0, 1] : Typeset).Nodup ∧
    completenessLoop 7 [⟨2, 0⟩] 1 [0, 1] pairStaged [] = some (pairStaged, [], false) ∧
    neighborLoop pairStaged 7 1 [] (pairStaged.stagingPropTuples 7) [] = ([(0, [0])], false) ∧
    (∀ p ∈ ([0, 1] : Typeset), p ≠ 1 →
      mhas p ([] : List (PropTypeId × PropIdRaw)) = true ∨
        (mgetD p [] [(0, [0])] ≠ [] ∧ mgetD p [] (pairStaged.stagingPropTuples 7) ≠ [])) ∧
    ∃ pn tuple added,
      assemble ⟨1, 0⟩ [] [(0, [0])] [0, 1] (pairStaged.stagingPropTuples 7) [] 0 0 =
        some (pn, tuple, added) := by
  have hcl : completenessLoop 7 [⟨2, 0⟩] 1 [0, 1] pairStaged [] = some (pairStaged, [], false) := by
    apply completenessLoop_full
    intro p hp hne
    simp only [List.mem_cons, List.mem_singleton, List.not_mem_nil, or_false] at hp
    rcases hp with hp | hp
    · subst hp
      exact (by decide : ([0] : List PropIdRaw) ≠ [])
    · exact absurd hp hne
  exact ⟨by decide, hcl, rfl,
    C29_assembly_reads_no_empty_list ⟨1, 0⟩ [0, 1] 7 [⟨2, 0⟩] pairStaged pairStaged []
      [(0, [0])] (by decide) hcl rfl⟩

/-! ## Staged partners are consumed by a formed tuple only -/

theorem QueuesKept.reflQueues (s : State) : QueuesKept s s :=
  fun _ => ⟨[], by simp, fun _ _ => ⟨[], by simp⟩⟩

theorem QueuesKept.transQueues {s s1 s2 : State} (h1 : QueuesKept s s1)
    (h2 : QueuesKept s1 s2) : QueuesKept s s2 := by
  intro O
  obtain ⟨n1, e1, q1⟩ := h1 O
  obtain ⟨n2, e2, q2⟩ := h2 O
  refine ⟨n1 ++ n2, by rw [e2, e1, List.append_assoc], ?_⟩
  intro hnil k
  rw [List.append_eq_nil] at hnil
  obtain ⟨x1, hx1⟩ := q1 hnil.1 k
  obtain ⟨x2, hx2⟩ := q2 hnil.2 k
  exact ⟨x1 ++ x2, by rw [hx2, hx1, List.append_assoc]⟩

/-- `FindPartialStatic` changes the stage index only. -/
theorem FindPartialStatic_shape (sun : SunId) (stages : GroupSet) (p ptid : PropTypeId)
    (l : List PropIdRaw) (s s' : State) (found : Option PropIdRaw)
    (h : FindPartialStatic sun stages p ptid l s = some (s', found)) :
    ∃ pq, s' = { s with ptpsq := pq } := by
  induction l generalizing s with
  | nil =>
    simp only [FindPartialStatic, Option.some.injEq, Prod.mk.injEq] at h
    exact ⟨s.ptpsq, h.1.symm⟩
  | cons ps rest ih =>
    cases hr : (s.novelTupleCreators sun).reuseOnStages ptid with
    | none => simp [FindPartialStatic, hr] at h
    | some reuse =>
      simp only [FindPartialStatic, hr] at h
      split at h
      · simp only [Option.some.injEq, Prod.mk.injEq] at h
        exact ⟨_, h.1.symm⟩
      · obtain ⟨pq, e⟩ := ih _ h
        exact ⟨pq, e⟩

/-- The completeness loop changes the stage index and the staging map of the SunLambda only,
and every staging queue reads as before. -/
theorem completenessLoop_shape (sun : SunId) (stages : GroupSet) (p : PropTypeId)
    (ts : List PropTypeId) (s : State) (psn : List (PropTypeId × PropIdRaw)) (s' : State)
    (psn' : List (PropTypeId × PropIdRaw)) (ro : Bool)
    (h : completenessLoop sun stages p ts s psn = some (s', psn', ro)) :
    ∃ pq st, s' = { s with ptpsq := pq, stagingPropTuples := st } ∧
      (∀ O, O ≠ sun → st O = s.stagingPropTuples O) ∧
      ∀ k, mgetD k [] (st sun) = mgetD k [] (s.stagingPropTuples sun) := by
  induction ts generalizing s psn with
  | nil =>
    simp only [completenessLoop, Option.some.injEq, Prod.mk.injEq] at h
    exact ⟨s.ptpsq, s.stagingPropTuples, h.1.symm, fun _ _ => rfl, fun _ => rfl⟩
  | cons ptid rest ih =>
    by_cases hp : ptid = p
    · simp only [completenessLoop, hp, if_true] at h
      exact ih s psn h
    · simp only [completenessLoop, hp, if_false] at h
      have hother : ∀ O, O ≠ sun →
          upd s.stagingPropTuples sun (mtouch ptid [] (s.stagingPropTuples sun)) O =
            s.stagingPropTuples O := fun O hO => upd_other _ _ _ _ hO
      have hread : ∀ k, mgetD k []
          (upd s.stagingPropTuples sun (mtouch ptid [] (s.stagingPropTuples sun)) sun) =
            mgetD k [] (s.stagingPropTuples sun) := by
        intro k
        rw [upd_same, mgetD_mtouch]
      split at h
      · cases hfp : FindPartialStatic sun stages p ptid (s.partialStatics sun ptid)
            { s with
              stagingPropTuples :=
                upd s.stagingPropTuples sun (mtouch ptid [] (s.stagingPropTuples sun)) } with
        | none =>
          rw [hfp] at h
          simp at h
        | some r =>
          obtain ⟨s2, found⟩ := r
          rw [hfp] at h
          obtain ⟨pq2, e2⟩ := FindPartialStatic_shape _ _ _ _ _ _ _ _ hfp
          cases found with
          | none =>
            simp only [Option.some.injEq, Prod.mk.injEq] at h
            refine ⟨pq2, _, ?_, hother, hread⟩
            rw [← h.1, e2]
          | some ps =>
            simp only [] at h
            obtain ⟨pq, st, e, o, rd⟩ := ih s2 _ h
            subst e2
            refine ⟨pq, st, e, fun O hO => (o O hO).trans (hother O hO),
              fun k => (rd k).trans (hread k)⟩
      · obtain ⟨pq, st, e, o, rd⟩ := ih _ _ h
        exact ⟨pq, st, e, fun O hO => (o O hO).trans (hother O hO),
          fun k => (rd k).trans (hread k)⟩

/-- The formation of a tuple appends one tuple to the tuple store of the SunLambda and leaves
the tuple stores and staging maps of the other SunLambdas as they were. -/
theorem formTuple_appends (consider : GlobalPropId) (ts : Typeset) (sun : SunId) (s2 : State)
    (psn : List (PropTypeId × PropIdRaw)) (cn : List (PropTypeId × List PropIdRaw))
    (s' : State) (h : formTuple consider ts sun s2 psn cn = some s') :
    (∃ tuple, s'.novelTuples sun = s2.novelTuples sun ++ [tuple]) ∧
    ∀ O, O ≠ sun → s'.novelTuples O = s2.novelTuples O ∧
      s'.stagingPropTuples O = s2.stagingPropTuples O := by
  unfold formTuple at h
  cases ha : assemble consider psn cn ts (s2.stagingPropTuples sun) [] 0 0 with
  | none => simp [ha] at h
  | some r =>
    obtain ⟨pn, tuple, added⟩ := r
    cases hs : setAt tuple added consider with
    | none => simp [ha, hs] at h
    | some novelTuple =>
      simp only [ha, hs] at h
      have key : ∀ s3 : State,
          s3.novelTuples = upd s2.novelTuples sun (s2.novelTuples sun ++ [novelTuple]) →
          s3.stagingPropTuples = upd s2.stagingPropTuples sun pn →
          (∃ tuple, s3.novelTuples sun = s2.novelTuples sun ++ [tuple]) ∧
          ∀ O, O ≠ sun → s3.novelTuples O = s2.novelTuples O ∧
            s3.stagingPropTuples O = s2.stagingPropTuples O := by
        intro s3 e1 e2
        refine ⟨⟨novelTuple, by rw [e1, upd_same]⟩, fun O hO => ?_⟩
        rw [e1, e2, upd_other _ _ _ _ hO, upd_other _ _ _ _ hO]
        exact ⟨rfl, rfl⟩
      split at h
      · simp only [Option.some.injEq] at h
        subst h
        exact key _ rfl rfl
      · simp only [Option.some.injEq] at h
        subst h
        exact key _ rfl rfl

theorem queuesKept_of_stage (consider : GlobalPropId) (sun : SunId) (flag : Bool)
    (s s2 : State) (hnt : s2.novelTuples = s.novelTuples)
    (hq : ∀ O k, s2.staged O k = s.staged O k) :
    QueuesKept s (stageAdded consider sun flag s2) := by
  obtain ⟨-, a2, a3, -⟩ := stageAdded_spec consider sun flag s2
  obtain ⟨b1, b2, -⟩ := stageAdded_staged consider sun flag s2
  intro O
  refine ⟨[], by rw [a3, hnt, List.append_nil], fun _ k => ?_⟩
  by_cases hO : O = sun
  · subst hO
    by_cases hk : k = consider.typeId
    · subst hk
      rw [b1, hq]
      cases flag with
      | false => exact ⟨[], by simp⟩
      | true => exact ⟨[consider.id], by simp⟩
    · exact ⟨[], by rw [b2 k hk, hq, List.append_nil]⟩
  · refine ⟨[], ?_⟩
    rw [staged_congr s2 _ O (a2.staging O hO), hq, List.append_nil]

/-- The search for one SunLambda consumes staged props only when it forms a tuple. -/
theorem considerSunLambda_kept (consider : GlobalPropId) (ts : Typeset) (sun : SunId)
    (s s' : State) (h : considerSunLambda consider ts sun s = some s') : QueuesKept s s' := by
  unfold considerSunLambda at h
  simp only [] at h
  have hps : (IsPropCompatibleWithSunLambda s sun consider.typeId consider.id &&
      ((s.novelTupleCreators sun).reuseOnStages consider.typeId).isSome) = true →
      ((s.novelTupleCreators sun).reuseOnStages consider.typeId).isSome = true := by
    intro h
    simp only [Bool.and_eq_true] at h
    exact h.2
  obtain ⟨-, -, hst1, hnt1, -⟩ := addPartialStatic_spec consider sun
    (IsPropCompatibleWithSunLambda s sun consider.typeId consider.id &&
      ((s.novelTupleCreators sun).reuseOnStages consider.typeId).isSome) s hps
  generalize addPartialStatic consider sun
    (IsPropCompatibleWithSunLambda s sun consider.typeId consider.id &&
      ((s.novelTupleCreators sun).reuseOnStages consider.typeId).isSome) s = s1 at *
  generalize (IsPropCompatibleWithSunLambda s sun consider.typeId consider.id &&
      !(IsPropCompatibleWithSunLambda s sun consider.typeId consider.id &&
        ((s.novelTupleCreators sun).reuseOnStages consider.typeId).isSome)) = flag at *
  have hq1 : ∀ O k, s1.staged O k = s.staged O k := fun O k => by
    simp only [State.staged, hst1]
  by_cases hf : IsPropCompatibleWithSunLambda s sun consider.typeId consider.id = true
  · rw [if_pos hf] at h
    cases hcl : completenessLoop sun (mgetD consider.id [] (s.ptpsq consider.typeId))
        consider.typeId ts s1 [] with
    | none => simp [hcl] at h
    | some r =>
      obtain ⟨s2, psn, ro⟩ := r
      simp only [hcl] at h
      obtain ⟨pq, st, e, o, rd⟩ := completenessLoop_shape _ _ _ _ _ _ _ _ _ hcl
      have hnt2 : s2.novelTuples = s.novelTuples := by
        rw [e]
        exact hnt1
      have hq2 : ∀ O k, s2.staged O k = s.staged O k := by
        intro O k
        rw [← hq1 O k, e]
        show mgetD k [] (st O) = mgetD k [] (s1.stagingPropTuples O)
        by_cases hO : O = sun
        · rw [hO]
          exact rd k
        · rw [o O hO]
      rcases finishSearch_effect _ _ _ _ _ _ _ _ h with hno | ⟨-, cn, -, hft⟩
      · rw [hno]
        exact queuesKept_of_stage consider sun flag s s2 hnt2 hq2
      · obtain ⟨⟨tuple, ht⟩, hothers⟩ := formTuple_appends _ _ _ _ _ _ _ hft
        intro O
        by_cases hO : O = sun
        · subst hO
          exact ⟨[tuple], by rw [ht, hnt2], fun hnil => absurd hnil (by simp)⟩
        · obtain ⟨c1, c2⟩ := hothers O hO
          refine ⟨[], by rw [c1, hnt2, List.append_nil], fun _ k => ⟨[], ?_⟩⟩
          rw [staged_congr s2 s' O c2, hq2, List.append_nil]
  · rw [if_neg hf] at h
    simp only [] at h
    rcases finishSearch_effect _ _ _ _ _ _ _ _ h with hno | ⟨hro, -⟩
    · rw [hno]
      exact queuesKept_of_stage consider sun flag s s1 hnt1 hq1
    · exact absurd hro (by simp)

theorem considerSunLambdas_kept (consider : GlobalPropId) (ts : Typeset) (suns : List SunId)
    (s s' : State) (h : considerSunLambdas consider ts suns s = some s') : QueuesKept s s' := by
  induction suns generalizing s with
  | nil =>
    simp only [considerSunLambdas, Option.some.injEq] at h
    subst h
    exact QueuesKept.reflQueues s
  | cons sun suns ih =>
    cases h1 : considerSunLambda consider ts sun s with
    | none => simp [considerSunLambdas, h1] at h
    | some s1 =>
      simp only [considerSunLambdas, h1] at h
      exact (considerSunLambda_kept consider ts sun s s1 h1).transQueues (ih s1 h)

theorem considerTypesets_kept (consider : GlobalPropId) (tss : List Typeset)
    (s s' : State) (h : considerTypesets consider tss s = some s') : QueuesKept s s' := by
  induction tss generalizing s with
  | nil =>
    simp only [considerTypesets, Option.some.injEq] at h
    subst h
    exact QueuesKept.reflQueues s
  | cons ts tss ih =>
    cases h1 : considerSunLambdas consider ts (s.typesetSunLambdas ts) s with
    | none => simp [considerTypesets, h1] at h
    | some s1 =>
      simp only [considerTypesets, h1] at h
      exact (considerSunLambdas_kept consider ts _ s s1 h1).transQueues (ih s1 h)

/-- `ConsiderProp` consumes staged props of a SunLambda only when it appends a tuple to the
tuple store of that SunLambda. -/
theorem considerProp_kept (s s' : State) (consider : GlobalPropId)
    (h : ConsiderProp s consider = some s') : QueuesKept s s' := by
  have hk := considerTypesets_kept consider _ _ s' h
  intro O
  exact hk O

/-- C28 on the code: there is no state and considered prop for which `ConsiderProp` returns
without having appended a tuple to the tuple store of a SunLambda `O` while a prop that was
staged under `O` is no longer in its staging queue. -/
theorem C28_no_partner_lost_without_tuple :
    ¬ ∃ (s s' : State) (consider : GlobalPropId) (O : SunId) (T : PropTypeId) (p : PropIdRaw),
      ConsiderProp s consider = some s' ∧ s'.novelTuples O = s.novelTuples O ∧
      p ∈ s.staged O T ∧ p ∉ s'.staged O T := by
  rintro ⟨s, s', consider, O, T, p, h, hno, hin, hout⟩
  obtain ⟨new, e, q⟩ := considerProp_kept s s' consider h O
  have hnil : new = [] := by
    rw [hno] at e
    exact List.self_eq_append_right.1 e
  obtain ⟨extra, hx⟩ := q hnil T
  apply hout
  rw [hx]
  exact List.mem_append_left _ hin

/-- C28, amended: staged partners are kept when no tuple is formed.  In a state that satisfies
the standing invariants `ConsiderProp` is defined, and for every SunLambda `O` to whose tuple
store it appends no tuple, every staging queue of `O` holds afterwards all the entries it held
before, in the same order, followed at most by new entries. -/
theorem C28_queues_kept_without_tuple (s : State) (consider : GlobalPropId)
    (hmi : MappedIndexed s) (htd : TypesetsDistinct s) (hrt : ReuseTotal s) :
    ∃ s', ConsiderProp s consider = some s' ∧
      ∀ O, s'.novelTuples O = s.novelTuples O →
        ∀ k, ∃ extra, s'.staged O k = s.staged O k ++ extra := by
  obtain ⟨s', h, -⟩ := considerProp_defined s consider hmi htd hrt
  refine ⟨s', h, fun O hno k => ?_⟩
  obtain ⟨new, e, q⟩ := considerProp_kept s s' consider h O
  have hnil : new = [] := by
    rw [hno] at e
    exact List.self_eq_append_right.1 e
  exact q hnil k

/-- Witness of C28 as amended: `a1` is staged under `Pair`, and `a2` is considered. -/
theorem C28_queues_kept_without_tuple_witness :
    MappedIndexed pairStaged ∧ TypesetsDistinct pairStaged ∧ ReuseTotal pairStaged ∧
    (ConsiderProp pairStaged ⟨0, 1⟩).map (fun s => (s.novelTuples 7, s.staged 7 0)) =
      some ([], [0, 1]) ∧
    ∃ s', ConsiderProp pairStaged ⟨0, 1⟩ = some s' ∧
      ∀ O, s'.novelTuples O = pairStaged.novelTuples O →
        ∀ k, ∃ extra, s'.staged O k = pairStaged.staged O k ++ extra := by
  obtain ⟨-, -, hmi, htd⟩ := pairStaged_registry
  exact ⟨hmi, htd, pairStaged_reuseTotal, rfl,
    C28_queues_kept_without_tuple pairStaged ⟨0, 1⟩ hmi htd pairStaged_reuseTotal⟩

/-! ## `RemovePropsDelayed`: the release of removed props -/

theorem mfind_merase_other {κ α : Type} [DecidableEq κ] (k k' : κ) (m : List (κ × α))
    (h : k' ≠ k) : mfind k' (merase k m) = mfind k' m := by
  induction m with
  | nil => rfl
  | cons e m ih =>
    obtain ⟨a, v⟩ := e
    by_cases ha : a = k
    · subst ha
      simp only [merase, if_true, mfind, if_neg (fun e : a = k' => h e.symm)]
    · simp only [merase, if_neg ha, mfind, ih]

theorem mkeys_merase_sublist {κ α : Type} [DecidableEq κ] (k : κ) (m : List (κ × α)) :
    (mkeys (merase k m)).Sublist (mkeys m) := by
  induction m with
  | nil => exact List.Sublist.refl _
  | cons e m ih =>
    obtain ⟨a, v⟩ := e
    by_cases ha : a = k
    · simp only [merase, ha, if_true]
      exact List.sublist_cons_self _ _
    · simp only [merase, if_neg ha]
      exact List.Sublist.cons₂ _ ih

theorem mfind_none_iff {κ α : Type} [DecidableEq κ] (k : κ) (m : List (κ × α)) :
    mfind k m = none ↔ k ∉ mkeys m := by
  rw [← mhas_iff_mem_mkeys]
  cases h : mfind k m <;> simp [mhas, h]

theorem mfind_merase_of_none {κ α : Type} [DecidableEq κ] (k k' : κ) (m : List (κ × α))
    (h : mfind k' m = none) : mfind k' (merase k m) = none := by
  rw [mfind_none_iff] at h ⊢
  exact fun hm => h ((mkeys_merase_sublist k m).subset hm)

theorem mfind_merase_self {κ α : Type} [DecidableEq κ] (k : κ) (m : List (κ × α))
    (hn : (mkeys m).Nodup) : mfind k (merase k m) = none := by
  induction m with
  | nil => rfl
  | cons e m ih =>
    obtain ⟨a, v⟩ := e
    have hk : mkeys ((a, v) :: m) = a :: mkeys m := rfl
    rw [hk, List.nodup_cons] at hn
    by_cases ha : a = k
    · subst ha
      simp only [merase, if_true]
      exact (mfind_none_iff _ _).2 hn.1
    · simp only [merase, if_neg ha, mfind, ih hn.2]

theorem freeStages_mono (l : GroupSet) (buffer : Group → IdPool) (g : Group) (x : Instance)
    (h : x ∈ (buffer g).freeIds) : x ∈ (freeStages l buffer g).freeIds := by
  induction l generalizing buffer with
  | nil => exact h
  | cons stage rest ih =>
    apply ih
    by_cases hg : g = stage.group
    · subst hg
      rw [upd_same]
      exact List.mem_cons_of_mem _ h
    · rw [upd_other _ _ _ _ hg]
      exact h

theorem freeStages_mem (l : GroupSet) (buffer : Group → IdPool) (stage : Stage)
    (h : stage ∈ l) : stage.inst ∈ (freeStages l buffer stage.group).freeIds := by
  induction l generalizing buffer with
  | nil => simp at h
  | cons a rest ih =>
    simp only [List.mem_cons] at h
    rcases h with h | h
    · subst h
      show stage.inst ∈ (freeStages rest
        (upd buffer stage.group ((buffer stage.group).free stage.inst)) stage.group).freeIds
      apply freeStages_mono
      rw [upd_same]
      exact List.mem_cons_self _ _
    · exact ih _ h

/-- What the release of the props `ids` of type `t` does to the stage index and to the pools:
the entries of other props are as before, the released props have no entry (the stage index
being a map), the free lists only grow, and they hold every instance of a stage of a released
prop. -/
theorem freeProps_index (t : PropTypeId) (ids : List PropIdRaw) (s : State) :
    (∀ T, T ≠ t → (freeProps t ids s).ptpsq T = s.ptpsq T) ∧
    (∀ r, r ∉ ids → mfind r ((freeProps t ids s).ptpsq t) = mfind r (s.ptpsq t)) ∧
    (∀ r, mfind r (s.ptpsq t) = none → mfind r ((freeProps t ids s).ptpsq t) = none) ∧
    ((mkeys (s.ptpsq t)).Nodup → (mkeys ((freeProps t ids s).ptpsq t)).Nodup ∧
      ∀ r ∈ ids, mfind r ((freeProps t ids s).ptpsq t) = none) ∧
    (∀ g x, x ∈ (s.instanceBuffer g).freeIds →
      x ∈ ((freeProps t ids s).instanceBuffer g).freeIds) ∧
    (∀ r ∈ ids, ∀ stage ∈ mgetD r [] (s.ptpsq t),
      stage.inst ∈ ((freeProps t ids s).instanceBuffer stage.group).freeIds) := by
  induction ids generalizing s with
  | nil => exact ⟨fun _ _ => rfl, fun _ _ => rfl, fun _ h => h, fun h => ⟨h, by simp⟩,
      fun _ _ h => h, by simp⟩
  | cons propId rest ih =>
    obtain ⟨a, b, c, d, e, f⟩ := ih
      { s with
        freed := s.freed ++ [⟨t, propId⟩]
        instanceBuffer := freeStages (mgetD propId [] (s.ptpsq t)) s.instanceBuffer
        ptpsq := upd s.ptpsq t (merase propId (s.ptpsq t)) }
    have hpq : upd s.ptpsq t (merase propId (s.ptpsq t)) t = merase propId (s.ptpsq t) :=
      upd_same _ _ _
    refine ⟨?_, ?_, ?_, ?_, ?_, ?_⟩
    · intro T hT
      show (freeProps t rest _).ptpsq T = _
      rw [a T hT]
      exact upd_other _ _ _ _ hT
    · intro r hr
      simp only [List.mem_cons, not_or] at hr
      show mfind r ((freeProps t rest _).ptpsq t) = _
      rw [b r hr.2]
      show mfind r (upd s.ptpsq t _ t) = _
      rw [hpq, mfind_merase_other _ _ _ hr.1]
    · intro r hr
      apply c
      show mfind r (upd s.ptpsq t _ t) = none
      rw [hpq]
      exact mfind_merase_of_none _ _ _ hr
    · intro hn
      have hn1 : (mkeys (upd s.ptpsq t (merase propId (s.ptpsq t)) t)).Nodup := by
        rw [hpq]
        exact hn.sublist (mkeys_merase_sublist _ _)
      obtain ⟨d1, d2⟩ := d hn1
      refine ⟨d1, ?_⟩
      intro r hr
      simp only [List.mem_cons] at hr
      by_cases hrp : r = propId
      · subst hrp
        apply c
        show mfind r (upd s.ptpsq t _ t) = none
        rw [hpq]
        exact mfind_merase_self _ _ hn
      · rcases hr with hr | hr
        · exact absurd hr hrp
        · exact d2 r hr
    · intro g x hx
      apply e
      exact freeStages_mono _ _ _ _ hx
    · intro r hr stage hs
      simp only [List.mem_cons] at hr
      by_cases hrp : r = propId
      · subst hrp
        apply e
        exact freeStages_mem _ _ _ hs
      · rcases hr with hr | hr
        · exact absurd hr hrp
        · apply f r hr stage
          show stage ∈ mgetD r [] (upd s.ptpsq t _ t)
          rw [hpq]
          simp only [mgetD, mfind_merase_other _ _ _ hrp]
          exact hs

/-- What the second loop of `RemovePropsDelayed` does to the stage index and to the pools. -/
theorem freeAll_index (l : List (PropTypeId × List PropIdRaw)) (s : State) :
    (∀ t r, (∀ ids, (t, ids) ∈ l → r ∉ ids) →
      mfind r ((freeAll l s).ptpsq t) = mfind r (s.ptpsq t)) ∧
    (∀ t r, mfind r (s.ptpsq t) = none → mfind r ((freeAll l s).ptpsq t) = none) ∧
    (StageIndexKeyed s → StageIndexKeyed (freeAll l s) ∧
      ∀ t ids r, (t, ids) ∈ l → r ∈ ids → mfind r ((freeAll l s).ptpsq t) = none) ∧
    (∀ g x, x ∈ (s.instanceBuffer g).freeIds →
      x ∈ ((freeAll l s).instanceBuffer g).freeIds) ∧
    (∀ t ids r, (t, ids) ∈ l → r ∈ ids → ∀ stage ∈ mgetD r [] (s.ptpsq t),
      stage.inst ∈ ((freeAll l s).instanceBuffer stage.group).freeIds) := by
  induction l generalizing s with
  | nil => exact ⟨fun _ _ _ => rfl, fun _ _ h => h, fun h => ⟨h, by simp⟩, fun _ _ h => h,
      by simp⟩
  | cons e l ih =>
    obtain ⟨t0, ids0⟩ := e
    obtain ⟨a, b, c, d, e, f⟩ := freeProps_index t0 ids0 s
    obtain ⟨A, B, C, D, E⟩ := ih (freeProps t0 ids0 s)
    have hpq : ∀ t r, (t = t0 → r ∉ ids0) →
        mfind r ((freeProps t0 ids0 s).ptpsq t) = mfind r (s.ptpsq t) := by
      intro t r h
      by_cases ht : t = t0
      · subst ht
        exact b r (h rfl)
      · rw [a t ht]
    have hnone : ∀ t r, mfind r (s.ptpsq t) = none →
        mfind r ((freeProps t0 ids0 s).ptpsq t) = none := by
      intro t r h
      by_cases ht : t = t0
      · subst ht
        exact c r h
      · rw [a t ht]
        exact h
    refine ⟨?_, ?_, ?_, ?_, ?_⟩
    · intro t r h
      show mfind r ((freeAll l (freeProps t0 ids0 s)).ptpsq t) = _
      rw [A t r (fun ids hm => h ids (List.mem_cons_of_mem _ hm))]
      exact hpq t r (fun ht => h ids0 (by rw [ht]; simp))
    · intro t r h
      exact B t r (hnone t r h)
    · intro hk
      have hk1 : StageIndexKeyed (freeProps t0 ids0 s) := by
        intro t
        by_cases ht : t = t0
        · subst ht
          exact (d (hk t)).1
        · rw [a t ht]
          exact hk t
      obtain ⟨C1, C2⟩ := C hk1
      refine ⟨C1, ?_⟩
      intro t ids r hm hr
      simp only [List.mem_cons, Prod.mk.injEq] at hm
      rcases hm with ⟨ht, hids⟩ | hm
      · subst ht hids
        exact B t r ((d (hk t)).2 r hr)
      · exact C2 t ids r hm hr
    · intro g x hx
      exact D g x (e g x hx)
    · intro t ids r hm hr stage hs
      simp only [List.mem_cons, Prod.mk.injEq] at hm
      have hfirst : t = t0 → r ∈ ids0 →
          stage.inst ∈ ((freeAll l (freeProps t0 ids0 s)).instanceBuffer stage.group).freeIds := by
        intro ht hr0
        subst ht
        exact D _ _ (f r hr0 stage hs)
      rcases hm with ⟨ht, hids⟩ | hm
      · subst hids
        exact hfirst ht hr
      · by_cases hin : t = t0 ∧ r ∈ ids0
        · exact hfirst hin.1 hin.2
        · apply E t ids r hm hr stage
          have := hpq t r (fun ht hr0 => hin ⟨ht, hr0⟩)
          simp only [mgetD, this]
          exact hs

theorem breakMember_index (sun : SunId) (s : State) (g : GlobalPropId) :
    (breakMember sun s g).ptpsq = s.ptpsq ∧
      (breakMember sun s g).instanceBuffer = s.instanceBuffer := by
  unfold breakMember
  split
  · exact ⟨rfl, rfl⟩
  · split
    · exact ⟨rfl, rfl⟩
    · exact ⟨rfl, rfl⟩

theorem breakMembers_index (sun : SunId) (tuple : NovelTuple) (s : State) :
    (tuple.foldl (breakMember sun) s).ptpsq = s.ptpsq ∧
      (tuple.foldl (breakMember sun) s).instanceBuffer = s.instanceBuffer := by
  induction tuple generalizing s with
  | nil => exact ⟨rfl, rfl⟩
  | cons g tuple ih =>
    obtain ⟨h1, h2⟩ := breakMember_index sun s g
    obtain ⟨h3, h4⟩ := ih (breakMember sun s g)
    exact ⟨h3.trans h1, h4.trans h2⟩

theorem breakTuples_index (sun : SunId) (ds : List Nat) (s s' : State)
    (h : breakTuples sun ds s = some s') :
    s'.ptpsq = s.ptpsq ∧ s'.instanceBuffer = s.instanceBuffer := by
  induction ds generalizing s with
  | nil =>
    simp only [breakTuples, Option.some.injEq] at h
    subst h
    exact ⟨rfl, rfl⟩
  | cons index rest ih =>
    cases hn : nth (s.novelTuples sun) index with
    | none => simp [breakTuples, hn] at h
    | some tuple =>
      simp only [breakTuples, hn] at h
      obtain ⟨h1, h2⟩ := breakMembers_index sun tuple s
      split at h
      · simp only [Option.some.injEq] at h
        subst h
        exact ⟨h1, h2⟩
      · split at h
        · simp at h
        · obtain ⟨h3, h4⟩ := ih _ h
          exact ⟨h3.trans h1, h4.trans h2⟩

theorem breakAll_index (marks : List (SunId × List Nat)) (s s' : State)
    (h : breakAll marks s = some s') :
    s'.ptpsq = s.ptpsq ∧ s'.instanceBuffer = s.instanceBuffer := by
  induction marks generalizing s with
  | nil =>
    simp only [breakAll, Option.some.injEq] at h
    subst h
    exact ⟨rfl, rfl⟩
  | cons e marks ih =>
    obtain ⟨sun, indices⟩ := e
    cases h1 : breakTuples sun indices.reverse s with
    | none => simp [breakAll, h1] at h
    | some s1 =>
      simp only [breakAll, h1] at h
      obtain ⟨a1, a2⟩ := breakTuples_index sun _ s s1 h1
      obtain ⟨b1, b2⟩ := ih s1 h
      exact ⟨b1.trans a1, b2.trans a2⟩

/-- C21: flush finalisation.  From a state whose pending sets are sound (the removal set is a
map and the marked indices are positions of tuples with a pending member) and whose stage
index is a map, `RemovePropsDelayed` is defined; afterwards the removal set and the
breakup-marking set are empty, no prop that was pending removal has an entry in the stage
index, the free list of the group of every stage that such a prop held contains the instance of
that stage, and the entry and stage set of every prop that was not pending removal are as
before. -/
theorem C21_flush_finalisation (s : State) (hsound : PendingSound s)
    (hkeys : StageIndexKeyed s) :
    ∃ s', RemovePropsDelayed s = some s' ∧ s'.propsToRemove = [] ∧ s'.tuplesToBreakup = [] ∧
      (∀ g, s.pendingRemoval g = true → s'.tracked g.typeId g.id = false) ∧
      (∀ g, s.pendingRemoval g = true → ∀ stage ∈ s.stagesOf g.typeId g.id,
        stage.inst ∈ (s'.instanceBuffer stage.group).freeIds) ∧
      (∀ g, s.pendingRemoval g = false →
        s'.tracked g.typeId g.id = s.tracked g.typeId g.id ∧
        s'.stagesOf g.typeId g.id = s.stagesOf g.typeId g.id) := by
  obtain ⟨hn, hgood⟩ := hsound
  obtain ⟨sB, hB, hk⟩ := breakAll_spec s.tuplesToBreakup s hgood.1 (by
    intro sun indices hmem
    exact hgood.2 sun indices (mfind_of_mem_nodup sun indices _ hgood.1 hmem))
  obtain ⟨hpq, hbuf⟩ := breakAll_index _ _ _ hB
  obtain ⟨A, -, C, -, E⟩ := freeAll_index sB.propsToRemove sB
  have hkB : StageIndexKeyed sB := by
    intro t
    rw [hpq]
    exact hkeys t
  have hpending : ∀ g : GlobalPropId, s.pendingRemoval g = true →
      ∃ ids, (g.typeId, ids) ∈ sB.propsToRemove ∧ g.id ∈ ids := by
    intro g hg
    simp only [State.pendingRemoval, decide_eq_true_eq] at hg
    rw [hk.removal]
    cases hf : mfind g.typeId s.propsToRemove with
    | none => simp [mgetD, hf] at hg
    | some ids =>
      simp only [mgetD, hf, Option.getD_some] at hg
      exact ⟨ids, mem_of_mfind _ _ _ hf, hg⟩
  have hD : RemovePropsDelayed s =
      some { freeAll sB.propsToRemove sB with propsToRemove := [], tuplesToBreakup := [] } := by
    simp only [RemovePropsDelayed, hB]
  refine ⟨_, hD, rfl, rfl, ?_, ?_, ?_⟩
  · intro g hg
    obtain ⟨ids, hm, hr⟩ := hpending g hg
    show mhas g.id ((freeAll sB.propsToRemove sB).ptpsq g.typeId) = false
    simp only [mhas, (C hkB).2 g.typeId ids g.id hm hr, Option.isSome_none]
  · intro g hg stage hs
    obtain ⟨ids, hm, hr⟩ := hpending g hg
    show stage.inst ∈ ((freeAll sB.propsToRemove sB).instanceBuffer stage.group).freeIds
    apply E g.typeId ids g.id hm hr stage
    rw [hpq]
    exact hs
  · intro g hg
    have hfind : mfind g.id ((freeAll sB.propsToRemove sB).ptpsq g.typeId) =
        mfind g.id (s.ptpsq g.typeId) := by
      rw [A g.typeId g.id, hpq]
      intro ids hm hr
      rw [hk.removal] at hm
      have hf := mfind_of_mem_nodup g.typeId ids _ hn hm
      have : s.pendingRemoval g = true := by
        simp only [State.pendingRemoval, decide_eq_true_eq, mgetD, hf, Option.getD_some]
        exact hr
      rw [hg] at this
      exact absurd this (by simp)
    refine ⟨?_, ?_⟩
    · show mhas g.id ((freeAll sB.propsToRemove sB).ptpsq g.typeId) = mhas g.id _
      simp only [mhas, hfind]
    · show mgetD g.id [] ((freeAll sB.propsToRemove sB).ptpsq g.typeId) = mgetD g.id [] _
      simp only [mgetD, hfind]

theorem pendingA1_sound : PendingSound pendingA1 ∧ StageIndexKeyed pendingA1 := by
  have e1 : pendingA1.propsToRemove = [(0, [0])] := rfl
  have e2 : pendingA1.tuplesToBreakup = [] := rfl
  have e3 : pendingA1.ptpsq =
      upd (upd (fun _ => []) 0 [(0, [⟨1, 0⟩])]) 1 [(0, [⟨2, 0⟩])] := rfl
  refine ⟨⟨by rw [e1]; decide, ?_, ?_⟩, ?_⟩
  · rw [e2]
    exact List.nodup_nil
  · intro sun indices h
    rw [e2] at h
    simp [mfind] at h
  · intro t
    rw [e3]
    by_cases h1 : t = 1
    · subst h1
      rw [upd_same]
      decide
    · rw [upd_other _ _ _ _ h1]
      by_cases h0 : t = 0
      · subst h0
        rw [upd_same]
        decide
      · rw [upd_other _ _ _ _ h0]
        exact List.nodup_nil

/-- Witness of C21: `a1`, which holds the stage `(group 1, instance 0)`, is pending removal and
`b1` is not. -/
theorem C21_flush_finalisation_witness :
    PendingSound pendingA1 ∧ StageIndexKeyed pendingA1 ∧
    pendingA1.pendingRemoval ⟨0, 0⟩ = true ∧ pendingA1.pendingRemoval ⟨1, 0⟩ = false ∧
    pendingA1.stagesOf 0 0 = [⟨1, 0⟩] ∧
    (RemovePropsDelayed pendingA1).map
        (fun s => (s.tracked 0 0, s.stagesOf 1 0, (s.instanceBuffer 1).freeIds)) =
      some (false, [⟨2, 0⟩], [0]) ∧
    ∃ s', RemovePropsDelayed pendingA1 = some s' ∧ s'.propsToRemove = [] ∧
      s'.tuplesToBreakup = [] ∧
      (∀ g, pendingA1.pendingRemoval g = true → s'.tracked g.typeId g.id = false) ∧
      (∀ g, pendingA1.pendingRemoval g = true → ∀ stage ∈ pendingA1.stagesOf g.typeId g.id,
        stage.inst ∈ (s'.instanceBuffer stage.group).freeIds) ∧
      (∀ g, pendingA1.pendingRemoval g = false →
        s'.tracked g.typeId g.id = pendingA1.tracked g.typeId g.id ∧
        s'.stagesOf g.typeId g.id = pendingA1.stagesOf g.typeId g.id) :=
  ⟨pendingA1_sound.1, pendingA1_sound.2, rfl, rfl, rfl, rfl,
    C21_flush_finalisation pendingA1 pendingA1_sound.1 pendingA1_sound.2⟩

/-! ## A staged partner comes before a partial static -/

/-- The assembly loop over a typeset of pairwise distinct types removes exactly one entry from
the staging queue of every type that is not the considered one and has no partial-static
neighbour, and leaves the queues of the types outside the typeset as they were. -/
theorem assemble_consumes (consider : GlobalPropId) (psn : List (PropTypeId × PropIdRaw))
    (cn : List (PropTypeId × List PropIdRaw)) (rest : List PropTypeId)
    (pn : List (PropTypeId × List PropIdRaw)) (tuple : NovelTuple) (i added : Nat)
    (pn' : List (PropTypeId × List PropIdRaw)) (tuple' : NovelTuple) (added' : Nat)
    (hnd : rest.Nodup)
    (h : assemble consider psn cn rest pn tuple i added = some (pn', tuple', added')) :
    (∀ k ∈ rest, k ≠ consider.typeId → mfind k psn = none →
      (mgetD k [] pn).length = (mgetD k [] pn').length + 1) ∧
    (∀ k, k ∉ rest → mgetD k [] pn' = mgetD k [] pn) := by
  induction rest generalizing pn tuple i added with
  | nil =>
    simp only [assemble, Option.some.injEq, Prod.mk.injEq] at h
    obtain ⟨h1, -, -⟩ := h
    subst h1
    exact ⟨by simp, fun _ _ => rfl⟩
  | cons ptid rest ih =>
    rw [List.nodup_cons] at hnd
    have hsame : ∀ pn1 : List (PropTypeId × List PropIdRaw),
        ((∀ k ∈ rest, k ≠ consider.typeId → mfind k psn = none →
          (mgetD k [] pn1).length = (mgetD k [] pn').length + 1) ∧
          (∀ k, k ∉ rest → mgetD k [] pn' = mgetD k [] pn1)) →
        pn1 = pn → (ptid = consider.typeId ∨ mfind ptid psn ≠ none) →
        (∀ k ∈ ptid :: rest, k ≠ consider.typeId → mfind k psn = none →
          (mgetD k [] pn).length = (mgetD k [] pn').length + 1) ∧
        (∀ k, k ∉ ptid :: rest → mgetD k [] pn' = mgetD k [] pn) := by
      intro pn1 hih e hskip
      subst e
      obtain ⟨g1, g2⟩ := hih
      refine ⟨?_, fun k hk => g2 k (fun hm => hk (List.mem_cons_of_mem _ hm))⟩
      intro k hk hne hps
      simp only [List.mem_cons] at hk
      rcases hk with hk | hk
      · subst hk
        rcases hskip with hs | hs
        · exact absurd hs hne
        · exact absurd hps hs
      · exact g1 k hk hne hps
    by_cases hc : ptid = consider.typeId
    · simp only [assemble, hc, if_true] at h
      exact hsame pn (ih _ _ _ _ hnd.2 h) rfl (Or.inl hc)
    · simp only [assemble, hc, if_false] at h
      cases hps : mfind ptid psn with
      | some ps =>
        simp only [hps] at h
        exact hsame pn (ih _ _ _ _ hnd.2 h) rfl (Or.inr (by simp [hps]))
      | none =>
        simp only [hps] at h
        cases hb : back (mgetD ptid [] cn) with
        | none => simp [hb] at h
        | some n =>
          cases hq : popBack (mgetD ptid [] pn) with
          | none => simp [hb, hq] at h
          | some q =>
            simp only [hb, hq] at h
            obtain ⟨g1, g2⟩ := ih _ _ _ _ hnd.2 h
            obtain ⟨x, hx⟩ := popBack_spec _ _ hq
            refine ⟨?_, ?_⟩
            · intro k hk hne hpsk
              simp only [List.mem_cons] at hk
              by_cases hkp : k = ptid
              · subst hkp
                rw [g2 k hnd.1, mgetD_mset_same, hx]
                simp
              · rcases hk with hk | hk
                · exact absurd hk hkp
                · rw [← g1 k hk hne hpsk, mgetD_mset_other _ _ _ _ _ hkp]
            · intro k hk
              simp only [List.mem_cons, not_or] at hk
              rw [g2 k hk.2, mgetD_mset_other _ _ _ _ _ hk.1]

theorem formTuple_consumes (consider : GlobalPropId) (ts : Typeset) (sun : SunId) (s2 : State)
    (psn : List (PropTypeId × PropIdRaw)) (cn : List (PropTypeId × List PropIdRaw))
    (s' : State) (hnd : ts.Nodup) (h : formTuple consider ts sun s2 psn cn = some s') :
    ∀ k ∈ ts, k ≠ consider.typeId → mfind k psn = none →
      (s2.staged sun k).length = (s'.staged sun k).length + 1 := by
  unfold formTuple at h
  cases ha : assemble consider psn cn ts (s2.stagingPropTuples sun) [] 0 0 with
  | none => simp [ha] at h
  | some r =>
    obtain ⟨pn, tuple, added⟩ := r
    obtain ⟨g1, -⟩ := assemble_consumes _ _ _ _ _ _ _ _ _ _ _ hnd ha
    cases hs : setAt tuple added consider with
    | none => simp [ha, hs] at h
    | some novelTuple =>
      simp only [ha, hs] at h
      have key : ∀ s3 : State, s3.stagingPropTuples = upd s2.stagingPropTuples sun pn →
          ∀ k ∈ ts, k ≠ consider.typeId → mfind k psn = none →
            (s2.staged sun k).length = (s3.staged sun k).length + 1 := by
        intro s3 e k hk hne hps
        show _ = (mgetD k [] (s3.stagingPropTuples sun)).length + 1
        rw [e, upd_same]
        exact g1 k hk hne hps
      split at h
      · simp only [Option.some.injEq] at h
        subst h
        exact key _ rfl
      · simp only [Option.some.injEq] at h
        subst h
        exact key _ rfl

/-- When the search for a SunLambda over a typeset of pairwise distinct types forms a tuple,
every other type of the typeset with a non-empty staging queue loses exactly one staged
entry. -/
theorem considerSunLambda_consumes (consider : GlobalPropId) (ts : Typeset) (sun : SunId)
    (s s' : State) (hnd : ts.Nodup) (h : considerSunLambda consider ts sun s = some s')
    (hgrow : s'.novelTuples sun ≠ s.novelTuples sun) :
    ∀ k ∈ ts, k ≠ consider.typeId → s.staged sun k ≠ [] →
      (s.staged sun k).length = (s'.staged sun k).length + 1 := by
  unfold considerSunLambda at h
  simp only [] at h
  have hps : (IsPropCompatibleWithSunLambda s sun consider.typeId consider.id &&
      ((s.novelTupleCreators sun).reuseOnStages consider.typeId).isSome) = true →
      ((s.novelTupleCreators sun).reuseOnStages consider.typeId).isSome = true := by
    intro h
    simp only [Bool.and_eq_true] at h
    exact h.2
  obtain ⟨-, -, hst1, hnt1, -⟩ := addPartialStatic_spec consider sun
    (IsPropCompatibleWithSunLambda s sun consider.typeId consider.id &&
      ((s.novelTupleCreators sun).reuseOnStages consider.typeId).isSome) s hps
  generalize addPartialStatic consider sun
    (IsPropCompatibleWithSunLambda s sun consider.typeId consider.id &&
      ((s.novelTupleCreators sun).reuseOnStages consider.typeId).isSome) s = s1 at *
  generalize (IsPropCompatibleWithSunLambda s sun consider.typeId consider.id &&
      !(IsPropCompatibleWithSunLambda s sun consider.typeId consider.id &&
        ((s.novelTupleCreators sun).reuseOnStages consider.typeId).isSome)) = flag at *
  have hq1 : ∀ k, s1.staged sun k = s.staged sun k := fun k => by
    simp only [State.staged, hst1]
  have hstage : ∀ s2 : State, s2.novelTuples = s.novelTuples →
      s' = stageAdded consider sun flag s2 → False := by
    intro s2 hnt hs'
    apply hgrow
    rw [hs', (stageAdded_spec consider sun flag s2).2.2.1, hnt]
  by_cases hf : IsPropCompatibleWithSunLambda s sun consider.typeId consider.id = true
  · rw [if_pos hf] at h
    cases hcl : completenessLoop sun (mgetD consider.id [] (s.ptpsq consider.typeId))
        consider.typeId ts s1 [] with
    | none => simp [hcl] at h
    | some r =>
      obtain ⟨s2, psn, ro⟩ := r
      simp only [hcl] at h
      obtain ⟨pq, st, e, -, -⟩ := completenessLoop_shape _ _ _ _ _ _ _ _ _ hcl
      obtain ⟨-, -, -, e4, -, e6, -⟩ := completenessLoop_effect _ _ _ _ _ _ _ _ _ hcl
      have hnt2 : s2.novelTuples = s.novelTuples := by
        rw [e]
        exact hnt1
      rcases finishSearch_effect _ _ _ _ _ _ _ _ h with hno | ⟨-, cn, -, hft⟩
      · exact absurd (hstage s2 hnt2 hno) id
      · intro k hk hne hqk
        have hpsn : mfind k psn = none := by
          cases hm : mfind k psn with
          | none => rfl
          | some v =>
            rcases e6 k (by simp [mhas, hm]) with hk1 | ⟨-, hk2⟩
            · simp [mhas, mfind] at hk1
            · exact absurd ((hq1 k).symm.trans hk2) hqk
        rw [← formTuple_consumes _ _ _ _ _ _ _ hnd hft k hk hne hpsn, e4, hq1]
  · rw [if_neg hf] at h
    simp only [] at h
    rcases finishSearch_effect _ _ _ _ _ _ _ _ h with hno | ⟨hro, -⟩
    · exact absurd (hstage s1 hnt1 hno) id
    · exact absurd hro (by simp)

/-- C25, amended: a staged partner comes before a partial static.  Let `O` be registered once
over a typeset `ts` of pairwise distinct types that holds the type of the considered prop and
another type `T` whose staging queue under `O` is not empty.  Then `ConsiderProp` is defined,
and when it appends a tuple to the tuple store of `O`, the member of type `T` of that tuple is
an entry of the staging queue of `T`, the first one that fulfils the compatibility constraint
of `O`, and that queue has one entry less afterwards.  This holds whether or not `O` has
partial statics of type `T` that its reuse function would accept: they are looked up only for
a type whose staging queue is empty.  The remaining hypotheses are the standing invariants. -/
theorem C25_staged_partner_before_partial_static (s : State) (O : SunId) (ts : Typeset)
    (consider : GlobalPropId) (T : PropTypeId)
    (hreg : RegisteredOnce s O ts) (hnd : ts.Nodup) (hg : consider.typeId ∈ ts)
    (hT : T ∈ ts) (hTne : T ≠ consider.typeId) (hq : s.staged O T ≠ [])
    (hkeys : (mkeys (s.stagingPropTuples O)).Nodup)
    (hmn : MappedNodup s) (hmi : MappedIndexed s) (htd : TypesetsDistinct s)
    (hrt : ReuseTotal s) :
    ∃ s', ConsiderProp s consider = some s' ∧
      (s'.novelTuples O = s.novelTuples O ∨
        ∃ tuple n, s'.novelTuples O = s.novelTuples O ++ [tuple] ∧
          (∀ i, nth ts i = some T → nth tuple i = some ⟨T, n⟩) ∧
          n ∈ s.staged O T ∧ firstCompatible s O T (s.staged O T) = some n ∧
          (s.staged O T).length = (s'.staged O T).length + 1) := by
  obtain ⟨sA, sB, sC, hB, hC, htA, htrA, hcrA, hstA, hpsA, hntA, hstC, -, hntC⟩ :=
    considerProp_visit s O ts consider hreg hnd hg hmn hmi htd hrt
  have hreuseA : ∀ p, sA.partialStatics O p ≠ [] →
      ((sA.novelTupleCreators O).reuseOnStages p).isSome = true := by
    intro p hp
    rw [hpsA] at hp
    rw [hcrA]
    exact hrt O p hp
  obtain ⟨-, -, -, hcase⟩ := considerSunLambda_effect consider ts O sA sB hg hreuseA hB
  refine ⟨sC, hC, ?_⟩
  rcases hcase with ⟨n1, -, -⟩ | ⟨-, psn, cn, m1, -, -, m4, m5, -⟩
  · left
    rw [hntC, n1, hntA]
  · right
    have hqA : sA.staged O T ≠ [] := by
      rw [staged_congr s sA O hstA]
      exact hq
    obtain ⟨n, hn1, hn2⟩ := m5 (by rw [hstA]; exact hkeys) T hTne hqA
    have hps : mhas T psn = false := by
      cases hm : mhas T psn with
      | false => rfl
      | true => exact absurd (m4 T hm).2 hqA
    have hmember := assembled_neighbor consider psn cn T n hTne hps hn2
    rw [staged_congr s sA O hstA,
      firstCompatible_congr s sA O T _ (htA.elsewhere T hTne) hcrA] at hn1
    obtain ⟨before, after, e, -, -⟩ := firstCompatible_spec s O T _ n hn1
    have hgrow : sB.novelTuples O ≠ sA.novelTuples O := by
      rw [m1]
      intro e
      have := congrArg List.length e
      simp at this
    have hlen := considerSunLambda_consumes consider ts O sA sB hnd hB hgrow T hT hTne hqA
    refine ⟨ts.map (assembled consider psn cn), n, ?_, ?_, ?_, hn1, ?_⟩
    · rw [hntC, m1, hntA]
    · intro i hi
      rw [nth_map, hi, Option.map_some', hmember]
    · rw [e]
      simp
    · rw [staged_congr sB sC O hstC, ← hlen, staged_congr s sA O hstA]

theorem lateSingleton_reuseTotal : ReuseTotal lateSingleton := by
  have e : lateSingleton.partialStatics = upd (fun _ _ => []) 9 (upd (fun _ => []) 3 [1]) := rfl
  intro sun t h
  by_cases hs : sun = 9
  · by_cases ht : t = 3
    · subst hs ht
      rfl
    · exfalso
      apply h
      rw [e, hs, upd_same, upd_other _ _ _ _ ht]
  · exfalso
    apply h
    rw [e, upd_other _ _ _ _ hs]

/-- Witness of C25 as amended: under `Count` the prop `counter1` is staged and `counter2` is a
partial static whose reuse function accepts every prop; `tick1` is considered. -/
theorem C25_staged_partner_before_partial_static_witness :
    RegisteredOnce lateSingleton 9 [2, 3] ∧ lateSingleton.staged 9 3 = [0] ∧
    lateSingleton.partialStatics 9 3 = [1] ∧ ReuseTotal lateSingleton ∧
    ∃ s', ConsiderProp lateSingleton ⟨2, 0⟩ = some s' ∧
      (s'.novelTuples 9 = lateSingleton.novelTuples 9 ∨
        ∃ tuple n, s'.novelTuples 9 = lateSingleton.novelTuples 9 ++ [tuple] ∧
          (∀ i, nth [2, 3] i = some 3 → nth tuple i = some ⟨3, n⟩) ∧
          n ∈ lateSingleton.staged 9 3 ∧
          firstCompatible lateSingleton 9 3 (lateSingleton.staged 9 3) = some n ∧
          (lateSingleton.staged 9 3).length = (s'.staged 9 3).length + 1) := by
  obtain ⟨hreg, hmn, hmi, htd⟩ := registry_of_single lateSingleton 9 2 3 rfl rfl
  have hq : lateSingleton.staged 9 3 = [0] := rfl
  exact ⟨hreg, rfl, rfl, lateSingleton_reuseTotal,
    C25_staged_partner_before_partial_static lateSingleton 9 [2, 3] ⟨2, 0⟩ 3 hreg (by decide)
      (by decide) (by decide) (by decide) (by rw [hq]; simp) (by decide) hmn hmi
      (htd (by decide)) lateSingleton_reuseTotal⟩

/-! ## `RemoveProps`: every tuple with a pending member is marked -/

theorem mem_mark (marks : List (SunId × List Nat)) (sun sun' : SunId) (index i : Nat) :
    i ∈ mgetD sun' [] (mset sun (setInsert natLt index (mgetD sun [] marks)) marks) ↔
      (sun' = sun ∧ i = index) ∨ i ∈ mgetD sun' [] marks := by
  by_cases h : sun' = sun
  · subst h
    rw [mgetD_mset_same, mem_setInsert_natLt]
    simp
  · rw [mgetD_mset_other _ _ _ _ _ h]
    simp [h]

theorem markTuples_hit (removed : List PropIdRaw) (idx : Nat) (sun : SunId)
    (l : List NovelTuple) (index : Nat) (marks marks' : List (SunId × List Nat))
    (h : markTuples removed idx sun l index marks = some marks') :
    (∀ sun' i, i ∈ mgetD sun' [] marks → i ∈ mgetD sun' [] marks') ∧
    (∀ j tuple g, nth l j = some tuple → nth tuple idx = some g → g.id ∈ removed →
      (index + j) ∈ mgetD sun [] marks') := by
  induction l generalizing index marks with
  | nil =>
    simp only [markTuples, Option.some.injEq] at h
    subst h
    exact ⟨fun _ _ hi => hi, fun j tuple g hj => by simp [nth] at hj⟩
  | cons tuple0 rest ih =>
    cases h0 : nth tuple0 idx with
    | none => simp [markTuples, h0] at h
    | some g0 =>
      simp only [markTuples, h0] at h
      obtain ⟨g1, g2⟩ := ih _ _ h
      have hstep : ∀ sun' i, i ∈ mgetD sun' [] marks →
          i ∈ mgetD sun' [] (if g0.id ∈ removed then
            mset sun (setInsert natLt index (mgetD sun [] marks)) marks else marks) := by
        intro sun' i hi
        by_cases hr : g0.id ∈ removed
        · rw [if_pos hr]
          exact (mem_mark marks sun sun' index i).2 (Or.inr hi)
        · rw [if_neg hr]
          exact hi
      refine ⟨fun sun' i hi => g1 sun' i (hstep sun' i hi), ?_⟩
      intro j tuple g hj hg hr
      cases j with
      | zero =>
        simp only [nth, Option.some.injEq] at hj
        subst hj
        rw [h0, Option.some.injEq] at hg
        subst hg
        apply g1
        rw [if_pos hr]
        exact (mem_mark marks sun sun index index).2 (Or.inl ⟨rfl, rfl⟩)
      | succ j =>
        simp only [nth] at hj
        have := g2 j tuple g hj hg hr
        have e : index + (j + 1) = index + 1 + j := by omega
        rw [e]
        exact this

theorem markSunLambdas_hit (s : State) (removed : List PropIdRaw) (idx : Nat)
    (suns : List SunId) (marks marks' : List (SunId × List Nat))
    (h : markSunLambdas s removed idx suns marks = some marks') :
    (∀ sun' i, i ∈ mgetD sun' [] marks → i ∈ mgetD sun' [] marks') ∧
    (∀ sun ∈ suns, ∀ j tuple g, nth (s.novelTuples sun) j = some tuple →
      nth tuple idx = some g → g.id ∈ removed → j ∈ mgetD sun [] marks') := by
  induction suns generalizing marks with
  | nil =>
    simp only [markSunLambdas, Option.some.injEq] at h
    subst h
    exact ⟨fun _ _ hi => hi, by simp⟩
  | cons sun0 suns ih =>
    cases h0 : markTuples removed idx sun0 (s.novelTuples sun0) 0 marks with
    | none => simp [markSunLambdas, h0] at h
    | some marks1 =>
      simp only [markSunLambdas, h0] at h
      obtain ⟨a1, a2⟩ := markTuples_hit _ _ _ _ _ _ _ h0
      obtain ⟨b1, b2⟩ := ih _ h
      refine ⟨fun sun' i hi => b1 sun' i (a1 sun' i hi), ?_⟩
      intro sun hsun j tuple g hj hg hr
      by_cases hs : sun = sun0
      · subst hs
        apply b1
        have := a2 j tuple g hj hg hr
        rwa [Nat.zero_add] at this
      · simp only [List.mem_cons] at hsun
        rcases hsun with hsun | hsun
        · exact absurd hsun hs
        · exact b2 sun hsun j tuple g hj hg hr

theorem markTypesets_hit (s : State) (t : PropTypeId) (removed : List PropIdRaw)
    (typesets : List Typeset) (marks marks' : List (SunId × List Nat))
    (h : markTypesets s t removed typesets marks = some marks') :
    (∀ sun' i, i ∈ mgetD sun' [] marks → i ∈ mgetD sun' [] marks') ∧
    (∀ ts ∈ typesets, ∀ sun ∈ s.typesetSunLambdas ts, ∀ j tuple g,
      nth (s.novelTuples sun) j = some tuple → nth tuple (firstIndexOr0 t ts 0) = some g →
      g.id ∈ removed → j ∈ mgetD sun [] marks') := by
  induction typesets generalizing marks with
  | nil =>
    simp only [markTypesets, Option.some.injEq] at h
    subst h
    exact ⟨fun _ _ hi => hi, by simp⟩
  | cons ts0 typesets ih =>
    cases h0 : markSunLambdas s removed (firstIndexOr0 t ts0 0) (s.typesetSunLambdas ts0)
        marks with
    | none => simp [markTypesets, h0] at h
    | some marks1 =>
      simp only [markTypesets, h0] at h
      obtain ⟨a1, a2⟩ := markSunLambdas_hit _ _ _ _ _ _ h0
      obtain ⟨b1, b2⟩ := ih _ h
      refine ⟨fun sun' i hi => b1 sun' i (a1 sun' i hi), ?_⟩
      intro ts hts sun hsun j tuple g hj hg hr
      by_cases he : ts = ts0
      · subst he
        exact b1 sun j (a2 sun hsun j tuple g hj hg hr)
      · simp only [List.mem_cons] at hts
        rcases hts with hts | hts
        · exact absurd hts he
        · exact b2 ts hts sun hsun j tuple g hj hg hr

/-- The second part of `RemoveProps` marks every tuple that holds, at the position of a type
with pending removals, a prop of the removal set of that type. -/
theorem markBreakups_hit (s : State) (toRemove : List (PropTypeId × List PropIdRaw))
    (marks marks' : List (SunId × List Nat))
    (h : markBreakups s toRemove marks = some marks') :
    (∀ sun' i, i ∈ mgetD sun' [] marks → i ∈ mgetD sun' [] marks') ∧
    (∀ t removed, (t, removed) ∈ toRemove → ∀ ts ∈ s.mappedPropTupleTypesets t,
      ∀ sun ∈ s.typesetSunLambdas ts, ∀ j tuple g,
      nth (s.novelTuples sun) j = some tuple → nth tuple (firstIndexOr0 t ts 0) = some g →
      g.id ∈ removed → j ∈ mgetD sun [] marks') := by
  induction toRemove generalizing marks with
  | nil =>
    simp only [markBreakups, Option.some.injEq] at h
    subst h
    exact ⟨fun _ _ hi => hi, by simp⟩
  | cons e toRemove ih =>
    obtain ⟨t0, removed0⟩ := e
    cases h0 : markTypesets s t0 removed0 (s.mappedPropTupleTypesets t0) marks with
    | none => simp [markBreakups, h0] at h
    | some marks1 =>
      simp only [markBreakups, h0] at h
      obtain ⟨a1, a2⟩ := markTypesets_hit _ _ _ _ _ _ h0
      obtain ⟨b1, b2⟩ := ih _ h
      refine ⟨fun sun' i hi => b1 sun' i (a1 sun' i hi), ?_⟩
      intro t removed hm ts hts sun hsun j tuple g hj hg hr
      simp only [List.mem_cons, Prod.mk.injEq] at hm
      rcases hm with ⟨ht, hrem⟩ | hm
      · subst ht hrem
        exact b1 sun j (a2 ts hts sun hsun j tuple g hj hg hr)
      · exact b2 t removed hm ts hts sun hsun j tuple g hj hg hr

/-! ## `RemovePropsDelayed`: the tuples that stay are the unmarked ones -/

theorem nth_eraseAt_ge {α : Type} (l l' : List α) (i j : Nat) (h : eraseAt l i = some l')
    (hj : i ≤ j) : nth l' j = nth l (j + 1) := by
  induction l generalizing i j l' with
  | nil => simp [eraseAt] at h
  | cons x xs ih =>
    cases i with
    | zero =>
      simp only [eraseAt, Option.some.injEq] at h
      subst h
      rfl
    | succ i =>
      cases he : eraseAt xs i with
      | none => simp [eraseAt, he] at h
      | some r =>
        simp only [eraseAt, he, Option.map_some', Option.some.injEq] at h
        subst h
        cases j with
        | zero => omega
        | succ j =>
          simp only [nth]
          exact ih r i j he (by omega)

theorem breakTuples_frame (sun : SunId) (ds : List Nat) (s s' : State)
    (h : breakTuples sun ds s = some s') :
    s'.breakups = s.breakups ∧ ∀ sun', sun' ≠ sun → s'.novelTuples sun' = s.novelTuples sun' := by
  induction ds generalizing s with
  | nil =>
    simp only [breakTuples, Option.some.injEq] at h
    subst h
    exact ⟨rfl, fun _ _ => rfl⟩
  | cons index rest ih =>
    cases hn : nth (s.novelTuples sun) index with
    | none => simp [breakTuples, hn] at h
    | some tuple =>
      simp only [breakTuples, hn] at h
      obtain ⟨hk, hnt⟩ := breakMembers_keeps sun tuple s
      split at h
      · simp only [Option.some.injEq] at h
        subst h
        exact ⟨hk.breakups, fun sun' _ => by
          show (tuple.foldl (breakMember sun) s).novelTuples sun' = _
          rw [hnt]⟩
      · split at h
        · simp at h
        · obtain ⟨h3, h4⟩ := ih _ h
          refine ⟨h3.trans hk.breakups, fun sun' hs => ?_⟩
          rw [h4 sun' hs]
          show upd (tuple.foldl (breakMember sun) s).novelTuples sun _ sun' = _
          rw [upd_other _ _ _ _ hs, hnt]

/-- For a SunLambda outside the breakup set, the tuples left by the loop over its marked indices
stood at positions that are not marked. -/
theorem breakTuples_remaining (sun : SunId) (ds : List Nat) (s s' : State)
    (hb : sun ∉ s.breakups) (hdesc : ds.Pairwise (fun a b => b < a))
    (h : breakTuples sun ds s = some s') :
    ∀ x ∈ s'.novelTuples sun, ∃ i, nth (s.novelTuples sun) i = some x ∧ i ∉ ds := by
  induction ds generalizing s with
  | nil =>
    simp only [breakTuples, Option.some.injEq] at h
    subst h
    intro x hx
    obtain ⟨i, hi⟩ := exists_nth_of_mem _ x hx
    exact ⟨i, hi, by simp⟩
  | cons index rest ih =>
    rw [List.pairwise_cons] at hdesc
    cases hn : nth (s.novelTuples sun) index with
    | none => simp [breakTuples, hn] at h
    | some tuple =>
      simp only [breakTuples, hn] at h
      obtain ⟨hk, hnt⟩ := breakMembers_keeps sun tuple s
      have hb1 : sun ∉ (tuple.foldl (breakMember sun) s).breakups := by
        rw [hk.breakups]
        exact hb
      rw [if_neg hb1] at h
      cases he : eraseAt ((tuple.foldl (breakMember sun) s).novelTuples sun) index with
      | none => simp [he] at h
      | some tuples =>
        simp only [he] at h
        have hrem := ih _ (by exact hb1) hdesc.2 h
        rw [hnt] at he
        intro x hx
        obtain ⟨i, hi, hnot⟩ := hrem x hx
        have hi' : nth tuples i = some x := by
          have e : upd (tuple.foldl (breakMember sun) s).novelTuples sun tuples sun = tuples :=
            upd_same _ _ _
          rw [← e]
          exact hi
        by_cases hlt : i < index
        · refine ⟨i, ?_, ?_⟩
          · rw [← nth_eraseAt_lt _ _ _ _ he hlt]
            exact hi'
          · simp only [List.mem_cons, not_or]
            exact ⟨by omega, hnot⟩
        · refine ⟨i + 1, ?_, ?_⟩
          · rw [← nth_eraseAt_ge _ _ _ _ he (by omega)]
            exact hi'
          · simp only [List.mem_cons, not_or]
            refine ⟨by omega, fun hm => ?_⟩
            have := hdesc.1 (i + 1) hm
            omega

/-- For a SunLambda outside the breakup set, the tuples left by the first loop of
`RemovePropsDelayed` stood at positions that are not marked. -/
theorem breakAll_remaining (marks : List (SunId × List Nat)) (s s' : State) (O : SunId)
    (hn : (mkeys marks).Nodup) (hb : O ∉ s.breakups)
    (hsorted : ∀ sun indices, (sun, indices) ∈ marks → indices.Pairwise (fun a b => a < b))
    (h : breakAll marks s = some s') :
    ∀ x ∈ s'.novelTuples O, ∃ i, nth (s.novelTuples O) i = some x ∧ i ∉ mgetD O [] marks := by
  induction marks generalizing s with
  | nil =>
    simp only [breakAll, Option.some.injEq] at h
    subst h
    intro x hx
    obtain ⟨i, hi⟩ := exists_nth_of_mem _ x hx
    exact ⟨i, hi, by simp [mgetD, mfind]⟩
  | cons e marks ih =>
    obtain ⟨sun, indices⟩ := e
    have hkeys : mkeys ((sun, indices) :: marks) = sun :: mkeys marks := rfl
    rw [hkeys, List.nodup_cons] at hn
    cases h1 : breakTuples sun indices.reverse s with
    | none => simp [breakAll, h1] at h
    | some s1 =>
      simp only [breakAll, h1] at h
      obtain ⟨f1, f2⟩ := breakTuples_frame sun _ s s1 h1
      have hrest := ih s1 hn.2 (by rw [f1]; exact hb)
        (fun sun' ind hm => hsorted sun' ind (List.mem_cons_of_mem _ hm)) h
      intro x hx
      obtain ⟨i, hi, hnot⟩ := hrest x hx
      by_cases hs : sun = O
      · subst hs
        have hout : mgetD sun [] marks = [] := by
          have := (mfind_none_iff sun marks).2 hn.1
          simp only [mgetD, this, Option.getD_none]
        have hdesc : indices.reverse.Pairwise (fun a b => b < a) :=
          List.pairwise_reverse.2 (hsorted sun indices (by simp))
        obtain ⟨i0, hi0, hnot0⟩ := breakTuples_remaining sun _ s s1 hb hdesc h1 x
          (nth_mem _ _ _ hi)
        refine ⟨i0, hi0, ?_⟩
        simp only [mgetD, mfind, if_true, Option.getD_some]
        exact fun hm => hnot0 (List.mem_reverse.2 hm)
      · refine ⟨i, by rw [← f2 O (fun e => hs e.symm)]; exact hi, ?_⟩
        simp only [mgetD, mfind, if_neg hs]
        exact hnot

/-! ## The tuples destroyed by a removal flush -/

/-- `RemoveProps` is defined from a state with typed tuples and sound pending sets; the pending
sets are sound afterwards, and every tuple that holds a prop of the removal set at the position
of its type is marked. -/
theorem removeProps_marks (s : State) (Remove : GroupSet → Bool)
    (hidx : MappedIndexed s) (hty : TuplesTyped s) (hsound : PendingSound s) :
    ∃ s1, RemoveProps s Remove = some s1 ∧ PendingSound s1 ∧
      s1.novelTuples = s.novelTuples ∧ s1.breakups = s.breakups ∧
      (∀ t removed, (t, removed) ∈ s1.propsToRemove → ∀ ts ∈ s.mappedPropTupleTypesets t,
        ∀ sun ∈ s.typesetSunLambdas ts, ∀ j tuple g,
        nth (s.novelTuples sun) j = some tuple → nth tuple (firstIndexOr0 t ts 0) = some g →
        g.id ∈ removed → j ∈ mgetD sun [] s1.tuplesToBreakup) := by
  obtain ⟨hp0, hm0⟩ := hsound
  have hkeys : (mkeys (markTypes Remove s.ptpsq s.propTypeNames s.propsToRemove)).Nodup :=
    markTypes_keys_nodup _ _ _ _ hp0
  obtain ⟨marks, hmarks, hgood⟩ := markBreakups_inv
    (MarksGood { s with
      propsToRemove := markTypes Remove s.ptpsq s.propTypeNames s.propsToRemove })
    (fun sun i => ∃ tuple, nth (s.novelTuples sun) i = some tuple ∧
      State.untouched { s with
        propsToRemove := markTypes Remove s.ptpsq s.propTypeNames s.propsToRemove } tuple = false)
    { s with propsToRemove := markTypes Remove s.ptpsq s.propTypeNames s.propsToRemove }
    (fun sun marks i hm hq => marksGood_step _ sun marks i hm hq)
    (markTypes Remove s.ptpsq s.propTypeNames s.propsToRemove) s.tuplesToBreakup
    (marksGood_mono s _ _ rfl (by
      intro g hg
      simp only [State.pendingRemoval, decide_eq_true_eq] at hg ⊢
      exact (markTypes_mem Remove s.ptpsq s.propTypeNames s.propsToRemove g.typeId g.id).2
        (Or.inl hg)) hm0)
    (by
      intro t removed hmem ts hts sun hsun j tuple hj
      obtain ⟨g, hg, hgt⟩ := nth_removalIndex t ts tuple
        (hty ts sun tuple hsun (nth_mem _ _ _ hj)) (hidx t ts hts)
      refine ⟨g, hg, fun hin => ⟨tuple, hj, ?_⟩⟩
      apply untouched_false_of_mem _ tuple g (nth_mem _ _ _ hg)
      simp only [State.pendingRemoval, decide_eq_true_eq, hgt, mgetD,
        mfind_of_mem_nodup t removed _ hkeys hmem, Option.getD_some]
      exact hin)
  obtain ⟨-, hhit⟩ := markBreakups_hit _ _ _ _ hmarks
  have hR : RemoveProps s Remove = some { s with
      propsToRemove := markTypes Remove s.ptpsq s.propTypeNames s.propsToRemove
      tuplesToBreakup := marks } := by
    simp only [RemoveProps, hmarks]
  exact ⟨_, hR, ⟨hkeys, hgood⟩, rfl, rfl, hhit⟩

/-- C22, amended: the tuples destroyed by a removal flush.  From a state with typed tuples and
sound pending sets, `RemoveProps` followed by `RemovePropsDelayed` is defined, and every tuple
of every SunLambda none of whose members is pending removal stays in the tuple store.  For a
SunLambda `O` outside the breakup set, registered once over a typeset of pairwise distinct
types, the tuple store of `O` after the flush consists of exactly these tuples, in their former
order: a tuple of `O` is removed if and only if at least one of its members, partial static of
`O` or not, was pending removal. -/
theorem C22_tuple_destroyed_iff_member_removed (s : State) (Remove : GroupSet → Bool)
    (O : SunId) (ts : Typeset) (hreg : RegisteredOnce s O ts) (hnd : ts.Nodup)
    (hb : O ∉ s.breakups) (hidx : MappedIndexed s) (hty : TuplesTyped s)
    (hsound : PendingSound s) :
    ∃ s1 s2, RemoveProps s Remove = some s1 ∧ RemovePropsDelayed s1 = some s2 ∧
      (∀ sun, ∀ tuple ∈ s.novelTuples sun, s1.untouched tuple = true →
        tuple ∈ s2.novelTuples sun) ∧
      s2.novelTuples O = (s.novelTuples O).filter s1.untouched ∧
      ∀ tuple, tuple ∈ s2.novelTuples O ↔
        (tuple ∈ s.novelTuples O ∧ ∀ g ∈ tuple, s1.pendingRemoval g = false) := by
  obtain ⟨s1, hR, hsound1, hnt1, hb1, hhit⟩ := removeProps_marks s Remove hidx hty hsound
  obtain ⟨hn1, hgood1⟩ := hsound1
  have hsorted : ∀ sun indices, (sun, indices) ∈ s1.tuplesToBreakup →
      indices.Pairwise (fun a b => a < b) ∧
      ∀ i ∈ indices, ∃ tuple, nth (s1.novelTuples sun) i = some tuple ∧
        s1.untouched tuple = false := by
    intro sun indices hmem
    exact hgood1.2 sun indices (mfind_of_mem_nodup sun indices _ hgood1.1 hmem)
  obtain ⟨sB, hB, hk⟩ := breakAll_spec s1.tuplesToBreakup s1 hgood1.1 hsorted
  obtain ⟨f1, -⟩ := freeAll_frame sB.propsToRemove sB
  have hD : RemovePropsDelayed s1 =
      some { freeAll sB.propsToRemove sB with propsToRemove := [], tuplesToBreakup := [] } := by
    simp only [RemovePropsDelayed, hB]
  have hO : O ∈ s.typesetSunLambdas ts := List.count_pos_iff.1 (by rw [hreg.once]; decide)
  have hrem := breakAll_remaining s1.tuplesToBreakup s1 sB O hgood1.1 (by rw [hb1]; exact hb)
    (fun sun indices hm => (hsorted sun indices hm).1) hB
  have hpend : ∀ tuple : NovelTuple, s1.untouched tuple = true ↔
      ∀ g ∈ tuple, s1.pendingRemoval g = false := by
    intro tuple
    simp only [State.untouched, List.all_eq_true, Bool.not_eq_eq_eq_not, Bool.not_true]
  have hclean : ∀ x ∈ sB.novelTuples O, s1.untouched x = true := by
    intro x hx
    obtain ⟨i, hi, hnot⟩ := hrem x hx
    rw [hnt1] at hi
    rw [hpend]
    intro g hg
    cases hp : s1.pendingRemoval g with
    | false => rfl
    | true =>
      exfalso
      apply hnot
      have htyped : x.map GlobalPropId.typeId = ts := hty ts O x hO (nth_mem _ _ _ hi)
      have ht : g.typeId ∈ ts := by
        rw [← htyped]
        exact List.mem_map_of_mem _ hg
      obtain ⟨g', hg', hgt⟩ := nth_removalIndex g.typeId ts x htyped ht
      have hsame : g' = g :=
        List.inj_on_of_nodup_map (by rw [htyped]; exact hnd) (nth_mem _ _ _ hg') hg hgt
      rw [hsame] at hg'
      simp only [State.pendingRemoval, decide_eq_true_eq] at hp
      cases hf : mfind g.typeId s1.propsToRemove with
      | none => simp [mgetD, hf] at hp
      | some removed =>
        simp only [mgetD, hf, Option.getD_some] at hp
        exact hhit g.typeId removed (mem_of_mfind _ _ _ hf) ts (hreg.indexed _ ht) O hO i x g
          hi hg' hp
  have hstore : sB.novelTuples O = (s.novelTuples O).filter s1.untouched := by
    rw [← hnt1, ← hk.tuples O]
    exact (List.filter_eq_self.2 hclean).symm
  refine ⟨s1, _, hR, hD, ?_, ?_, ?_⟩
  · intro sun tuple hin hu
    show tuple ∈ (freeAll sB.propsToRemove sB).novelTuples sun
    rw [f1]
    have : tuple ∈ (s1.novelTuples sun).filter s1.untouched := by
      rw [hnt1]
      exact List.mem_filter.2 ⟨hin, hu⟩
    rw [← hk.tuples sun] at this
    exact (List.mem_filter.1 this).1
  · show (freeAll sB.propsToRemove sB).novelTuples O = _
    rw [f1, hstore]
  · intro tuple
    show tuple ∈ (freeAll sB.propsToRemove sB).novelTuples O ↔ _
    rw [f1, hstore, List.mem_filter, hpend]

/-- C22 on the code: the tuple `(tick1, counter1)` of `Count` is live, `Counter` has a reuse
function under `Count` (it is partial static), and `Count` is not in the breakup set.  A flush
whose search matches `counter1` only removes the tuple from the tuple store of `Count`. -/
theorem C22_partial_static_removal_destroys_tuple :
    countJoined.novelTuples 9 = [[⟨2, 0⟩, ⟨3, 0⟩]] ∧
    ((countJoined.novelTupleCreators 9).reuseOnStages 3).isSome = true ∧
    ((countJoined.novelTupleCreators 9).reuseOnStages 2).isSome = false ∧
    countJoined.breakups = [] ∧
    (RemoveProps countJoined removeA1).map (fun s => s.propsToRemove) = some [(3, [0])] ∧
    (flush countJoined removeA1).map (fun s => s.novelTuples 9) = some [] :=
  ⟨rfl, rfl, rfl, rfl, rfl, rfl⟩

theorem countJoined_registry :
    RegisteredOnce countJoined 9 [2, 3] ∧ MappedIndexed countJoined ∧
      TuplesTyped countJoined := by
  obtain ⟨h1, -, h3, -⟩ := registry_of_single countJoined 9 2 3 rfl rfl
  have e1 : countJoined.novelTuples = fun sun => if sun = 9 then [[⟨2, 0⟩, ⟨3, 0⟩]] else [] :=
    rfl
  have e2 : countJoined.typesetSunLambdas = fun ts => if ts = [2, 3] then [9] else [] := rfl
  refine ⟨h1, h3, ?_⟩
  intro ts sun tuple hs ht
  rw [e2] at hs
  rw [e1] at ht
  by_cases hts : ts = [2, 3]
  · simp [hts] at hs
    simp [hs] at ht
    simp [ht, hts]
  · simp [hts] at hs

/-- Witness of C22 as amended: the Count scenario with the live tuple `(tick1, counter1)` and a
search that matches `counter1`. -/
theorem C22_tuple_destroyed_iff_member_removed_witness :
    RegisteredOnce countJoined 9 [2, 3] ∧ 9 ∉ countJoined.breakups ∧
    MappedIndexed countJoined ∧ TuplesTyped countJoined ∧ PendingSound countJoined ∧
    ∃ s1 s2, RemoveProps countJoined removeA1 = some s1 ∧ RemovePropsDelayed s1 = some s2 ∧
      (∀ sun, ∀ tuple ∈ countJoined.novelTuples sun, s1.untouched tuple = true →
        tuple ∈ s2.novelTuples sun) ∧
      s2.novelTuples 9 = (countJoined.novelTuples 9).filter s1.untouched ∧
      ∀ tuple, tuple ∈ s2.novelTuples 9 ↔
        (tuple ∈ countJoined.novelTuples 9 ∧ ∀ g ∈ tuple, s1.pendingRemoval g = false) := by
  obtain ⟨hreg, hmi, hty⟩ := countJoined_registry
  have hb : 9 ∉ countJoined.breakups := by
    have e : countJoined.breakups = [] := rfl
    rw [e]
    exact List.not_mem_nil _
  exact ⟨hreg, hb, hmi, hty, pendingSound_of_nothingPending countJoined ⟨rfl, rfl⟩,
    C22_tuple_destroyed_iff_member_removed countJoined removeA1 9 [2, 3] hreg (by decide) hb
      hmi hty (pendingSound_of_nothingPending countJoined ⟨rfl, rfl⟩)⟩

/-! ## Stage sets that the comparison orders one way only -/

theorem stage_lt_iff (a b : Stage) :
    Stage.lt a b = true ↔ a.group < b.group ∨ a.inst < b.inst := by
  simp [Stage.lt]

theorem stage_eq_of_le (a b : Stage) (h1 : a.group ≤ b.group) (h2 : a.inst ≤ b.inst)
    (h3 : b.group ≤ a.group) (h4 : b.inst ≤ a.inst) : a = b := by
  cases a
  cases b
  simp only [Stage.mk.injEq]
  exact ⟨Nat.le_antisymm h1 h3, Nat.le_antisymm h2 h4⟩

/-- Where the comparison of `Stage` orders two stages one way only, the smaller one is not
greater in group nor in instance, and the two differ. -/
theorem stage_le_of_lt (a b : Stage) (h : Stage.lt a b = true) (hal : Stage.Aligned a b) :
    a.group ≤ b.group ∧ a.inst ≤ b.inst ∧ a ≠ b := by
  unfold Stage.Aligned at hal
  rw [stage_lt_iff] at h hal
  rw [stage_lt_iff] at hal
  refine ⟨?_, ?_, ?_⟩
  · simp only [Group, Instance] at *
    omega
  · simp only [Group, Instance] at *
    omega
  · intro e
    rw [e] at h
    simp only [Group, Instance] at *
    omega

theorem stage_eq_of_not_lt (a b : Stage) (h1 : ¬ Stage.lt a b = true)
    (h2 : ¬ Stage.lt b a = true) : a = b := by
  rw [stage_lt_iff] at h1 h2
  simp only [not_or, not_lt] at h1 h2
  exact stage_eq_of_le a b h2.1 h2.2 h1.1 h1.2

theorem stage_lt_of_le (a b : Stage) (h1 : a.group ≤ b.group) (h2 : a.inst ≤ b.inst)
    (h3 : a ≠ b) : Stage.lt a b = true ∧ ¬ Stage.lt b a = true := by
  rw [stage_lt_iff, stage_lt_iff]
  refine ⟨?_, ?_⟩
  · by_contra hc
    simp only [not_or, not_lt] at hc
    exact h3 (stage_eq_of_le a b h1 h2 hc.1 hc.2)
  · simp only [not_or, not_lt]
    exact ⟨h1, h2⟩

theorem stage_lt_irrefl (a : Stage) : ¬ Stage.lt a a = true := by
  rw [stage_lt_iff]
  simp

/-- On a stage set that the comparison of `Stage` orders one way only, `insertStage` is the
insertion of an ordered set: if the set is in ascending order and the comparison orders the new
stage and every stage of the set one way at most, the result is in ascending order and holds
the new stage and the stages of the set. -/
theorem insertStage_ascending (stage : Stage) (stages : GroupSet)
    (hasc : StagesAscending stages) (hal : ∀ y ∈ stages, Stage.Aligned stage y) :
    StagesAscending (insertStage stage stages) ∧
      ∀ x, x ∈ insertStage stage stages ↔ x = stage ∨ x ∈ stages := by
  induction stages with
  | nil =>
    exact ⟨List.pairwise_singleton _ _, fun x => by simp [insertStage, setInsert]⟩
  | cons y ys ih =>
    have hy := fun z (hz : z ∈ ys) => List.rel_of_pairwise_cons hasc hz
    have hys : StagesAscending ys := List.Pairwise.of_cons hasc
    have haly : Stage.Aligned stage y := hal y (List.mem_cons_self _ _)
    obtain ⟨ih1, ih2⟩ := ih hys (fun z hz => hal z (List.mem_cons_of_mem _ hz))
    unfold insertStage at ih1 ih2 ⊢
    unfold setInsert
    by_cases h1 : Stage.lt stage y = true
    · rw [if_pos h1]
      refine ⟨?_, fun x => by simp⟩
      obtain ⟨l1, l2, l3⟩ := stage_le_of_lt stage y h1 haly
      refine List.Pairwise.cons ?_ hasc
      intro z hz
      rcases List.mem_cons.1 hz with hz | hz
      · rw [hz]
        exact ⟨l1, l2, l3⟩
      · obtain ⟨g1, g2, -⟩ := hy z hz
        refine ⟨le_trans l1 g1, le_trans l2 g2, ?_⟩
        intro e
        apply l3
        rw [← e] at g1 g2
        exact stage_eq_of_le _ _ l1 l2 g1 g2
    · rw [if_neg h1]
      by_cases h2 : Stage.lt y stage = true
      · rw [if_pos h2]
        have haly' : Stage.Aligned y stage := fun h => haly ⟨h.2, h.1⟩
        obtain ⟨l1, l2, l3⟩ := stage_le_of_lt y stage h2 haly'
        refine ⟨List.Pairwise.cons ?_ ih1, ?_⟩
        · intro z hz
          rcases (ih2 z).1 hz with hz | hz
          · rw [hz]
            exact ⟨l1, l2, l3⟩
          · exact hy z hz
        · intro x
          rw [List.mem_cons, ih2 x, List.mem_cons]
          tauto
      · rw [if_neg h2]
        have e : stage = y := stage_eq_of_not_lt stage y h1 h2
        refine ⟨hasc, fun x => ?_⟩
        rw [e]
        simp

/-- Inserting a stage that an ascending stage set holds already changes nothing. -/
theorem insertStage_of_mem (stage : Stage) (stages : GroupSet)
    (hasc : StagesAscending stages) (hmem : stage ∈ stages) :
    insertStage stage stages = stages := by
  induction stages with
  | nil => exact absurd hmem (List.not_mem_nil _)
  | cons y ys ih =>
    have hy := fun z (hz : z ∈ ys) => List.rel_of_pairwise_cons hasc hz
    have hys : StagesAscending ys := List.Pairwise.of_cons hasc
    unfold insertStage at ih ⊢
    unfold setInsert
    rcases List.mem_cons.1 hmem with hm | hm
    · rw [hm, if_neg (stage_lt_irrefl y), if_neg (stage_lt_irrefl y)]
    · obtain ⟨g1, g2, g3⟩ := hy stage hm
      obtain ⟨h2, h1⟩ := stage_lt_of_le y stage g1 g2 g3
      rw [if_neg h1, if_pos h2, ih hys hm]

/-- A stage that is greater than every stage of the set is inserted at the end. -/
theorem insertStage_last (stage : Stage) (stages : GroupSet)
    (h : ∀ y ∈ stages, y.group ≤ stage.group ∧ y.inst ≤ stage.inst ∧ y ≠ stage) :
    insertStage stage stages = stages ++ [stage] := by
  induction stages with
  | nil => rfl
  | cons y ys ih =>
    obtain ⟨g1, g2, g3⟩ := h y (List.mem_cons_self _ _)
    obtain ⟨h2, h1⟩ := stage_lt_of_le y stage g1 g2 g3
    unfold insertStage at ih ⊢
    unfold setInsert
    rw [if_neg h1, if_pos h2, ih (fun z hz => h z (List.mem_cons_of_mem _ hz))]
    rfl

/-- The loop of `AddPropStages` on a stage set in ascending order, for a prop whose stage set
holds smaller stages only (none, for a new prop): the stage set of the prop afterwards is the
one before followed by the attached stages. -/
theorem AddPropStages_stagesOf (gpid : GlobalPropId) (stages before : GroupSet) (s : State)
    (hasc : StagesAscending (before ++ stages))
    (h : s.stagesOf gpid.typeId gpid.id = before) :
    (AddPropStages gpid stages s).stagesOf gpid.typeId gpid.id = before ++ stages := by
  induction stages generalizing before s with
  | nil => simpa [AddPropStages] using h
  | cons stage rest ih =>
    have hlast : insertStage stage before = before ++ [stage] := by
      apply insertStage_last
      intro y hy
      exact (List.pairwise_append.1 hasc).2.2 y hy stage (List.mem_cons_self _ _)
    have hasc' : StagesAscending ((before ++ [stage]) ++ rest) := by
      rw [List.append_assoc]
      exact hasc
    have := ih (before ++ [stage])
      { s with
        instanceBuffer := upd s.instanceBuffer stage.group
          ⟨(stage.inst + 1) % 65536, (s.instanceBuffer stage.group).freeIds⟩
        ptpsq := upd s.ptpsq gpid.typeId
          (mset gpid.id (insertStage stage (mgetD gpid.id [] (s.ptpsq gpid.typeId)))
            (s.ptpsq gpid.typeId)) } hasc' (by
        show mgetD gpid.id [] (upd s.ptpsq gpid.typeId _ gpid.typeId) = _
        rw [upd_same, mgetD_mset_same]
        have h' : mgetD gpid.id [] (s.ptpsq gpid.typeId) = before := h
        rw [h', hlast])
    rw [List.append_assoc] at this
    exact this

end Mango
